import Mathlib

/-!
# MurmurHash3 streaming digests (`murmurhash.go`)

A shallow embedding of the three streaming engines of `murmurhash.go`
(`murmur128x64v3`, `murmur128x86v3`, `murmur32x86v3`) and theorems about them.

Conventions of the embedding.

* A Go `byte` is a `Fin 256`; a `[]byte` is a `List Byte`.
* `uint32` / `uint64` values are natural numbers; every operation that can
  overflow in Go is reduced modulo `2^32` / `2^64` explicitly.
* A run-time panic (slice bounds or index out of range) is `none`.
* A method with a pointer receiver takes the engine and returns the engine it
  leaves behind together with its Go results.
* The fields `offset` and `written` are Go `int`s. `offset` never leaves
  `0..16`. `written` is kept as the exact byte count; the code reads it only
  through `written & 15`, `written & 3`, `uint64(written)` and
  `uint32(written)`, all of which are functions of the count modulo `2^64`, so
  the wrap-around of a 64-bit `int` is invisible to every result.
-/

namespace Murmur

/-- A Go `byte`. -/
abbrev Byte := Fin 256

/-- The conversion `byte(v)`: the low eight bits of `v`. -/
def byte (v : Nat) : Byte := ⟨v % 256, Nat.mod_lt v (by decide)⟩

/-! ## Constants (lines 9-23) -/

def sizeBlock128 : Nat := 16
def sizeBlock32 : Nat := 4

def one128x64 : Nat := 0x87c37b91114253d5
def two128x64 : Nat := 0x4cf5ad432745937f

def one128x86 : Nat := 0x239b961b
def two128x86 : Nat := 0xab0e9789
def three128x86 : Nat := 0x38b34ae5
def four128x86 : Nat := 0xa1e38b93

def one32x86 : Nat := 0xcc9e2d51
def two32x86 : Nat := 0x1b873593

/-! ## Library functions used by the code -/

/-- The function `bits.RotateLeft32(x, k)`: `s := k & 31; x<<s | x>>(32-s)` on `uint32`. -/
def RotateLeft32 (x k : Nat) : Nat :=
  ((x <<< (k % 32)) % 2 ^ 32) ||| ((x % 2 ^ 32) >>> (32 - k % 32))

/-- The function `bits.RotateLeft64(x, k)`: `s := k & 63; x<<s | x>>(64-s)` on `uint64`. -/
def RotateLeft64 (x k : Nat) : Nat :=
  ((x <<< (k % 64)) % 2 ^ 64) ||| ((x % 2 ^ 64) >>> (64 - k % 64))

/-- The function `binary.LittleEndian.Uint32(b)`: panics unless `b` has four bytes. -/
def Uint32 : List Byte → Option Nat
  | b0 :: b1 :: b2 :: b3 :: _ =>
    some (b0.val ||| (b1.val <<< 8) ||| (b2.val <<< 16) ||| (b3.val <<< 24))
  | _ => none

/-- The function `binary.LittleEndian.Uint64(b)`: panics unless `b` has eight bytes. -/
def Uint64 : List Byte → Option Nat
  | b0 :: b1 :: b2 :: b3 :: b4 :: b5 :: b6 :: b7 :: _ =>
    some (b0.val ||| (b1.val <<< 8) ||| (b2.val <<< 16) ||| (b3.val <<< 24) |||
      (b4.val <<< 32) ||| (b5.val <<< 40) ||| (b6.val <<< 48) ||| (b7.val <<< 56))
  | _ => none

/-- The four bytes `binary.LittleEndian.PutUint32` stores for `v`. -/
def PutUint32 (v : Nat) : List Byte :=
  [byte v, byte (v >>> 8), byte (v >>> 16), byte (v >>> 24)]

/-- The eight bytes `binary.LittleEndian.PutUint64` stores for `v`. -/
def PutUint64 (v : Nat) : List Byte :=
  [byte v, byte (v >>> 8), byte (v >>> 16), byte (v >>> 24),
   byte (v >>> 32), byte (v >>> 40), byte (v >>> 48), byte (v >>> 56)]

/-- The four bytes `binary.BigEndian.PutUint32` stores for `v` (used by the tests). -/
def PutUint32BE (v : Nat) : List Byte :=
  [byte (v >>> 24), byte (v >>> 16), byte (v >>> 8), byte v]

/-- The eight bytes `binary.BigEndian.PutUint64` stores for `v` (used by the tests). -/
def PutUint64BE (v : Nat) : List Byte :=
  [byte (v >>> 56), byte (v >>> 48), byte (v >>> 40), byte (v >>> 32),
   byte (v >>> 24), byte (v >>> 16), byte (v >>> 8), byte v]

/-- The slice expression `bs[i:]`: panics when `i` exceeds `len(bs)`. -/
def sliceFrom (bs : List Byte) (i : Nat) : Option (List Byte) :=
  if i ≤ bs.length then some (bs.drop i) else none

/-- The slice expression `bs[:i]`: panics when `i` exceeds `len(bs)`. -/
def sliceTo (bs : List Byte) (i : Nat) : Option (List Byte) :=
  if i ≤ bs.length then some (bs.take i) else none

/-- The call `copy(dst[off:], src)` on the array `dst`: panics when `off` exceeds
`len(dst)`, otherwise copies `n = min(len(dst) - off, len(src))` bytes and returns
the array after the copy together with `n`. -/
def copyAt (dst : List Byte) (off : Nat) (src : List Byte) : Option (List Byte × Nat) :=
  if off ≤ dst.length then
    let n := min (dst.length - off) src.length
    some (dst.take off ++ src.take n ++ dst.drop (off + n), n)
  else none

/-- The read `uintN(tail[i])`: panics when `i` is not below `len(tail)`. -/
def index (tail : List Byte) (i : Nat) : Option Nat :=
  match tail.get? i with
  | some b => some b.val
  | none => none

/-- A `case k:` arm of a `switch c` whose arms are listed in descending order and
all end in `fallthrough`: the arm runs exactly when the switch was entered at an
arm `c ≥ k`. -/
def arm (c k : Nat) (x : α) (body : α → Option α) : Option α :=
  if k ≤ c then body x else some x

/-! ## Finalization mixes (lines 505-525) -/

def finalMix32 (k : Nat) : Nat :=
  let k := k ^^^ (k >>> 16)
  let k := (k * 0x85ebca6b) % 2 ^ 32
  let k := k ^^^ (k >>> 13)
  let k := (k * 0xc2b2ae35) % 2 ^ 32
  let k := k ^^^ (k >>> 16)
  k

def finalMix64 (k : Nat) : Nat :=
  let k := k ^^^ (k >>> 33)
  let k := (k * 0xff51afd7ed558ccd) % 2 ^ 64
  let k := k ^^^ (k >>> 33)
  let k := (k * 0xc4ceb9fe1a85ec53) % 2 ^ 64
  let k := k ^^^ (k >>> 33)
  k

/-! ## `murmur128x64v3` (lines 25-187) -/

structure murmur128x64v3 where
  buffer : List Byte
  offset : Nat
  written : Nat
  hash1 : Nat
  hash2 : Nat
  seed : Nat

namespace murmur128x64v3

def Size (_m : murmur128x64v3) : Nat := sizeBlock128

def BlockSize (_m : murmur128x64v3) : Nat := sizeBlock128

/-- Lines 166-187. -/
def calculateBlock (m : murmur128x64v3) (bs : List Byte) : Option murmur128x64v3 := do
  let b0 ← sliceFrom bs 0
  let tmp ← Uint64 b0
  let tmp := (tmp * one128x64) % 2 ^ 64
  let tmp := RotateLeft64 tmp 31
  let tmp := (tmp * two128x64) % 2 ^ 64
  let hash1 := m.hash1 ^^^ tmp
  let hash1 := RotateLeft64 hash1 27
  let hash1 := (hash1 + m.hash2) % 2 ^ 64
  let hash1 := (hash1 * 5 + 0x52dce729) % 2 ^ 64
  let b8 ← sliceFrom bs 8
  let tmp ← Uint64 b8
  let tmp := (tmp * two128x64) % 2 ^ 64
  let tmp := RotateLeft64 tmp 33
  let tmp := (tmp * one128x64) % 2 ^ 64
  let hash2 := m.hash2 ^^^ tmp
  let hash2 := RotateLeft64 hash2 31
  let hash2 := (hash2 + hash1) % 2 ^ 64
  let hash2 := (hash2 * 5 + 0x38495ab5) % 2 ^ 64
  some { m with hash1 := hash1, hash2 := hash2 }

/-- The loop of lines 63-66, with `k` iterations left to run:
`for ; i < blocks; i++ { m.calculateBlock(bs[i*sizeBlock128:]); written += sizeBlock128 }`. -/
def blockLoop (bs : List Byte) :
    Nat → Nat → murmur128x64v3 → Nat → Option (murmur128x64v3 × Nat)
  | 0, _, m, written => some (m, written)
  | k + 1, i, m, written =>
    match sliceFrom bs (i * sizeBlock128) with
    | none => none
    | some b =>
      match m.calculateBlock b with
      | none => none
      | some m => blockLoop bs k (i + 1) m (written + sizeBlock128)

/-- Lines 59-70: the part of `Write` after the buffered bytes were handled. -/
def writeBlocks (m : murmur128x64v3) (bs : List Byte) (length : Nat) :
    Option (murmur128x64v3 × Nat) :=
  let blocks := bs.length / sizeBlock128
  match blockLoop bs blocks 0 m 0 with
  | none => none
  | some (m, written) =>
    if bs.length - written > 0 then
      match sliceFrom bs written with
      | none => none
      | some rest =>
        match copyAt m.buffer 0 rest with
        | none => none
        | some (buffer, n) => some ({ m with buffer := buffer, offset := n }, length)
    else some (m, length)

/-- Lines 46-71. The result is the engine after the call and the returned `n`
(the returned error is always `nil`). -/
def Write (m : murmur128x64v3) (bs : List Byte) : Option (murmur128x64v3 × Nat) :=
  let length := bs.length
  let m := { m with written := m.written + length }
  if m.offset > 0 then
    match copyAt m.buffer m.offset bs with
    | none => none
    | some (buffer, i) =>
      let m := { m with buffer := buffer, offset := m.offset + i }
      if m.offset < sizeBlock128 then some (m, length)
      else
        match sliceFrom m.buffer 0 with
        | none => none
        | some b =>
          match m.calculateBlock b with
          | none => none
          | some m =>
            match sliceFrom bs i with
            | none => none
            | some bs => writeBlocks { m with offset := 0 } bs length
  else writeBlocks m bs length

/-- Lines 73-78. -/
def Reset (m : murmur128x64v3) : murmur128x64v3 :=
  { m with hash1 := m.seed, hash2 := m.seed, offset := 0, written := 0 }

/-- Lines 93-118 of the `switch m.written & 15`, entered with `c = m.written & 15`:
the arms `case 15` .. `case 9`, on the local `k2` (zero at entry) and the field
`hash2`; the result is the new `hash2`. -/
def tailArms9 (tail : List Byte) (c : Nat) (hash2 : Nat) : Option Nat := do
  let k2 : Nat := 0
  let k2 ← arm c 15 k2 fun (k2 : Nat) => (index tail 14).map fun (b : Nat) => k2 ^^^ (b <<< 48)
  let k2 ← arm c 14 k2 fun (k2 : Nat) => (index tail 13).map fun (b : Nat) => k2 ^^^ (b <<< 40)
  let k2 ← arm c 13 k2 fun (k2 : Nat) => (index tail 12).map fun (b : Nat) => k2 ^^^ (b <<< 32)
  let k2 ← arm c 12 k2 fun (k2 : Nat) => (index tail 11).map fun (b : Nat) => k2 ^^^ (b <<< 24)
  let k2 ← arm c 11 k2 fun (k2 : Nat) => (index tail 10).map fun (b : Nat) => k2 ^^^ (b <<< 16)
  let k2 ← arm c 10 k2 fun (k2 : Nat) => (index tail 9).map fun (b : Nat) => k2 ^^^ (b <<< 8)
  arm c 9 hash2 fun (hash2 : Nat) => (index tail 8).map fun (b : Nat) =>
    let k2 := k2 ^^^ (b <<< 0)
    let k2 := (k2 * two128x64) % 2 ^ 64
    let k2 := RotateLeft64 k2 33
    let k2 := (k2 * one128x64) % 2 ^ 64
    hash2 ^^^ k2

/-- Lines 119-145 of the `switch m.written & 15`: the arms `case 8` .. `case 1`, on
the local `k1` (zero at entry) and the field `hash1`; the result is the new `hash1`. -/
def tailArms1 (tail : List Byte) (c : Nat) (hash1 : Nat) : Option Nat := do
  let k1 : Nat := 0
  let k1 ← arm c 8 k1 fun (k1 : Nat) => (index tail 7).map fun (b : Nat) => k1 ^^^ (b <<< 56)
  let k1 ← arm c 7 k1 fun (k1 : Nat) => (index tail 6).map fun (b : Nat) => k1 ^^^ (b <<< 48)
  let k1 ← arm c 6 k1 fun (k1 : Nat) => (index tail 5).map fun (b : Nat) => k1 ^^^ (b <<< 40)
  let k1 ← arm c 5 k1 fun (k1 : Nat) => (index tail 4).map fun (b : Nat) => k1 ^^^ (b <<< 32)
  let k1 ← arm c 4 k1 fun (k1 : Nat) => (index tail 3).map fun (b : Nat) => k1 ^^^ (b <<< 24)
  let k1 ← arm c 3 k1 fun (k1 : Nat) => (index tail 2).map fun (b : Nat) => k1 ^^^ (b <<< 16)
  let k1 ← arm c 2 k1 fun (k1 : Nat) => (index tail 1).map fun (b : Nat) => k1 ^^^ (b <<< 8)
  arm c 1 hash1 fun (hash1 : Nat) => (index tail 0).map fun (b : Nat) =>
    let k1 := k1 ^^^ (b <<< 0)
    let k1 := (k1 * one128x64) % 2 ^ 64
    let k1 := RotateLeft64 k1 31
    let k1 := (k1 * two128x64) % 2 ^ 64
    hash1 ^^^ k1

/-- The `switch m.written & 15` of lines 92-146, entered with `c = m.written & 15`:
the arms in the order of the source, `case 15` first; the result is the new
`(hash1, hash2)`. -/
def tailSwitch (tail : List Byte) (c : Nat) (hash1 hash2 : Nat) : Option (Nat × Nat) := do
  let hash2 ← tailArms9 tail c hash2
  let hash1 ← tailArms1 tail c hash1
  some (hash1, hash2)

/-- Lines 86-164. The result is the receiver as `checksum` leaves it, and the
returned slice. -/
def checksum (m : murmur128x64v3) : Option (murmur128x64v3 × List Byte) :=
  match sliceTo m.buffer m.offset with
  | none => none
  | some tail =>
    match tailSwitch tail (m.written % 16) m.hash1 m.hash2 with
    | none => none
    | some (hash1, hash2) =>
      let hash1 := hash1 ^^^ (m.written % 2 ^ 64)
      let hash2 := hash2 ^^^ (m.written % 2 ^ 64)
      let hash1 := (hash1 + hash2) % 2 ^ 64
      let hash2 := (hash2 + hash1) % 2 ^ 64
      let hash1 := finalMix64 hash1
      let hash2 := finalMix64 hash2
      let hash1 := (hash1 + hash2) % 2 ^ 64
      let hash2 := (hash2 + hash1) % 2 ^ 64
      some ({ m with hash1 := hash1, hash2 := hash2 }, PutUint64 hash1 ++ PutUint64 hash2)

/-- Lines 80-84: `checksum` runs on the copy `y := *m`; the receiver is left as it was. -/
def Sum (m : murmur128x64v3) (bs : List Byte) : Option (murmur128x64v3 × List Byte) :=
  let y := m
  match y.checksum with
  | none => none
  | some (_, sum) => some (m, bs ++ sum)

end murmur128x64v3

/-- Lines 35-40: `var m murmur128x64v3` is the zero value (a buffer of sixteen zero bytes). -/
def Murmur128x64v3 (seed : Nat) : murmur128x64v3 :=
  let m : murmur128x64v3 :=
    { buffer := List.replicate sizeBlock128 0, offset := 0, written := 0,
      hash1 := 0, hash2 := 0, seed := 0 }
  let m := { m with seed := seed }
  m.Reset

/-! ## `murmur128x86v3` (lines 189-399) -/

structure murmur128x86v3 where
  buffer : List Byte
  offset : Nat
  written : Nat
  hash1 : Nat
  hash2 : Nat
  hash3 : Nat
  hash4 : Nat
  seed : Nat

namespace murmur128x86v3

def Size (_m : murmur128x86v3) : Nat := sizeBlock128

def BlockSize (_m : murmur128x86v3) : Nat := sizeBlock128

/-- Lines 359-399. -/
def calculateBlock (m : murmur128x86v3) (bs : List Byte) : Option murmur128x86v3 := do
  let b0 ← sliceFrom bs 0
  let tmp ← Uint32 b0
  let tmp := (tmp * one128x86) % 2 ^ 32
  let tmp := RotateLeft32 tmp 15
  let tmp := (tmp * two128x86) % 2 ^ 32
  let hash1 := m.hash1 ^^^ tmp
  let hash1 := RotateLeft32 hash1 19
  let hash1 := (hash1 + m.hash2) % 2 ^ 32
  let hash1 := (hash1 * 5 + 0x561ccd1b) % 2 ^ 32
  let b4 ← sliceFrom bs 4
  let tmp ← Uint32 b4
  let tmp := (tmp * two128x86) % 2 ^ 32
  let tmp := RotateLeft32 tmp 16
  let tmp := (tmp * three128x86) % 2 ^ 32
  let hash2 := m.hash2 ^^^ tmp
  let hash2 := RotateLeft32 hash2 17
  let hash2 := (hash2 + m.hash3) % 2 ^ 32
  let hash2 := (hash2 * 5 + 0x0bcaa747) % 2 ^ 32
  let b8 ← sliceFrom bs 8
  let tmp ← Uint32 b8
  let tmp := (tmp * three128x86) % 2 ^ 32
  let tmp := RotateLeft32 tmp 17
  let tmp := (tmp * four128x86) % 2 ^ 32
  let hash3 := m.hash3 ^^^ tmp
  let hash3 := RotateLeft32 hash3 15
  let hash3 := (hash3 + m.hash4) % 2 ^ 32
  let hash3 := (hash3 * 5 + 0x96cd1c35) % 2 ^ 32
  let b12 ← sliceFrom bs 12
  let tmp ← Uint32 b12
  let tmp := (tmp * four128x86) % 2 ^ 32
  let tmp := RotateLeft32 tmp 18
  let tmp := (tmp * one128x86) % 2 ^ 32
  let hash4 := m.hash4 ^^^ tmp
  let hash4 := RotateLeft32 hash4 13
  let hash4 := (hash4 + hash1) % 2 ^ 32
  let hash4 := (hash4 * 5 + 0x32ac3b17) % 2 ^ 32
  some { m with hash1 := hash1, hash2 := hash2, hash3 := hash3, hash4 := hash4 }

/-- The loop of lines 231-234, with `k` iterations left to run:
`for ; i < blocks; i++ { m.calculateBlock(bs[i*sizeBlock128:]); written += sizeBlock128 }`. -/
def blockLoop (bs : List Byte) :
    Nat → Nat → murmur128x86v3 → Nat → Option (murmur128x86v3 × Nat)
  | 0, _, m, written => some (m, written)
  | k + 1, i, m, written =>
    match sliceFrom bs (i * sizeBlock128) with
    | none => none
    | some b =>
      match m.calculateBlock b with
      | none => none
      | some m => blockLoop bs k (i + 1) m (written + sizeBlock128)

/-- Lines 227-238: the part of `Write` after the buffered bytes were handled. -/
def writeBlocks (m : murmur128x86v3) (bs : List Byte) (length : Nat) :
    Option (murmur128x86v3 × Nat) :=
  let blocks := bs.length / sizeBlock128
  match blockLoop bs blocks 0 m 0 with
  | none => none
  | some (m, written) =>
    if bs.length - written > 0 then
      match sliceFrom bs written with
      | none => none
      | some rest =>
        match copyAt m.buffer 0 rest with
        | none => none
        | some (buffer, n) => some ({ m with buffer := buffer, offset := n }, length)
    else some (m, length)

/-- Lines 214-239. The result is the engine after the call and the returned `n`
(the returned error is always `nil`). -/
def Write (m : murmur128x86v3) (bs : List Byte) : Option (murmur128x86v3 × Nat) :=
  let length := bs.length
  let m := { m with written := m.written + length }
  if m.offset > 0 then
    match copyAt m.buffer m.offset bs with
    | none => none
    | some (buffer, i) =>
      let m := { m with buffer := buffer, offset := m.offset + i }
      if m.offset < sizeBlock128 then some (m, length)
      else
        match sliceFrom m.buffer 0 with
        | none => none
        | some b =>
          match m.calculateBlock b with
          | none => none
          | some m =>
            match sliceFrom bs i with
            | none => none
            | some bs => writeBlocks { m with offset := 0 } bs length
  else writeBlocks m bs length

/-- Lines 241-248. -/
def Reset (m : murmur128x86v3) : murmur128x86v3 :=
  { m with hash1 := m.seed, hash2 := m.seed, hash3 := m.seed, hash4 := m.seed,
           offset := 0, written := 0 }

/-- Lines 265-277 of the `switch m.written & 15`, entered with `c = m.written & 15`:
the arms `case 15` .. `case 13`, on the local `k4` (zero at entry) and the field
`hash4`; the result is the new `hash4`. -/
def tailArms13 (tail : List Byte) (c : Nat) (hash4 : Nat) : Option Nat := do
  let k4 : Nat := 0
  let k4 ← arm c 15 k4 fun (k4 : Nat) => (index tail 14).map fun (b : Nat) => k4 ^^^ (b <<< 16)
  let k4 ← arm c 14 k4 fun (k4 : Nat) => (index tail 13).map fun (b : Nat) => k4 ^^^ (b <<< 8)
  arm c 13 hash4 fun (hash4 : Nat) => (index tail 12).map fun (b : Nat) =>
    let k4 := k4 ^^^ (b <<< 0)
    let k4 := (k4 * four128x86) % 2 ^ 32
    let k4 := RotateLeft32 k4 18
    let k4 := (k4 * one128x86) % 2 ^ 32
    hash4 ^^^ k4

/-- Lines 278-293: the arms `case 12` .. `case 9`, on the local `k3` and the field `hash3`. -/
def tailArms9 (tail : List Byte) (c : Nat) (hash3 : Nat) : Option Nat := do
  let k3 : Nat := 0
  let k3 ← arm c 12 k3 fun (k3 : Nat) => (index tail 11).map fun (b : Nat) => k3 ^^^ (b <<< 24)
  let k3 ← arm c 11 k3 fun (k3 : Nat) => (index tail 10).map fun (b : Nat) => k3 ^^^ (b <<< 16)
  let k3 ← arm c 10 k3 fun (k3 : Nat) => (index tail 9).map fun (b : Nat) => k3 ^^^ (b <<< 8)
  arm c 9 hash3 fun (hash3 : Nat) => (index tail 8).map fun (b : Nat) =>
    let k3 := k3 ^^^ (b <<< 0)
    let k3 := (k3 * three128x86) % 2 ^ 32
    let k3 := RotateLeft32 k3 17
    let k3 := (k3 * four128x86) % 2 ^ 32
    hash3 ^^^ k3

/-- Lines 294-309: the arms `case 8` .. `case 5`, on the local `k2` and the field `hash2`. -/
def tailArms5 (tail : List Byte) (c : Nat) (hash2 : Nat) : Option Nat := do
  let k2 : Nat := 0
  let k2 ← arm c 8 k2 fun (k2 : Nat) => (index tail 7).map fun (b : Nat) => k2 ^^^ (b <<< 24)
  let k2 ← arm c 7 k2 fun (k2 : Nat) => (index tail 6).map fun (b : Nat) => k2 ^^^ (b <<< 16)
  let k2 ← arm c 6 k2 fun (k2 : Nat) => (index tail 5).map fun (b : Nat) => k2 ^^^ (b <<< 8)
  arm c 5 hash2 fun (hash2 : Nat) => (index tail 4).map fun (b : Nat) =>
    let k2 := k2 ^^^ (b <<< 0)
    let k2 := (k2 * two128x86) % 2 ^ 32
    let k2 := RotateLeft32 k2 16
    let k2 := (k2 * three128x86) % 2 ^ 32
    hash2 ^^^ k2

/-- Lines 310-324: the arms `case 4` .. `case 1`, on the local `k1` and the field `hash1`. -/
def tailArms1 (tail : List Byte) (c : Nat) (hash1 : Nat) : Option Nat := do
  let k1 : Nat := 0
  let k1 ← arm c 4 k1 fun (k1 : Nat) => (index tail 3).map fun (b : Nat) => k1 ^^^ (b <<< 24)
  let k1 ← arm c 3 k1 fun (k1 : Nat) => (index tail 2).map fun (b : Nat) => k1 ^^^ (b <<< 16)
  let k1 ← arm c 2 k1 fun (k1 : Nat) => (index tail 1).map fun (b : Nat) => k1 ^^^ (b <<< 8)
  arm c 1 hash1 fun (hash1 : Nat) => (index tail 0).map fun (b : Nat) =>
    let k1 := k1 ^^^ (b <<< 0)
    let k1 := (k1 * one128x86) % 2 ^ 32
    let k1 := RotateLeft32 k1 15
    let k1 := (k1 * two128x86) % 2 ^ 32
    hash1 ^^^ k1

/-- The `switch m.written & 15` of lines 264-325, entered with `c = m.written & 15`:
the arms in the order of the source, `case 15` first; the result is the new
`(hash1, hash2, hash3, hash4)`. -/
def tailSwitch (tail : List Byte) (c : Nat) (hash1 hash2 hash3 hash4 : Nat) :
    Option (Nat × Nat × Nat × Nat) := do
  let hash4 ← tailArms13 tail c hash4
  let hash3 ← tailArms9 tail c hash3
  let hash2 ← tailArms5 tail c hash2
  let hash1 ← tailArms1 tail c hash1
  some (hash1, hash2, hash3, hash4)

/-- Lines 256-357. The result is the receiver as `checksum` leaves it, and the
returned slice. -/
def checksum (m : murmur128x86v3) : Option (murmur128x86v3 × List Byte) :=
  match sliceTo m.buffer m.offset with
  | none => none
  | some tail =>
    match tailSwitch tail (m.written % 16) m.hash1 m.hash2 m.hash3 m.hash4 with
    | none => none
    | some (hash1, hash2, hash3, hash4) =>
      let hash1 := hash1 ^^^ (m.written % 2 ^ 32)
      let hash2 := hash2 ^^^ (m.written % 2 ^ 32)
      let hash3 := hash3 ^^^ (m.written % 2 ^ 32)
      let hash4 := hash4 ^^^ (m.written % 2 ^ 32)
      let hash1 := (hash1 + hash2) % 2 ^ 32
      let hash1 := (hash1 + hash3) % 2 ^ 32
      let hash1 := (hash1 + hash4) % 2 ^ 32
      let hash2 := (hash2 + hash1) % 2 ^ 32
      let hash3 := (hash3 + hash1) % 2 ^ 32
      let hash4 := (hash4 + hash1) % 2 ^ 32
      let hash1 := finalMix32 hash1
      let hash2 := finalMix32 hash2
      let hash3 := finalMix32 hash3
      let hash4 := finalMix32 hash4
      let hash1 := (hash1 + hash2) % 2 ^ 32
      let hash1 := (hash1 + hash3) % 2 ^ 32
      let hash1 := (hash1 + hash4) % 2 ^ 32
      let hash2 := (hash2 + hash1) % 2 ^ 32
      let hash3 := (hash3 + hash1) % 2 ^ 32
      let hash4 := (hash4 + hash1) % 2 ^ 32
      some ({ m with hash1 := hash1, hash2 := hash2, hash3 := hash3, hash4 := hash4 },
        PutUint32 hash1 ++ PutUint32 hash2 ++ PutUint32 hash3 ++ PutUint32 hash4)

/-- Lines 250-254: `checksum` runs on the copy `y := *m`; the receiver is left as it was. -/
def Sum (m : murmur128x86v3) (bs : List Byte) : Option (murmur128x86v3 × List Byte) :=
  let y := m
  match y.checksum with
  | none => none
  | some (_, sum) => some (m, bs ++ sum)

end murmur128x86v3

/-- Lines 202-208: `var m murmur128x86v3` is the zero value (a buffer of sixteen zero bytes). -/
def Murmur128x86v3 (seed : Nat) : murmur128x86v3 :=
  let m : murmur128x86v3 :=
    { buffer := List.replicate sizeBlock128 0, offset := 0, written := 0,
      hash1 := 0, hash2 := 0, hash3 := 0, hash4 := 0, seed := 0 }
  let m := { m with seed := seed }
  m.Reset

/-! ## `murmur32x86v3` (lines 401-503) -/

structure murmur32x86v3 where
  buffer : List Byte
  offset : Nat
  written : Nat
  digest : Nat
  seed : Nat

namespace murmur32x86v3

def Size (_m : murmur32x86v3) : Nat := sizeBlock32

def BlockSize (_m : murmur32x86v3) : Nat := sizeBlock32

/-- Lines 493-503. -/
def calculateBlock (m : murmur32x86v3) (bs : List Byte) : Option murmur32x86v3 :=
  match Uint32 bs with
  | none => none
  | some tmp =>
    let tmp := (tmp * one32x86) % 2 ^ 32
    let tmp := RotateLeft32 tmp 15
    let tmp := (tmp * two32x86) % 2 ^ 32
    let digest := m.digest ^^^ tmp
    let digest := RotateLeft32 digest 13
    let digest := (digest * 5 + 0xe6546b64) % 2 ^ 32
    some { m with digest := digest }

/-- The loop of lines 440-443, with `k` iterations left to run:
`for ; i < blocks; i++ { m.calculateBlock(bs[i*sizeBlock32:]); written += sizeBlock32 }`. -/
def blockLoop (bs : List Byte) : Nat → Nat → murmur32x86v3 → Nat → Option (murmur32x86v3 × Nat)
  | 0, _, m, written => some (m, written)
  | k + 1, i, m, written =>
    match sliceFrom bs (i * sizeBlock32) with
    | none => none
    | some b =>
      match m.calculateBlock b with
      | none => none
      | some m => blockLoop bs k (i + 1) m (written + sizeBlock32)

/-- Lines 436-447: the part of `Write` after the buffered bytes were handled. -/
def writeBlocks (m : murmur32x86v3) (bs : List Byte) (length : Nat) :
    Option (murmur32x86v3 × Nat) :=
  let blocks := bs.length / sizeBlock32
  match blockLoop bs blocks 0 m 0 with
  | none => none
  | some (m, written) =>
    if bs.length - written > 0 then
      match sliceFrom bs written with
      | none => none
      | some rest =>
        match copyAt m.buffer 0 rest with
        | none => none
        | some (buffer, n) => some ({ m with buffer := buffer, offset := n }, length)
    else some (m, length)

/-- Lines 423-448. The result is the engine after the call and the returned `n`
(the returned error is always `nil`). -/
def Write (m : murmur32x86v3) (bs : List Byte) : Option (murmur32x86v3 × Nat) :=
  let length := bs.length
  let m := { m with written := m.written + length }
  if m.offset > 0 then
    match copyAt m.buffer m.offset bs with
    | none => none
    | some (buffer, i) =>
      let m := { m with buffer := buffer, offset := m.offset + i }
      if m.offset < sizeBlock32 then some (m, length)
      else
        match sliceFrom m.buffer 0 with
        | none => none
        | some b =>
          match m.calculateBlock b with
          | none => none
          | some m =>
            match sliceFrom bs i with
            | none => none
            | some bs => writeBlocks { m with offset := 0 } bs length
  else writeBlocks m bs length

/-- Lines 450-454. -/
def Reset (m : murmur32x86v3) : murmur32x86v3 :=
  { m with digest := m.seed, offset := 0, written := 0 }

/-- The `switch m.written & 3` of lines 471-484, entered with `c = m.written & 3`,
on the local `k1` (zero at entry) and the field `digest`; the result is the new
`digest`. -/
def tailSwitch (tail : List Byte) (c : Nat) (digest : Nat) : Option Nat := do
  let k1 : Nat := 0
  let k1 ← arm c 3 k1 fun (k1 : Nat) => (index tail 2).map fun (b : Nat) => k1 ^^^ (b <<< 16)
  let k1 ← arm c 2 k1 fun (k1 : Nat) => (index tail 1).map fun (b : Nat) => k1 ^^^ (b <<< 8)
  arm c 1 digest fun (digest : Nat) => (index tail 0).map fun (b : Nat) =>
    let k1 := k1 ^^^ b
    let k1 := (k1 * one32x86) % 2 ^ 32
    let k1 := RotateLeft32 k1 15
    let k1 := (k1 * two32x86) % 2 ^ 32
    digest ^^^ k1

/-- Lines 466-491. The result is the receiver as `checksum` leaves it, and the
returned slice. -/
def checksum (m : murmur32x86v3) : Option (murmur32x86v3 × List Byte) :=
  match sliceTo m.buffer m.offset with
  | none => none
  | some tail =>
    match tailSwitch tail (m.written % 4) m.digest with
    | none => none
    | some digest =>
      let digest := digest ^^^ (m.written % 2 ^ 32)
      let digest := finalMix32 digest
      some ({ m with digest := digest }, PutUint32 digest)

/-- Lines 460-464: `checksum` runs on the copy `y := *m`; the receiver is left as it was. -/
def Sum (m : murmur32x86v3) (bs : List Byte) : Option (murmur32x86v3 × List Byte) :=
  let y := m
  match y.checksum with
  | none => none
  | some (_, sum) => some (m, bs ++ sum)

/-- Lines 456-458. -/
def Sum32 (m : murmur32x86v3) : Option (murmur32x86v3 × Nat) :=
  match m.Sum [] with
  | none => none
  | some (m, s) =>
    match Uint32 s with
    | none => none
    | some v => some (m, v)

end murmur32x86v3

/-- Lines 410-417: `var m murmur32x86v3` is the zero value (a buffer of four zero bytes). -/
def Murmur32x86v3 (seed : Nat) : murmur32x86v3 :=
  let m : murmur32x86v3 :=
    { buffer := List.replicate sizeBlock32 0, offset := 0, written := 0, digest := 0, seed := 0 }
  let m := { m with seed := seed }
  m.Reset

/-! ## Inputs used to state the claims -/

/-- The 43 ASCII bytes of "the quick brown fox jumps over the lazy dog". -/
def fox : List Byte :=
  [116, 104, 101, 32, 113, 117, 105, 99, 107, 32, 98, 114, 111, 119, 110, 32, 102, 111, 120, 32,
   106, 117, 109, 112, 115, 32, 111, 118, 101, 114, 32, 116, 104, 101, 32, 108, 97, 122, 121, 32,
   100, 111, 103]

/-! ## The common shape of the three `Write` methods

The three `Write` methods are the same text up to the block size and the block
function. The definitions of this section are that common text over an abstract
hash state `H`; they are used in proofs only, through the lemmas that each
engine-specific `Write` is an instance of `gWrite`. -/

/-- The buffering fields of an engine together with its hash lanes `h`. -/
structure GState (H : Type) where
  buffer : List Byte
  offset : Nat
  written : Nat
  h : H

section Generic

variable {H : Type} (B : Nat) (step : H → List Byte → Option H)

/-- The block loop over abstract lanes. -/
def gLoop (bs : List Byte) : Nat → Nat → H → Nat → Option (H × Nat)
  | 0, _, h, written => some (h, written)
  | k + 1, i, h, written =>
    match sliceFrom bs (i * B) with
    | none => none
    | some b =>
      match step h b with
      | none => none
      | some h => gLoop bs k (i + 1) h (written + B)

/-- The second half of `Write` over abstract lanes. -/
def gWriteBlocks (g : GState H) (bs : List Byte) (length : Nat) : Option (GState H × Nat) :=
  match gLoop B step bs (bs.length / B) 0 g.h 0 with
  | none => none
  | some (h, written) =>
    if bs.length - written > 0 then
      match sliceFrom bs written with
      | none => none
      | some rest =>
        match copyAt g.buffer 0 rest with
        | none => none
        | some (buffer, n) => some ({ g with h := h, buffer := buffer, offset := n }, length)
    else some ({ g with h := h }, length)

/-- The method `Write` over abstract lanes. -/
def gWrite (g : GState H) (bs : List Byte) : Option (GState H × Nat) :=
  let length := bs.length
  let g := { g with written := g.written + length }
  if g.offset > 0 then
    match copyAt g.buffer g.offset bs with
    | none => none
    | some (buffer, i) =>
      let g := { g with buffer := buffer, offset := g.offset + i }
      if g.offset < B then some (g, length)
      else
        match sliceFrom g.buffer 0 with
        | none => none
        | some b =>
          match step g.h b with
          | none => none
          | some h =>
            match sliceFrom bs i with
            | none => none
            | some bs => gWriteBlocks B step { g with h := h, offset := 0 } bs length
  else gWriteBlocks B step g bs length

/-- The lanes after `n` consecutive blocks of `bs` were mixed in, starting from `h`. -/
def absorb : Nat → H → List Byte → Option H
  | 0, h, _ => some h
  | n + 1, h, bs =>
    match step h bs with
    | none => none
    | some h => absorb n h (bs.drop B)

/-- The engine state `g` holds the byte sequence `S` written since the lanes were `h0`:
whole blocks of `S` are mixed into the lanes, the rest of `S` is the buffered tail. -/
structure Holds (h0 : H) (S : List Byte) (g : GState H) : Prop where
  buf_len : g.buffer.length = B
  offset_eq : g.offset = S.length % B
  tail_eq : g.buffer.take g.offset = S.drop (S.length / B * B)
  hash_eq : absorb B step (S.length / B) h0 S = some g.h

/-- What the proofs need of a block function: it succeeds on `B` bytes or more and
reads only the first `B` of them. -/
structure BlockFn : Prop where
  pos : 0 < B
  ok : ∀ h bs, B ≤ bs.length → ∃ h', step h bs = some h'
  takeB : ∀ h bs, B ≤ bs.length → step h bs = step h (bs.take B)

end Generic

/-! ## Call sequences, and the engines as instances of the common shape

For each engine: its lanes as one value (`lanes`, `setLanes`, `block`, `toG`, `ofG`), the
invariant `Holding` of the proofs, and the drivers `call`, `run`, `sumNil` with which the
claims are stated. -/

/-- A call of the public interface of an engine. -/
inductive Call where
  | write (bs : List Byte)
  | sum (b : List Byte)
  | reset

namespace murmur128x64v3

/-- The hash lanes of the engine. -/
def lanes (m : murmur128x64v3) : Nat × Nat := (m.hash1, m.hash2)

/-- The engine with its hash lanes replaced. -/
def setLanes (m : murmur128x64v3) (h : Nat × Nat) : murmur128x64v3 :=
  { m with hash1 := h.1, hash2 := h.2 }

/-- The effect of `calculateBlock` on the lanes alone. -/
def block (h : Nat × Nat) (bs : List Byte) : Option (Nat × Nat) :=
  match calculateBlock
      { buffer := [], offset := 0, written := 0, hash1 := h.1, hash2 := h.2, seed := 0 } bs with
  | none => none
  | some m => some m.lanes

/-- The buffering fields and lanes of the engine. -/
def toG (m : murmur128x64v3) : GState (Nat × Nat) :=
  { buffer := m.buffer, offset := m.offset, written := m.written, h := m.lanes }

/-- The engine with its buffering fields and lanes replaced. -/
def ofG (m : murmur128x64v3) (g : GState (Nat × Nat)) : murmur128x64v3 :=
  { buffer := g.buffer, offset := g.offset, written := g.written,
    hash1 := g.h.1, hash2 := g.h.2, seed := m.seed }

/-- The engine `m` was built or reset with `seed` and the bytes `S` were written
to it since. -/
def Holding (seed : Nat) (S : List Byte) (m : murmur128x64v3) : Prop :=
  Holds 16 block (seed, seed) S m.toG ∧ m.written = S.length ∧ m.seed = seed

/-- One call of the public interface: `Write(bs)`, `Sum(b)` or `Reset()`. -/
def call (m : murmur128x64v3) : Call → Option murmur128x64v3
  | Call.write bs =>
    match m.Write bs with
    | none => none
    | some (m, _) => some m
  | Call.sum b =>
    match m.Sum b with
    | none => none
    | some (m, _) => some m
  | Call.reset => some m.Reset

/-- A sequence of calls of the public interface, in order. -/
def run (m : murmur128x64v3) : List Call → Option murmur128x64v3
  | [] => some m
  | c :: cs =>
    match m.call c with
    | none => none
    | some m => run m cs

/-- The call `Sum(nil)` on the engine a sequence of calls has left: the bytes it returns. -/
def sumNil : Option murmur128x64v3 → Option (List Byte)
  | none => none
  | some m =>
    match m.Sum [] with
    | none => none
    | some (_, d) => some d

end murmur128x64v3

namespace murmur128x86v3

/-- The hash lanes of the engine. -/
def lanes (m : murmur128x86v3) : Nat × Nat × Nat × Nat := (m.hash1, m.hash2, m.hash3, m.hash4)

/-- The engine with its hash lanes replaced. -/
def setLanes (m : murmur128x86v3) (h : Nat × Nat × Nat × Nat) : murmur128x86v3 :=
  { m with hash1 := h.1, hash2 := h.2.1, hash3 := h.2.2.1, hash4 := h.2.2.2 }

/-- The effect of `calculateBlock` on the lanes alone. -/
def block (h : Nat × Nat × Nat × Nat) (bs : List Byte) : Option (Nat × Nat × Nat × Nat) :=
  match calculateBlock
      { buffer := [], offset := 0, written := 0, hash1 := h.1, hash2 := h.2.1,
        hash3 := h.2.2.1, hash4 := h.2.2.2, seed := 0 } bs with
  | none => none
  | some m => some m.lanes

/-- The buffering fields and lanes of the engine. -/
def toG (m : murmur128x86v3) : GState (Nat × Nat × Nat × Nat) :=
  { buffer := m.buffer, offset := m.offset, written := m.written, h := m.lanes }

/-- The engine with its buffering fields and lanes replaced. -/
def ofG (m : murmur128x86v3) (g : GState (Nat × Nat × Nat × Nat)) : murmur128x86v3 :=
  { buffer := g.buffer, offset := g.offset, written := g.written,
    hash1 := g.h.1, hash2 := g.h.2.1, hash3 := g.h.2.2.1, hash4 := g.h.2.2.2, seed := m.seed }

/-- The engine `m` was built or reset with `seed` and the bytes `S` were written
to it since. -/
def Holding (seed : Nat) (S : List Byte) (m : murmur128x86v3) : Prop :=
  Holds 16 block (seed, seed, seed, seed) S m.toG ∧ m.written = S.length ∧ m.seed = seed

/-- One call of the public interface: `Write(bs)`, `Sum(b)` or `Reset()`. -/
def call (m : murmur128x86v3) : Call → Option murmur128x86v3
  | Call.write bs =>
    match m.Write bs with
    | none => none
    | some (m, _) => some m
  | Call.sum b =>
    match m.Sum b with
    | none => none
    | some (m, _) => some m
  | Call.reset => some m.Reset

/-- A sequence of calls of the public interface, in order. -/
def run (m : murmur128x86v3) : List Call → Option murmur128x86v3
  | [] => some m
  | c :: cs =>
    match m.call c with
    | none => none
    | some m => run m cs

/-- The call `Sum(nil)` on the engine a sequence of calls has left: the bytes it returns. -/
def sumNil : Option murmur128x86v3 → Option (List Byte)
  | none => none
  | some m =>
    match m.Sum [] with
    | none => none
    | some (_, d) => some d

end murmur128x86v3

namespace murmur32x86v3

/-- The hash lanes of the engine. -/
def lanes (m : murmur32x86v3) : Nat := m.digest

/-- The engine with its hash lanes replaced. -/
def setLanes (m : murmur32x86v3) (h : Nat) : murmur32x86v3 :=
  { m with digest := h }

/-- The effect of `calculateBlock` on the lanes alone. -/
def block (h : Nat) (bs : List Byte) : Option (Nat) :=
  match calculateBlock
      { buffer := [], offset := 0, written := 0, digest := h, seed := 0 } bs with
  | none => none
  | some m => some m.lanes

/-- The buffering fields and lanes of the engine. -/
def toG (m : murmur32x86v3) : GState (Nat) :=
  { buffer := m.buffer, offset := m.offset, written := m.written, h := m.lanes }

/-- The engine with its buffering fields and lanes replaced. -/
def ofG (m : murmur32x86v3) (g : GState (Nat)) : murmur32x86v3 :=
  { buffer := g.buffer, offset := g.offset, written := g.written,
    digest := g.h, seed := m.seed }

/-- The engine `m` was built or reset with `seed` and the bytes `S` were written
to it since. -/
def Holding (seed : Nat) (S : List Byte) (m : murmur32x86v3) : Prop :=
  Holds 4 block seed S m.toG ∧ m.written = S.length ∧ m.seed = seed

/-- One call of the public interface: `Write(bs)`, `Sum(b)` or `Reset()`. -/
def call (m : murmur32x86v3) : Call → Option murmur32x86v3
  | Call.write bs =>
    match m.Write bs with
    | none => none
    | some (m, _) => some m
  | Call.sum b =>
    match m.Sum b with
    | none => none
    | some (m, _) => some m
  | Call.reset => some m.Reset

/-- A sequence of calls of the public interface, in order. -/
def run (m : murmur32x86v3) : List Call → Option murmur32x86v3
  | [] => some m
  | c :: cs =>
    match m.call c with
    | none => none
    | some m => run m cs

/-- The call `Sum(nil)` on the engine a sequence of calls has left: the bytes it returns. -/
def sumNil : Option murmur32x86v3 → Option (List Byte)
  | none => none
  | some m =>
    match m.Sum [] with
    | none => none
    | some (_, d) => some d

end murmur32x86v3

/-- The lanes `(hash1, hash2)` of the copy `y` when `y.checksum()` has returned inside
`Sum`, on the engine a sequence of calls has left. -/
def murmur128x64v3.sumLanes : Option murmur128x64v3 → Option (Nat × Nat)
  | none => none
  | some m =>
    match m.checksum with
    | none => none
    | some (y, _) => some (y.hash1, y.hash2)

/-! ## Reference definitions the claims compare the code with

`zeroPad`, the three `paddedFold` and `writtenSince` follow the words of the claims, not the
code. `tailStep`, `finish` and `mixLanes` are pieces of `checksum` and `calculateBlock`,
named so that statements and proofs can speak of them. -/

/-- The tail `tail` followed by as many zero bytes as it takes to reach `n` bytes. -/
def zeroPad (n : Nat) (tail : List Byte) : List Byte :=
  tail ++ List.replicate (n - tail.length) 0

/-- The tail fold of `Murmur128x86v3` as the claim describes it: the tail is zero-padded
to 16 bytes and read as four little-endian 32-bit words `k1`..`k4`, and each lane is XORed
with the degraded mix of its word. -/
def murmur128x86v3.paddedFold (tail : List Byte) (hash1 hash2 hash3 hash4 : Nat) :
    Option (Nat × Nat × Nat × Nat) :=
  match Uint32 (zeroPad 16 tail), Uint32 ((zeroPad 16 tail).drop 4),
      Uint32 ((zeroPad 16 tail).drop 8), Uint32 ((zeroPad 16 tail).drop 12) with
  | some k1, some k2, some k3, some k4 =>
    some (hash1 ^^^ (RotateLeft32 (k1 * 0x239b961b % 2 ^ 32) 15 * 0xab0e9789 % 2 ^ 32),
      hash2 ^^^ (RotateLeft32 (k2 * 0xab0e9789 % 2 ^ 32) 16 * 0x38b34ae5 % 2 ^ 32),
      hash3 ^^^ (RotateLeft32 (k3 * 0x38b34ae5 % 2 ^ 32) 17 * 0xa1e38b93 % 2 ^ 32),
      hash4 ^^^ (RotateLeft32 (k4 * 0xa1e38b93 % 2 ^ 32) 18 * 0x239b961b % 2 ^ 32))
  | _, _, _, _ => none

/-- The tail fold of `Murmur128x64v3` with every lane zero-padded: the tail is zero-padded
to 16 bytes and read as two little-endian 64-bit words `k1`, `k2`, and each lane is XORed
with the degraded mix of its word. -/
def murmur128x64v3.paddedFold (tail : List Byte) (hash1 hash2 : Nat) : Option (Nat × Nat) :=
  match Uint64 (zeroPad 16 tail), Uint64 ((zeroPad 16 tail).drop 8) with
  | some k1, some k2 =>
    some (hash1 ^^^
        (RotateLeft64 (k1 * 0x87c37b91114253d5 % 2 ^ 64) 31 * 0x4cf5ad432745937f % 2 ^ 64),
      hash2 ^^^
        (RotateLeft64 (k2 * 0x4cf5ad432745937f % 2 ^ 64) 33 * 0x87c37b91114253d5 % 2 ^ 64))
  | _, _ => none

/-- The tail fold of `Murmur32x86v3` with the tail zero-padded to 4 bytes and read as one
little-endian 32-bit word `k1`: the lane is XORed with the degraded mix of `k1`. -/
def murmur32x86v3.paddedFold (tail : List Byte) (digest : Nat) : Option Nat :=
  match Uint32 (zeroPad 4 tail) with
  | some k1 => some (digest ^^^ (RotateLeft32 (k1 * 0xcc9e2d51 % 2 ^ 32) 15 * 0x1b873593 % 2 ^ 32))
  | none => none

/-- Lines 148-163 of `murmur128x64v3.checksum` as a function of the lanes `hash1`, `hash2`
left by the tail switch and of `written` (used in proofs only): the returned slice. -/
def murmur128x64v3.finish (hash1 hash2 written : Nat) : List Byte :=
  let hash1 := hash1 ^^^ (written % 2 ^ 64)
  let hash2 := hash2 ^^^ (written % 2 ^ 64)
  let hash1 := (hash1 + hash2) % 2 ^ 64
  let hash2 := (hash2 + hash1) % 2 ^ 64
  let hash1 := finalMix64 hash1
  let hash2 := finalMix64 hash2
  let hash1 := (hash1 + hash2) % 2 ^ 64
  let hash2 := (hash2 + hash1) % 2 ^ 64
  PutUint64 hash1 ++ PutUint64 hash2

/-- The effect of `murmur128x64v3.calculateBlock` on the lanes `h`, given the two words
`t1`, `t2` it has read and mixed from the block (used in proofs only). -/
def murmur128x64v3.mixLanes (h : Nat × Nat) (t1 t2 : Nat) : Nat × Nat :=
  let hash1 := ((RotateLeft64 (h.1 ^^^ t1) 27 + h.2) % 2 ^ 64 * 5 + 0x52dce729) % 2 ^ 64
  let hash2 := ((RotateLeft64 (h.2 ^^^ t2) 31 + hash1) % 2 ^ 64 * 5 + 0x38495ab5) % 2 ^ 64
  (hash1, hash2)

/-- The bytes passed to `Write` since construction or the last `Reset`, after the calls
`cs`, when they were `S` before. -/
def writtenSince (S : List Byte) : List Call → List Byte
  | [] => S
  | Call.write bs :: cs => writtenSince (S ++ bs) cs
  | Call.sum _ :: cs => writtenSince S cs
  | Call.reset :: cs => writtenSince [] cs

/-- The tail step of `murmur128x64v3.checksum` (lines 87-146) on the engine `m`: the lanes
`(hash1, hash2)` when the `switch` is left. -/
def murmur128x64v3.tailStep (m : murmur128x64v3) : Option (Nat × Nat) :=
  match sliceTo m.buffer m.offset with
  | none => none
  | some tail => murmur128x64v3.tailSwitch tail (m.written % 16) m.hash1 m.hash2

/-- The tail step of `murmur128x86v3.checksum` (lines 257-325) on the engine `m`: the lanes
`(hash1, hash2, hash3, hash4)` when the `switch` is left. -/
def murmur128x86v3.tailStep (m : murmur128x86v3) : Option (Nat × Nat × Nat × Nat) :=
  match sliceTo m.buffer m.offset with
  | none => none
  | some tail =>
    murmur128x86v3.tailSwitch tail (m.written % 16) m.hash1 m.hash2 m.hash3 m.hash4

/-! ## Proofs: the common shape of `Write` -/

section GenericProofs

variable {H : Type} {B : Nat} {step : H → List Byte → Option H}

theorem sliceFrom_of_le {bs : List Byte} {i : Nat} (h : i ≤ bs.length) :
    sliceFrom bs i = some (bs.drop i) := by
  simp [sliceFrom, h]

theorem sliceTo_of_le {bs : List Byte} {i : Nat} (h : i ≤ bs.length) :
    sliceTo bs i = some (bs.take i) := by
  simp [sliceTo, h]

theorem absorb_ok (hf : BlockFn B step) :
    ∀ (n : Nat) (h : H) (bs : List Byte), n * B ≤ bs.length →
      ∃ h', absorb B step n h bs = some h'
  | 0, h, _, _ => ⟨h, rfl⟩
  | n + 1, h, bs, hle => by
    have hB : B ≤ bs.length := by
      have : (n + 1) * B = n * B + B := Nat.succ_mul n B
      omega
    obtain ⟨h1, e1⟩ := hf.ok h bs hB
    have hle2 : n * B ≤ (bs.drop B).length := by
      have : (n + 1) * B = n * B + B := Nat.succ_mul n B
      simp only [List.length_drop]
      omega
    obtain ⟨h2, e2⟩ := absorb_ok hf n h1 (bs.drop B) hle2
    exact ⟨h2, by simp [absorb, e1, e2]⟩

theorem absorb_append (hf : BlockFn B step) :
    ∀ (n : Nat) (h : H) (S T : List Byte), n * B ≤ S.length →
      absorb B step n h (S ++ T) = absorb B step n h S
  | 0, _, _, _, _ => rfl
  | n + 1, h, S, T, hle => by
    have hs : (n + 1) * B = n * B + B := Nat.succ_mul n B
    have hB : B ≤ S.length := by omega
    have e1 : step h (S ++ T) = step h S := by
      rw [hf.takeB h (S ++ T) (by simp; omega), hf.takeB h S hB,
        List.take_append_of_le_length hB]
    have e2 : (S ++ T).drop B = S.drop B ++ T := List.drop_append_of_le_length hB
    simp only [absorb, e1, e2]
    cases step h S with
    | none => rfl
    | some h1 =>
      exact absorb_append hf n h1 (S.drop B) T (by simp only [List.length_drop]; omega)

theorem absorb_add :
    ∀ (n k : Nat) (h : H) (S : List Byte),
      absorb B step (n + k) h S =
        (absorb B step n h S).bind fun h' => absorb B step k h' (S.drop (n * B))
  | 0, k, h, S => by simp [absorb]
  | n + 1, k, h, S => by
    have e : n + 1 + k = (n + k) + 1 := by omega
    rw [e]
    simp only [absorb]
    cases step h S with
    | none => rfl
    | some h1 =>
      simp only []
      rw [absorb_add n k h1 (S.drop B), List.drop_drop, Nat.succ_mul, Nat.add_comm B (n * B)]

theorem gLoop_eq (bs : List Byte) :
    ∀ (k i : Nat) (h : H) (w : Nat), (i + k) * B ≤ bs.length →
      gLoop B step bs k i h w =
        (absorb B step k h (bs.drop (i * B))).map fun h' => (h', w + k * B)
  | 0, i, h, w, _ => by simp [gLoop, absorb]
  | k + 1, i, h, w, hle => by
    have hi : i * B ≤ bs.length := by
      have : (i + (k + 1)) * B = i * B + (k + 1) * B := Nat.add_mul _ _ _
      omega
    simp only [gLoop, absorb, sliceFrom_of_le hi]
    cases step h (bs.drop (i * B)) with
    | none => rfl
    | some h1 =>
      simp only []
      have hle2 : (i + 1 + k) * B ≤ bs.length := by
        have : i + 1 + k = i + (k + 1) := by omega
        rw [this]; exact hle
      rw [gLoop_eq bs k (i + 1) h1 (w + B) hle2, List.drop_drop, Nat.succ_mul, Nat.succ_mul]
      have e2 : w + B + k * B = w + (k * B + B) := by omega
      rw [e2]

theorem copyAt_zero {buf rest : List Byte} (h : rest.length ≤ buf.length) :
    copyAt buf 0 rest = some (rest ++ buf.drop rest.length, rest.length) := by
  simp [copyAt, Nat.min_eq_right h]

theorem gWriteBlocks_holds (hf : BlockFn B step) {h0 : H} {S : List Byte} {g : GState H}
    (hg : Holds B step h0 S g) (hoff : g.offset = 0) (bs : List Byte) (len : Nat) :
    ∃ g', gWriteBlocks B step g bs len = some (g', len) ∧ Holds B step h0 (S ++ bs) g' ∧
      g'.written = g.written := by
  have hpos := hf.pos
  have hmod : S.length % B = 0 := by rw [← hg.offset_eq]; exact hoff
  have hS : S.length / B * B = S.length := Nat.div_mul_cancel (Nat.dvd_of_mod_eq_zero hmod)
  have hk : bs.length / B * B ≤ bs.length := Nat.div_mul_le_self _ _
  have hbm : bs.length / B * B + bs.length % B = bs.length := Nat.div_add_mod' _ _
  have hlt : bs.length % B < B := Nat.mod_lt _ hpos
  obtain ⟨h1, e1⟩ := absorb_ok hf (bs.length / B) g.h bs hk
  have hloop : gLoop B step bs (bs.length / B) 0 g.h 0 = some (h1, bs.length / B * B) := by
    rw [gLoop_eq bs _ 0 g.h 0 (by simpa using hk)]
    simp [e1]
  have hlen : (S ++ bs).length = bs.length + S.length / B * B := by
    rw [List.length_append, hS, Nat.add_comm]
  have hdiv : (S ++ bs).length / B = S.length / B + bs.length / B := by
    rw [hlen, Nat.add_mul_div_right _ _ hpos, Nat.add_comm]
  have hmod2 : (S ++ bs).length % B = bs.length % B := by
    rw [hlen, Nat.add_mul_mod_self_right]
  have hdrop : (S ++ bs).drop (S.length / B * B) = bs := by
    rw [hS]; exact List.drop_left S bs
  have hhash : absorb B step ((S ++ bs).length / B) h0 (S ++ bs) = some h1 := by
    rw [hdiv, absorb_add, absorb_append hf _ _ _ _ (le_of_eq hS), hg.hash_eq]
    simp only [Option.some_bind, hdrop, e1]
  have hdrop2 : (S ++ bs).drop ((S ++ bs).length / B * B) = bs.drop (bs.length / B * B) := by
    rw [hdiv, Nat.add_mul, ← List.drop_drop, hdrop]
  simp only [gWriteBlocks, hloop]
  by_cases hd : bs.length - bs.length / B * B > 0
  · have hrl : (bs.drop (bs.length / B * B)).length = bs.length % B := by
      rw [List.length_drop]; omega
    have hrest : (bs.drop (bs.length / B * B)).length ≤ g.buffer.length := by
      rw [hrl, hg.buf_len]; omega
    simp only [hd, if_true, sliceFrom_of_le hk, copyAt_zero hrest]
    refine ⟨_, rfl, ⟨?_, ?_, ?_, hhash⟩, rfl⟩
    · have hbl := hg.buf_len
      simp only [List.length_append, List.length_drop]
      omega
    · simp only [hmod2, hrl]
    · simp only [hdrop2]
      exact List.take_left _ _
  · simp only [hd, if_false]
    have hz : bs.length % B = 0 := by omega
    refine ⟨_, rfl, ⟨hg.buf_len, ?_, ?_, hhash⟩, rfl⟩
    · simp only [hmod2, hz, hoff]
    · simp only [hdrop2, hoff, List.take_zero]
      symm
      apply List.drop_eq_nil_of_le
      omega

theorem absorb_one (h : H) (bs : List Byte) : absorb B step 1 h bs = step h bs := by
  simp only [absorb]
  cases step h bs <;> rfl

theorem gWrite_holds (hf : BlockFn B step) {h0 : H} {S : List Byte} {g : GState H}
    (hg : Holds B step h0 S g) (bs : List Byte) :
    ∃ g', gWrite B step g bs = some (g', bs.length) ∧ Holds B step h0 (S ++ bs) g' ∧
      g'.written = g.written + bs.length := by
  have hpos := hf.pos
  have hbl := hg.buf_len
  have hoffeq := hg.offset_eq
  have hr : S.length % B < B := Nat.mod_lt _ hpos
  have hSm : S.length / B * B + S.length % B = S.length := Nat.div_add_mod' _ _
  by_cases hoff : g.offset > 0
  · -- some bytes are buffered
    have hle : g.offset ≤ g.buffer.length := by omega
    have hqle : S.length / B * B ≤ S.length := Nat.div_mul_le_self _ _
    have hdropS : (S ++ bs).drop (S.length / B * B) = S.drop (S.length / B * B) ++ bs :=
      List.drop_append_of_le_length hqle
    by_cases hlt : g.offset + min (g.buffer.length - g.offset) bs.length < B
    · -- the buffer is not filled
      have hn : min (g.buffer.length - g.offset) bs.length = bs.length := by omega
      have hlen : (S ++ bs).length = (S.length % B + bs.length) + S.length / B * B := by
        rw [List.length_append]; omega
      have hdiv : (S ++ bs).length / B = S.length / B := by
        rw [hlen, Nat.add_mul_div_right _ _ hpos, Nat.div_eq_of_lt (by omega), Nat.zero_add]
      have hmod : (S ++ bs).length % B = S.length % B + bs.length := by
        rw [hlen, Nat.add_mul_mod_self_right, Nat.mod_eq_of_lt (by omega)]
      refine ⟨GState.mk (g.buffer.take g.offset ++
            bs.take (min (g.buffer.length - g.offset) bs.length) ++
            g.buffer.drop (g.offset + min (g.buffer.length - g.offset) bs.length))
          (g.offset + min (g.buffer.length - g.offset) bs.length)
          (g.written + bs.length) g.h, ?_, ⟨?_, ?_, ?_, ?_⟩, ?_⟩
      · simp only [gWrite, copyAt, hoff, hle, hlt, if_true]
      · simp only [List.length_append, List.length_take, List.length_drop]
        omega
      · simp only [hn, hmod]
        rw [hoffeq]
      · simp only [hdiv, hdropS, hn, List.take_length]
        rw [List.append_assoc, List.take_append_eq_append_take, List.take_take]
        have e1 : min (g.offset + bs.length) g.offset = g.offset := by omega
        have e2 : (g.buffer.take g.offset).length = g.offset := by
          rw [List.length_take]; omega
        rw [e1, e2, hg.tail_eq]
        have e3 : g.offset + bs.length - g.offset = bs.length := by omega
        rw [e3, List.take_append_eq_append_take, List.take_length]
        simp
      · rw [hdiv, absorb_append hf _ _ _ _ hqle]
        exact hg.hash_eq
      · rfl
    · -- the buffer is filled: one block is mixed from the buffer
      have hn : min (g.buffer.length - g.offset) bs.length = B - g.offset := by omega
      have hnle : B - g.offset ≤ bs.length := by omega
      have hblk : g.buffer.take g.offset ++ bs.take (B - g.offset) ++
          g.buffer.drop (g.offset + (B - g.offset)) =
          S.drop (S.length / B * B) ++ bs.take (B - g.offset) := by
        rw [hg.tail_eq]
        have : g.buffer.drop (g.offset + (B - g.offset)) = [] := by
          apply List.drop_eq_nil_of_le; omega
        rw [this, List.append_nil]
      have hblen : (S.drop (S.length / B * B) ++ bs.take (B - g.offset)).length = B := by
        simp only [List.length_append, List.length_take, List.length_drop]
        omega
      obtain ⟨h1, e1⟩ := hf.ok g.h (S.drop (S.length / B * B) ++ bs.take (B - g.offset))
        (le_of_eq hblen.symm)
      -- the state after the buffered block
      have hlen : (S ++ bs.take (B - g.offset)).length = 0 + (S.length / B + 1) * B := by
        rw [List.length_append, List.length_take, Nat.succ_mul]; omega
      have hdiv : (S ++ bs.take (B - g.offset)).length / B = S.length / B + 1 := by
        rw [hlen, Nat.add_mul_div_right _ _ hpos, Nat.zero_div, Nat.zero_add]
      have hmod : (S ++ bs.take (B - g.offset)).length % B = 0 := by
        rw [hlen, Nat.add_mul_mod_self_right, Nat.zero_mod]
      have hmid : Holds B step h0 (S ++ bs.take (B - g.offset))
          { buffer := S.drop (S.length / B * B) ++ bs.take (B - g.offset), offset := 0,
            written := g.written + bs.length, h := h1 } := by
        refine ⟨hblen, ?_, ?_, ?_⟩
        · simp only [hmod]
        · simp only [List.take_zero]
          symm
          apply List.drop_eq_nil_of_le
          rw [hdiv, hlen]; omega
        · rw [hdiv, absorb_add, absorb_append hf _ _ _ _ hqle, hg.hash_eq]
          simp only [Option.some_bind, absorb_one]
          rw [List.drop_append_of_le_length hqle]
          exact e1
      obtain ⟨g2, hw, hh, hwr⟩ := gWriteBlocks_holds hf hmid rfl (bs.drop (B - g.offset)) bs.length
      have hlt2 : ¬ (g.offset + (B - g.offset) < B) := by omega
      refine ⟨g2, ?_, ?_, hwr⟩
      · simp only [gWrite, copyAt, hoff, hle, hlt2, if_true, if_false, hn, hblk,
          sliceFrom_of_le (Nat.zero_le _), List.drop_zero, e1, sliceFrom_of_le hnle]
        exact hw
      · rw [List.append_assoc, List.take_append_drop] at hh
        exact hh
  · -- nothing is buffered
    have hz : g.offset = 0 := by omega
    have hg2 : Holds B step h0 S { g with written := g.written + bs.length } :=
      ⟨hg.buf_len, hg.offset_eq, hg.tail_eq, hg.hash_eq⟩
    obtain ⟨g2, hw, hh, hwr⟩ := gWriteBlocks_holds hf hg2 hz bs bs.length
    refine ⟨g2, ?_, hh, hwr⟩
    simp only [gWrite, hoff, if_false]
    exact hw

end GenericProofs

/-! ## Proofs: the tail switch never reads past the tail -/

theorem index_ok {tail : List Byte} {i : Nat} (h : i < tail.length) :
    ∃ b, index tail i = some b := by
  simp only [index, List.get?_eq_get h]
  exact ⟨_, rfl⟩

theorem arm_index_ok {tail : List Byte} {c k i : Nat} (x : Nat) (f : Nat → Nat → Nat)
    (h : k ≤ c → i < tail.length) :
    ∃ y, arm c k x (fun x => (index tail i).map (f x)) = some y := by
  by_cases hk : k ≤ c
  · obtain ⟨b, hb⟩ := index_ok (h hk)
    exact ⟨f x b, by simp [arm, hk, hb]⟩
  · exact ⟨x, by simp [arm, hk]⟩

theorem bind_arm_ok {β : Type} {tail : List Byte} {c k i : Nat} (x : Nat) (f : Nat → Nat → Nat)
    (cont : Nat → Option β) (h : k ≤ c → i < tail.length)
    (hc : ∀ y, ∃ z, cont y = some z) :
    ∃ z, (arm c k x (fun x => (index tail i).map (f x))).bind cont = some z := by
  obtain ⟨y, hy⟩ := arm_index_ok x f h
  obtain ⟨z, hz⟩ := hc y
  exact ⟨z, by rw [hy, Option.some_bind, hz]⟩

/-! ## Proofs: the engines are instances of the common shape -/

namespace murmur128x64v3

theorem calculateBlock_eq_128x64 (m : murmur128x64v3) (bs : List Byte) :
    m.calculateBlock bs =
      match block m.lanes bs with
      | none => none
      | some h => some (m.setLanes h) := by
  simp only [calculateBlock, block, lanes, setLanes, Option.bind_eq_bind]
  cases sliceFrom bs 0 with
  | none => rfl
  | some b0 =>
    simp only [Option.some_bind]
    cases Uint64 b0 with
    | none => rfl
    | some t0 =>
      simp only [Option.some_bind]
      cases sliceFrom bs 8 with
      | none => rfl
      | some b8 =>
        simp only [Option.some_bind]
        cases Uint64 b8 with
        | none => rfl
        | some t8 =>
          rfl

theorem block_fn_128x64 : BlockFn 16 block where
  pos := by decide
  ok := by
    intro h bs hl
    rcases bs with _ | ⟨b0, _ | ⟨b1, _ | ⟨b2, _ | ⟨b3, _ | ⟨b4, _ | ⟨b5, _ | ⟨b6, _ | ⟨b7, _ | ⟨b8,
      _ | ⟨b9, _ | ⟨b10, _ | ⟨b11, _ | ⟨b12, _ | ⟨b13, _ | ⟨b14, _ | ⟨b15, t⟩⟩⟩⟩⟩⟩⟩⟩⟩⟩⟩⟩⟩⟩⟩⟩ <;>
    first
    | (simp at hl; done)
    | simp [block, calculateBlock, sliceFrom, Uint64]
  takeB := by
    intro h bs hl
    rcases bs with _ | ⟨b0, _ | ⟨b1, _ | ⟨b2, _ | ⟨b3, _ | ⟨b4, _ | ⟨b5, _ | ⟨b6, _ | ⟨b7, _ | ⟨b8,
      _ | ⟨b9, _ | ⟨b10, _ | ⟨b11, _ | ⟨b12, _ | ⟨b13, _ | ⟨b14, _ | ⟨b15, t⟩⟩⟩⟩⟩⟩⟩⟩⟩⟩⟩⟩⟩⟩⟩⟩ <;>
    first
    | (simp at hl; done)
    | simp [block, calculateBlock, sliceFrom, Uint64]

theorem blockLoop_eq_128x64 (bs : List Byte) :
    ∀ (k i : Nat) (m : murmur128x64v3) (w : Nat),
      blockLoop bs k i m w =
        match gLoop 16 block bs k i m.lanes w with
        | none => none
        | some (h, w') => some (m.setLanes h, w')
  | 0, _, _, _ => rfl
  | k + 1, i, m, w => by
    simp only [blockLoop, gLoop, sizeBlock128, calculateBlock_eq_128x64]
    cases sliceFrom bs (i * 16) with
    | none => rfl
    | some b =>
      simp only []
      cases block m.lanes b with
      | none => rfl
      | some h =>
        simp only []
        rw [blockLoop_eq_128x64 bs k (i + 1) (m.setLanes h) (w + 16)]
        rfl

theorem writeBlocks_eq_128x64 (m : murmur128x64v3) (bs : List Byte) (len : Nat) :
    m.writeBlocks bs len =
      match gWriteBlocks 16 block m.toG bs len with
      | none => none
      | some (g, n) => some (m.ofG g, n) := by
  simp only [writeBlocks, gWriteBlocks, sizeBlock128, blockLoop_eq_128x64, toG]
  cases gLoop 16 block bs (bs.length / 16) 0 m.lanes 0 with
  | none => rfl
  | some r =>
    obtain ⟨h, w⟩ := r
    simp only [setLanes]
    by_cases hd : bs.length - w > 0
    · simp only [hd, if_true]
      cases sliceFrom bs w with
      | none => rfl
      | some rest =>
        simp only []
        cases copyAt m.buffer 0 rest with
        | none => rfl
        | some c => rfl
    · simp only [hd, if_false]
      rfl

theorem Write_eq_128x64 (m : murmur128x64v3) (bs : List Byte) :
    m.Write bs =
      match gWrite 16 block m.toG bs with
      | none => none
      | some (g, n) => some (m.ofG g, n) := by
  simp only [Write, gWrite, sizeBlock128, writeBlocks_eq_128x64, calculateBlock_eq_128x64, toG, lanes]
  by_cases ho : m.offset > 0
  · simp only [ho, if_true]
    cases copyAt m.buffer m.offset bs with
    | none => rfl
    | some c =>
      obtain ⟨buffer, i⟩ := c
      simp only []
      by_cases hlt : m.offset + i < 16
      · simp only [hlt, if_true]
        rfl
      · simp only [hlt, if_false]
        cases sliceFrom buffer 0 with
        | none => rfl
        | some b =>
          simp only []
          cases block (m.hash1, m.hash2) b with
          | none => rfl
          | some h =>
            simp only [setLanes]
            cases sliceFrom bs i with
            | none => rfl
            | some bs2 => rfl
  · simp only [ho, if_false]
    rfl

theorem tailArms9_ok_128x64 (tail : List Byte) (c hash2 : Nat) (hc : c ≤ tail.length) :
    ∃ h, tailArms9 tail c hash2 = some h := by
  simp only [tailArms9, Option.bind_eq_bind]
  refine bind_arm_ok _ _ _ (by omega) fun _ => ?_
  refine bind_arm_ok _ _ _ (by omega) fun _ => ?_
  refine bind_arm_ok _ _ _ (by omega) fun _ => ?_
  refine bind_arm_ok _ _ _ (by omega) fun _ => ?_
  refine bind_arm_ok _ _ _ (by omega) fun _ => ?_
  refine bind_arm_ok _ _ _ (by omega) fun _ => ?_
  exact arm_index_ok _ _ (by omega)

theorem tailArms1_ok_128x64 (tail : List Byte) (c hash1 : Nat) (hc : c ≤ tail.length) :
    ∃ h, tailArms1 tail c hash1 = some h := by
  simp only [tailArms1, Option.bind_eq_bind]
  refine bind_arm_ok _ _ _ (by omega) fun _ => ?_
  refine bind_arm_ok _ _ _ (by omega) fun _ => ?_
  refine bind_arm_ok _ _ _ (by omega) fun _ => ?_
  refine bind_arm_ok _ _ _ (by omega) fun _ => ?_
  refine bind_arm_ok _ _ _ (by omega) fun _ => ?_
  refine bind_arm_ok _ _ _ (by omega) fun _ => ?_
  refine bind_arm_ok _ _ _ (by omega) fun _ => ?_
  exact arm_index_ok _ _ (by omega)

theorem tailSwitch_ok_128x64 (tail : List Byte) (c hash1 hash2 : Nat) (hc : c ≤ tail.length) :
    ∃ r, tailSwitch tail c hash1 hash2 = some r := by
  obtain ⟨_, e_hash2⟩ := tailArms9_ok_128x64 tail c hash2 hc
  obtain ⟨_, e_hash1⟩ := tailArms1_ok_128x64 tail c hash1 hc
  simp only [tailSwitch, Option.bind_eq_bind, e_hash2, e_hash1, Option.some_bind]
  exact ⟨_, rfl⟩

theorem checksum_congr_128x64 {m m' : murmur128x64v3}
    (hb : sliceTo m.buffer m.offset = sliceTo m'.buffer m'.offset)
    (hw : m.written = m'.written) (hl : m.lanes = m'.lanes)
    {y : murmur128x64v3} {d : List Byte} (h : m.checksum = some (y, d)) :
    ∃ y', m'.checksum = some (y', d) := by
  simp only [lanes, Prod.mk.injEq] at hl
  simp only [checksum, hb, hw, hl.1, hl.2] at h
  simp only [checksum]
  cases hs : sliceTo m'.buffer m'.offset with
  | none => simp [hs] at h
  | some tail =>
    simp only [hs] at h
    cases ht : tailSwitch tail (m'.written % 16) m'.hash1 m'.hash2 with
    | none => simp [ht] at h
    | some r =>
      simp only [ht, Option.some.injEq, Prod.mk.injEq] at h
      obtain ⟨-, rfl⟩ := h
      simp only [ht]
      exact ⟨_, rfl⟩

theorem holding_tail_128x64 {seed : Nat} {S : List Byte} {m : murmur128x64v3}
    (hm : Holding seed S m) :
    sliceTo m.buffer m.offset = some (S.drop (S.length / 16 * 16)) := by
  obtain ⟨hh, _, _⟩ := hm
  have h1 : m.offset = S.length % 16 := hh.offset_eq
  have h2 : m.buffer.length = 16 := hh.buf_len
  have h3 : m.buffer.take m.offset = S.drop (S.length / 16 * 16) := hh.tail_eq
  rw [sliceTo_of_le (by omega), h3]

theorem checksum_ok_128x64 {seed : Nat} {S : List Byte} {m : murmur128x64v3}
    (hm : Holding seed S m) : ∃ y d, m.checksum = some (y, d) ∧ d.length = 16 := by
  have ht := holding_tail_128x64 hm
  obtain ⟨hh, hw, _⟩ := hm
  have hl : (S.drop (S.length / 16 * 16)).length = S.length % 16 := by
    rw [List.length_drop]; omega
  obtain ⟨r, hr⟩ := tailSwitch_ok_128x64 (S.drop (S.length / 16 * 16)) (m.written % 16)
    m.hash1 m.hash2 (by rw [hl, hw])
  simp only [checksum, ht, hr]
  exact ⟨_, _, rfl, rfl⟩

theorem Sum_holding_128x64 {seed : Nat} {S : List Byte} {m m' : murmur128x64v3}
    (hm : Holding seed S m) (hm' : Holding seed S m') (b : List Byte) :
    ∃ d, d.length = 16 ∧ m.Sum b = some (m, b ++ d) ∧ m'.Sum b = some (m', b ++ d) := by
  obtain ⟨y, d, hy, hd⟩ := checksum_ok_128x64 hm
  have hl : some m.toG.h = some m'.toG.h := by rw [← hm.1.hash_eq, ← hm'.1.hash_eq]
  simp only [toG, Option.some.injEq] at hl
  obtain ⟨y', hy'⟩ := checksum_congr_128x64
    (by rw [holding_tail_128x64 hm, holding_tail_128x64 hm']) (by rw [hm.2.1, hm'.2.1]) hl hy
  exact ⟨d, hd, by simp only [Sum, hy], by simp only [Sum, hy']⟩

theorem Write_holding_128x64 {seed : Nat} {S : List Byte} {m : murmur128x64v3}
    (hm : Holding seed S m) (bs : List Byte) :
    ∃ m', m.Write bs = some (m', bs.length) ∧ Holding seed (S ++ bs) m' := by
  obtain ⟨hh, hw, hs⟩ := hm
  obtain ⟨g, e, hg, hgw⟩ := gWrite_holds block_fn_128x64 hh bs
  refine ⟨m.ofG g, by rw [Write_eq_128x64, e], hg, ?_, hs⟩
  show g.written = (S ++ bs).length
  rw [hgw, List.length_append, ← hw]
  rfl

theorem New_holding_128x64 (seed : Nat) : Holding seed [] (Murmur128x64v3 seed) :=
  ⟨⟨rfl, rfl, rfl, rfl⟩, rfl, rfl⟩

theorem Reset_holding_128x64 {seed : Nat} {S : List Byte} {m : murmur128x64v3}
    (hm : Holding seed S m) : Holding seed [] m.Reset := by
  obtain ⟨hh, _, hs⟩ := hm
  have hb : m.buffer.length = 16 := hh.buf_len
  subst hs
  exact ⟨⟨hb, rfl, rfl, rfl⟩, rfl, rfl⟩

theorem run_writes_holding_128x64 {seed : Nat} :
    ∀ (chunks : List (List Byte)) {S : List Byte} {m : murmur128x64v3},
      Holding seed S m →
        ∃ m', m.run (chunks.map Call.write) = some m' ∧ Holding seed (S ++ chunks.flatten) m'
  | [], S, m, hm => ⟨m, rfl, by simpa using hm⟩
  | c :: cs, S, m, hm => by
    obtain ⟨m1, e1, h1⟩ := Write_holding_128x64 hm c
    obtain ⟨m2, e2, h2⟩ := run_writes_holding_128x64 cs h1
    exact ⟨m2, by simp only [List.map_cons, run, call, e1, e2],
      by simpa [List.append_assoc] using h2⟩

theorem sumNil_holding_128x64 {seed : Nat} {S : List Byte} {m m' : murmur128x64v3}
    (hm : Holding seed S m) (hm' : Holding seed S m') :
    ∃ d, d.length = 16 ∧ sumNil (some m) = some d ∧ sumNil (some m') = some d := by
  obtain ⟨d, hd, e, e'⟩ := Sum_holding_128x64 hm hm' []
  exact ⟨d, hd, by simp only [sumNil, e, List.nil_append],
    by simp only [sumNil, e', List.nil_append]⟩

theorem call_holding_128x64 {seed : Nat} {S : List Byte} {m : murmur128x64v3}
    (hm : Holding seed S m) (c : Call) :
    ∃ m' S', m.call c = some m' ∧ Holding seed S' m' := by
  cases c with
  | write bs =>
    obtain ⟨m1, e1, h1⟩ := Write_holding_128x64 hm bs
    exact ⟨m1, _, by simp only [call, e1], h1⟩
  | sum b =>
    obtain ⟨d, _, e, _⟩ := Sum_holding_128x64 hm hm b
    exact ⟨m, S, by simp only [call, e], hm⟩
  | reset => exact ⟨m.Reset, [], rfl, Reset_holding_128x64 hm⟩

theorem run_holding_128x64 {seed : Nat} :
    ∀ (cs : List Call) {S : List Byte} {m : murmur128x64v3},
      Holding seed S m → ∃ m' S', m.run cs = some m' ∧ Holding seed S' m'
  | [], S, m, hm => ⟨m, S, rfl, hm⟩
  | c :: cs, _, m, hm => by
    obtain ⟨m1, S1, e1, h1⟩ := call_holding_128x64 hm c
    obtain ⟨m2, S2, e2, h2⟩ := run_holding_128x64 cs h1
    exact ⟨m2, S2, by simp only [run, e1, e2], h2⟩

end murmur128x64v3

namespace murmur128x86v3

theorem calculateBlock_eq_128x86 (m : murmur128x86v3) (bs : List Byte) :
    m.calculateBlock bs =
      match block m.lanes bs with
      | none => none
      | some h => some (m.setLanes h) := by
  simp only [calculateBlock, block, lanes, setLanes, Option.bind_eq_bind]
  cases sliceFrom bs 0 with
  | none => rfl
  | some b0 =>
    simp only [Option.some_bind]
    cases Uint32 b0 with
    | none => rfl
    | some t0 =>
      simp only [Option.some_bind]
      cases sliceFrom bs 4 with
      | none => rfl
      | some b4 =>
        simp only [Option.some_bind]
        cases Uint32 b4 with
        | none => rfl
        | some t4 =>
          simp only [Option.some_bind]
          cases sliceFrom bs 8 with
          | none => rfl
          | some b8 =>
            simp only [Option.some_bind]
            cases Uint32 b8 with
            | none => rfl
            | some t8 =>
              simp only [Option.some_bind]
              cases sliceFrom bs 12 with
              | none => rfl
              | some b12 =>
                simp only [Option.some_bind]
                cases Uint32 b12 with
                | none => rfl
                | some t12 =>
                  rfl

theorem block_fn_128x86 : BlockFn 16 block where
  pos := by decide
  ok := by
    intro h bs hl
    rcases bs with _ | ⟨b0, _ | ⟨b1, _ | ⟨b2, _ | ⟨b3, _ | ⟨b4, _ | ⟨b5, _ | ⟨b6, _ | ⟨b7, _ | ⟨b8,
      _ | ⟨b9, _ | ⟨b10, _ | ⟨b11, _ | ⟨b12, _ | ⟨b13, _ | ⟨b14, _ | ⟨b15, t⟩⟩⟩⟩⟩⟩⟩⟩⟩⟩⟩⟩⟩⟩⟩⟩ <;>
    first
    | (simp at hl; done)
    | simp [block, calculateBlock, sliceFrom, Uint32]
  takeB := by
    intro h bs hl
    rcases bs with _ | ⟨b0, _ | ⟨b1, _ | ⟨b2, _ | ⟨b3, _ | ⟨b4, _ | ⟨b5, _ | ⟨b6, _ | ⟨b7, _ | ⟨b8,
      _ | ⟨b9, _ | ⟨b10, _ | ⟨b11, _ | ⟨b12, _ | ⟨b13, _ | ⟨b14, _ | ⟨b15, t⟩⟩⟩⟩⟩⟩⟩⟩⟩⟩⟩⟩⟩⟩⟩⟩ <;>
    first
    | (simp at hl; done)
    | simp [block, calculateBlock, sliceFrom, Uint32]

theorem blockLoop_eq_128x86 (bs : List Byte) :
    ∀ (k i : Nat) (m : murmur128x86v3) (w : Nat),
      blockLoop bs k i m w =
        match gLoop 16 block bs k i m.lanes w with
        | none => none
        | some (h, w') => some (m.setLanes h, w')
  | 0, _, _, _ => rfl
  | k + 1, i, m, w => by
    simp only [blockLoop, gLoop, sizeBlock128, calculateBlock_eq_128x86]
    cases sliceFrom bs (i * 16) with
    | none => rfl
    | some b =>
      simp only []
      cases block m.lanes b with
      | none => rfl
      | some h =>
        simp only []
        rw [blockLoop_eq_128x86 bs k (i + 1) (m.setLanes h) (w + 16)]
        rfl

theorem writeBlocks_eq_128x86 (m : murmur128x86v3) (bs : List Byte) (len : Nat) :
    m.writeBlocks bs len =
      match gWriteBlocks 16 block m.toG bs len with
      | none => none
      | some (g, n) => some (m.ofG g, n) := by
  simp only [writeBlocks, gWriteBlocks, sizeBlock128, blockLoop_eq_128x86, toG]
  cases gLoop 16 block bs (bs.length / 16) 0 m.lanes 0 with
  | none => rfl
  | some r =>
    obtain ⟨h, w⟩ := r
    simp only [setLanes]
    by_cases hd : bs.length - w > 0
    · simp only [hd, if_true]
      cases sliceFrom bs w with
      | none => rfl
      | some rest =>
        simp only []
        cases copyAt m.buffer 0 rest with
        | none => rfl
        | some c => rfl
    · simp only [hd, if_false]
      rfl

theorem Write_eq_128x86 (m : murmur128x86v3) (bs : List Byte) :
    m.Write bs =
      match gWrite 16 block m.toG bs with
      | none => none
      | some (g, n) => some (m.ofG g, n) := by
  simp only [Write, gWrite, sizeBlock128, writeBlocks_eq_128x86, calculateBlock_eq_128x86, toG, lanes]
  by_cases ho : m.offset > 0
  · simp only [ho, if_true]
    cases copyAt m.buffer m.offset bs with
    | none => rfl
    | some c =>
      obtain ⟨buffer, i⟩ := c
      simp only []
      by_cases hlt : m.offset + i < 16
      · simp only [hlt, if_true]
        rfl
      · simp only [hlt, if_false]
        cases sliceFrom buffer 0 with
        | none => rfl
        | some b =>
          simp only []
          cases block (m.hash1, m.hash2, m.hash3, m.hash4) b with
          | none => rfl
          | some h =>
            simp only [setLanes]
            cases sliceFrom bs i with
            | none => rfl
            | some bs2 => rfl
  · simp only [ho, if_false]
    rfl

theorem tailArms13_ok_128x86 (tail : List Byte) (c hash4 : Nat) (hc : c ≤ tail.length) :
    ∃ h, tailArms13 tail c hash4 = some h := by
  simp only [tailArms13, Option.bind_eq_bind]
  refine bind_arm_ok _ _ _ (by omega) fun _ => ?_
  refine bind_arm_ok _ _ _ (by omega) fun _ => ?_
  exact arm_index_ok _ _ (by omega)

theorem tailArms9_ok_128x86 (tail : List Byte) (c hash3 : Nat) (hc : c ≤ tail.length) :
    ∃ h, tailArms9 tail c hash3 = some h := by
  simp only [tailArms9, Option.bind_eq_bind]
  refine bind_arm_ok _ _ _ (by omega) fun _ => ?_
  refine bind_arm_ok _ _ _ (by omega) fun _ => ?_
  refine bind_arm_ok _ _ _ (by omega) fun _ => ?_
  exact arm_index_ok _ _ (by omega)

theorem tailArms5_ok_128x86 (tail : List Byte) (c hash2 : Nat) (hc : c ≤ tail.length) :
    ∃ h, tailArms5 tail c hash2 = some h := by
  simp only [tailArms5, Option.bind_eq_bind]
  refine bind_arm_ok _ _ _ (by omega) fun _ => ?_
  refine bind_arm_ok _ _ _ (by omega) fun _ => ?_
  refine bind_arm_ok _ _ _ (by omega) fun _ => ?_
  exact arm_index_ok _ _ (by omega)

theorem tailArms1_ok_128x86 (tail : List Byte) (c hash1 : Nat) (hc : c ≤ tail.length) :
    ∃ h, tailArms1 tail c hash1 = some h := by
  simp only [tailArms1, Option.bind_eq_bind]
  refine bind_arm_ok _ _ _ (by omega) fun _ => ?_
  refine bind_arm_ok _ _ _ (by omega) fun _ => ?_
  refine bind_arm_ok _ _ _ (by omega) fun _ => ?_
  exact arm_index_ok _ _ (by omega)

theorem tailSwitch_ok_128x86 (tail : List Byte) (c hash1 hash2 hash3 hash4 : Nat) (hc : c ≤ tail.length) :
    ∃ r, tailSwitch tail c hash1 hash2 hash3 hash4 = some r := by
  obtain ⟨_, e_hash4⟩ := tailArms13_ok_128x86 tail c hash4 hc
  obtain ⟨_, e_hash3⟩ := tailArms9_ok_128x86 tail c hash3 hc
  obtain ⟨_, e_hash2⟩ := tailArms5_ok_128x86 tail c hash2 hc
  obtain ⟨_, e_hash1⟩ := tailArms1_ok_128x86 tail c hash1 hc
  simp only [tailSwitch, Option.bind_eq_bind, e_hash4, e_hash3, e_hash2, e_hash1, Option.some_bind]
  exact ⟨_, rfl⟩

theorem checksum_congr_128x86 {m m' : murmur128x86v3}
    (hb : sliceTo m.buffer m.offset = sliceTo m'.buffer m'.offset)
    (hw : m.written = m'.written) (hl : m.lanes = m'.lanes)
    {y : murmur128x86v3} {d : List Byte} (h : m.checksum = some (y, d)) :
    ∃ y', m'.checksum = some (y', d) := by
  simp only [lanes, Prod.mk.injEq] at hl
  simp only [checksum, hb, hw, hl.1, hl.2.1, hl.2.2.1, hl.2.2.2] at h
  simp only [checksum]
  cases hs : sliceTo m'.buffer m'.offset with
  | none => simp [hs] at h
  | some tail =>
    simp only [hs] at h
    cases ht : tailSwitch tail (m'.written % 16) m'.hash1 m'.hash2 m'.hash3 m'.hash4 with
    | none => simp [ht] at h
    | some r =>
      simp only [ht, Option.some.injEq, Prod.mk.injEq] at h
      obtain ⟨-, rfl⟩ := h
      simp only [ht]
      exact ⟨_, rfl⟩

theorem holding_tail_128x86 {seed : Nat} {S : List Byte} {m : murmur128x86v3}
    (hm : Holding seed S m) :
    sliceTo m.buffer m.offset = some (S.drop (S.length / 16 * 16)) := by
  obtain ⟨hh, _, _⟩ := hm
  have h1 : m.offset = S.length % 16 := hh.offset_eq
  have h2 : m.buffer.length = 16 := hh.buf_len
  have h3 : m.buffer.take m.offset = S.drop (S.length / 16 * 16) := hh.tail_eq
  rw [sliceTo_of_le (by omega), h3]

theorem checksum_ok_128x86 {seed : Nat} {S : List Byte} {m : murmur128x86v3}
    (hm : Holding seed S m) : ∃ y d, m.checksum = some (y, d) ∧ d.length = 16 := by
  have ht := holding_tail_128x86 hm
  obtain ⟨hh, hw, _⟩ := hm
  have hl : (S.drop (S.length / 16 * 16)).length = S.length % 16 := by
    rw [List.length_drop]; omega
  obtain ⟨r, hr⟩ := tailSwitch_ok_128x86 (S.drop (S.length / 16 * 16)) (m.written % 16)
    m.hash1 m.hash2 m.hash3 m.hash4 (by rw [hl, hw])
  simp only [checksum, ht, hr]
  exact ⟨_, _, rfl, rfl⟩

theorem Sum_holding_128x86 {seed : Nat} {S : List Byte} {m m' : murmur128x86v3}
    (hm : Holding seed S m) (hm' : Holding seed S m') (b : List Byte) :
    ∃ d, d.length = 16 ∧ m.Sum b = some (m, b ++ d) ∧ m'.Sum b = some (m', b ++ d) := by
  obtain ⟨y, d, hy, hd⟩ := checksum_ok_128x86 hm
  have hl : some m.toG.h = some m'.toG.h := by rw [← hm.1.hash_eq, ← hm'.1.hash_eq]
  simp only [toG, Option.some.injEq] at hl
  obtain ⟨y', hy'⟩ := checksum_congr_128x86
    (by rw [holding_tail_128x86 hm, holding_tail_128x86 hm']) (by rw [hm.2.1, hm'.2.1]) hl hy
  exact ⟨d, hd, by simp only [Sum, hy], by simp only [Sum, hy']⟩

theorem Write_holding_128x86 {seed : Nat} {S : List Byte} {m : murmur128x86v3}
    (hm : Holding seed S m) (bs : List Byte) :
    ∃ m', m.Write bs = some (m', bs.length) ∧ Holding seed (S ++ bs) m' := by
  obtain ⟨hh, hw, hs⟩ := hm
  obtain ⟨g, e, hg, hgw⟩ := gWrite_holds block_fn_128x86 hh bs
  refine ⟨m.ofG g, by rw [Write_eq_128x86, e], hg, ?_, hs⟩
  show g.written = (S ++ bs).length
  rw [hgw, List.length_append, ← hw]
  rfl

theorem New_holding_128x86 (seed : Nat) : Holding seed [] (Murmur128x86v3 seed) :=
  ⟨⟨rfl, rfl, rfl, rfl⟩, rfl, rfl⟩

theorem Reset_holding_128x86 {seed : Nat} {S : List Byte} {m : murmur128x86v3}
    (hm : Holding seed S m) : Holding seed [] m.Reset := by
  obtain ⟨hh, _, hs⟩ := hm
  have hb : m.buffer.length = 16 := hh.buf_len
  subst hs
  exact ⟨⟨hb, rfl, rfl, rfl⟩, rfl, rfl⟩

theorem run_writes_holding_128x86 {seed : Nat} :
    ∀ (chunks : List (List Byte)) {S : List Byte} {m : murmur128x86v3},
      Holding seed S m →
        ∃ m', m.run (chunks.map Call.write) = some m' ∧ Holding seed (S ++ chunks.flatten) m'
  | [], S, m, hm => ⟨m, rfl, by simpa using hm⟩
  | c :: cs, S, m, hm => by
    obtain ⟨m1, e1, h1⟩ := Write_holding_128x86 hm c
    obtain ⟨m2, e2, h2⟩ := run_writes_holding_128x86 cs h1
    exact ⟨m2, by simp only [List.map_cons, run, call, e1, e2],
      by simpa [List.append_assoc] using h2⟩

theorem sumNil_holding_128x86 {seed : Nat} {S : List Byte} {m m' : murmur128x86v3}
    (hm : Holding seed S m) (hm' : Holding seed S m') :
    ∃ d, d.length = 16 ∧ sumNil (some m) = some d ∧ sumNil (some m') = some d := by
  obtain ⟨d, hd, e, e'⟩ := Sum_holding_128x86 hm hm' []
  exact ⟨d, hd, by simp only [sumNil, e, List.nil_append],
    by simp only [sumNil, e', List.nil_append]⟩

theorem call_holding_128x86 {seed : Nat} {S : List Byte} {m : murmur128x86v3}
    (hm : Holding seed S m) (c : Call) :
    ∃ m' S', m.call c = some m' ∧ Holding seed S' m' := by
  cases c with
  | write bs =>
    obtain ⟨m1, e1, h1⟩ := Write_holding_128x86 hm bs
    exact ⟨m1, _, by simp only [call, e1], h1⟩
  | sum b =>
    obtain ⟨d, _, e, _⟩ := Sum_holding_128x86 hm hm b
    exact ⟨m, S, by simp only [call, e], hm⟩
  | reset => exact ⟨m.Reset, [], rfl, Reset_holding_128x86 hm⟩

theorem run_holding_128x86 {seed : Nat} :
    ∀ (cs : List Call) {S : List Byte} {m : murmur128x86v3},
      Holding seed S m → ∃ m' S', m.run cs = some m' ∧ Holding seed S' m'
  | [], S, m, hm => ⟨m, S, rfl, hm⟩
  | c :: cs, _, m, hm => by
    obtain ⟨m1, S1, e1, h1⟩ := call_holding_128x86 hm c
    obtain ⟨m2, S2, e2, h2⟩ := run_holding_128x86 cs h1
    exact ⟨m2, S2, by simp only [run, e1, e2], h2⟩

end murmur128x86v3

namespace murmur32x86v3

theorem calculateBlock_eq_32x86 (m : murmur32x86v3) (bs : List Byte) :
    m.calculateBlock bs =
      match block m.lanes bs with
      | none => none
      | some h => some (m.setLanes h) := by
  simp only [calculateBlock, block, lanes, setLanes, Option.bind_eq_bind]
  cases Uint32 bs with
  | none => rfl
  | some t0 =>
    rfl

theorem block_fn_32x86 : BlockFn 4 block where
  pos := by decide
  ok := by
    intro h bs hl
    rcases bs with _ | ⟨b0, _ | ⟨b1, _ | ⟨b2, _ | ⟨b3, t⟩⟩⟩⟩ <;>
    first
    | (simp at hl; done)
    | simp [block, calculateBlock, sliceFrom, Uint32]
  takeB := by
    intro h bs hl
    rcases bs with _ | ⟨b0, _ | ⟨b1, _ | ⟨b2, _ | ⟨b3, t⟩⟩⟩⟩ <;>
    first
    | (simp at hl; done)
    | simp [block, calculateBlock, sliceFrom, Uint32]

theorem blockLoop_eq_32x86 (bs : List Byte) :
    ∀ (k i : Nat) (m : murmur32x86v3) (w : Nat),
      blockLoop bs k i m w =
        match gLoop 4 block bs k i m.lanes w with
        | none => none
        | some (h, w') => some (m.setLanes h, w')
  | 0, _, _, _ => rfl
  | k + 1, i, m, w => by
    simp only [blockLoop, gLoop, sizeBlock32, calculateBlock_eq_32x86]
    cases sliceFrom bs (i * 4) with
    | none => rfl
    | some b =>
      simp only []
      cases block m.lanes b with
      | none => rfl
      | some h =>
        simp only []
        rw [blockLoop_eq_32x86 bs k (i + 1) (m.setLanes h) (w + 4)]
        rfl

theorem writeBlocks_eq_32x86 (m : murmur32x86v3) (bs : List Byte) (len : Nat) :
    m.writeBlocks bs len =
      match gWriteBlocks 4 block m.toG bs len with
      | none => none
      | some (g, n) => some (m.ofG g, n) := by
  simp only [writeBlocks, gWriteBlocks, sizeBlock32, blockLoop_eq_32x86, toG]
  cases gLoop 4 block bs (bs.length / 4) 0 m.lanes 0 with
  | none => rfl
  | some r =>
    obtain ⟨h, w⟩ := r
    simp only [setLanes]
    by_cases hd : bs.length - w > 0
    · simp only [hd, if_true]
      cases sliceFrom bs w with
      | none => rfl
      | some rest =>
        simp only []
        cases copyAt m.buffer 0 rest with
        | none => rfl
        | some c => rfl
    · simp only [hd, if_false]
      rfl

theorem Write_eq_32x86 (m : murmur32x86v3) (bs : List Byte) :
    m.Write bs =
      match gWrite 4 block m.toG bs with
      | none => none
      | some (g, n) => some (m.ofG g, n) := by
  simp only [Write, gWrite, sizeBlock32, writeBlocks_eq_32x86, calculateBlock_eq_32x86, toG, lanes]
  by_cases ho : m.offset > 0
  · simp only [ho, if_true]
    cases copyAt m.buffer m.offset bs with
    | none => rfl
    | some c =>
      obtain ⟨buffer, i⟩ := c
      simp only []
      by_cases hlt : m.offset + i < 4
      · simp only [hlt, if_true]
        rfl
      · simp only [hlt, if_false]
        cases sliceFrom buffer 0 with
        | none => rfl
        | some b =>
          simp only []
          cases block m.digest b with
          | none => rfl
          | some h =>
            simp only [setLanes]
            cases sliceFrom bs i with
            | none => rfl
            | some bs2 => rfl
  · simp only [ho, if_false]
    rfl

theorem tailSwitch_ok_32x86 (tail : List Byte) (c digest : Nat) (hc : c ≤ tail.length) :
    ∃ r, tailSwitch tail c digest = some r := by
  simp only [tailSwitch, Option.bind_eq_bind]
  refine bind_arm_ok _ _ _ (by omega) fun _ => ?_
  refine bind_arm_ok _ _ _ (by omega) fun _ => ?_
  exact arm_index_ok _ _ (by omega)

theorem checksum_congr_32x86 {m m' : murmur32x86v3}
    (hb : sliceTo m.buffer m.offset = sliceTo m'.buffer m'.offset)
    (hw : m.written = m'.written) (hl : m.lanes = m'.lanes)
    {y : murmur32x86v3} {d : List Byte} (h : m.checksum = some (y, d)) :
    ∃ y', m'.checksum = some (y', d) := by
  simp only [lanes] at hl
  simp only [checksum, hb, hw, hl] at h
  simp only [checksum]
  cases hs : sliceTo m'.buffer m'.offset with
  | none => simp [hs] at h
  | some tail =>
    simp only [hs] at h
    cases ht : tailSwitch tail (m'.written % 4) m'.digest with
    | none => simp [ht] at h
    | some r =>
      simp only [ht, Option.some.injEq, Prod.mk.injEq] at h
      obtain ⟨-, rfl⟩ := h
      simp only [ht]
      exact ⟨_, rfl⟩

theorem holding_tail_32x86 {seed : Nat} {S : List Byte} {m : murmur32x86v3}
    (hm : Holding seed S m) :
    sliceTo m.buffer m.offset = some (S.drop (S.length / 4 * 4)) := by
  obtain ⟨hh, _, _⟩ := hm
  have h1 : m.offset = S.length % 4 := hh.offset_eq
  have h2 : m.buffer.length = 4 := hh.buf_len
  have h3 : m.buffer.take m.offset = S.drop (S.length / 4 * 4) := hh.tail_eq
  rw [sliceTo_of_le (by omega), h3]

theorem checksum_ok_32x86 {seed : Nat} {S : List Byte} {m : murmur32x86v3}
    (hm : Holding seed S m) : ∃ y d, m.checksum = some (y, d) ∧ d.length = 4 := by
  have ht := holding_tail_32x86 hm
  obtain ⟨hh, hw, _⟩ := hm
  have hl : (S.drop (S.length / 4 * 4)).length = S.length % 4 := by
    rw [List.length_drop]; omega
  obtain ⟨r, hr⟩ := tailSwitch_ok_32x86 (S.drop (S.length / 4 * 4)) (m.written % 4)
    m.digest (by rw [hl, hw])
  simp only [checksum, ht, hr]
  exact ⟨_, _, rfl, rfl⟩

theorem Sum_holding_32x86 {seed : Nat} {S : List Byte} {m m' : murmur32x86v3}
    (hm : Holding seed S m) (hm' : Holding seed S m') (b : List Byte) :
    ∃ d, d.length = 4 ∧ m.Sum b = some (m, b ++ d) ∧ m'.Sum b = some (m', b ++ d) := by
  obtain ⟨y, d, hy, hd⟩ := checksum_ok_32x86 hm
  have hl : some m.toG.h = some m'.toG.h := by rw [← hm.1.hash_eq, ← hm'.1.hash_eq]
  simp only [toG, Option.some.injEq] at hl
  obtain ⟨y', hy'⟩ := checksum_congr_32x86
    (by rw [holding_tail_32x86 hm, holding_tail_32x86 hm']) (by rw [hm.2.1, hm'.2.1]) hl hy
  exact ⟨d, hd, by simp only [Sum, hy], by simp only [Sum, hy']⟩

theorem Write_holding_32x86 {seed : Nat} {S : List Byte} {m : murmur32x86v3}
    (hm : Holding seed S m) (bs : List Byte) :
    ∃ m', m.Write bs = some (m', bs.length) ∧ Holding seed (S ++ bs) m' := by
  obtain ⟨hh, hw, hs⟩ := hm
  obtain ⟨g, e, hg, hgw⟩ := gWrite_holds block_fn_32x86 hh bs
  refine ⟨m.ofG g, by rw [Write_eq_32x86, e], hg, ?_, hs⟩
  show g.written = (S ++ bs).length
  rw [hgw, List.length_append, ← hw]
  rfl

theorem New_holding_32x86 (seed : Nat) : Holding seed [] (Murmur32x86v3 seed) :=
  ⟨⟨rfl, rfl, rfl, rfl⟩, rfl, rfl⟩

theorem Reset_holding_32x86 {seed : Nat} {S : List Byte} {m : murmur32x86v3}
    (hm : Holding seed S m) : Holding seed [] m.Reset := by
  obtain ⟨hh, _, hs⟩ := hm
  have hb : m.buffer.length = 4 := hh.buf_len
  subst hs
  exact ⟨⟨hb, rfl, rfl, rfl⟩, rfl, rfl⟩

theorem run_writes_holding_32x86 {seed : Nat} :
    ∀ (chunks : List (List Byte)) {S : List Byte} {m : murmur32x86v3},
      Holding seed S m →
        ∃ m', m.run (chunks.map Call.write) = some m' ∧ Holding seed (S ++ chunks.flatten) m'
  | [], S, m, hm => ⟨m, rfl, by simpa using hm⟩
  | c :: cs, S, m, hm => by
    obtain ⟨m1, e1, h1⟩ := Write_holding_32x86 hm c
    obtain ⟨m2, e2, h2⟩ := run_writes_holding_32x86 cs h1
    exact ⟨m2, by simp only [List.map_cons, run, call, e1, e2],
      by simpa [List.append_assoc] using h2⟩

theorem sumNil_holding_32x86 {seed : Nat} {S : List Byte} {m m' : murmur32x86v3}
    (hm : Holding seed S m) (hm' : Holding seed S m') :
    ∃ d, d.length = 4 ∧ sumNil (some m) = some d ∧ sumNil (some m') = some d := by
  obtain ⟨d, hd, e, e'⟩ := Sum_holding_32x86 hm hm' []
  exact ⟨d, hd, by simp only [sumNil, e, List.nil_append],
    by simp only [sumNil, e', List.nil_append]⟩

theorem call_holding_32x86 {seed : Nat} {S : List Byte} {m : murmur32x86v3}
    (hm : Holding seed S m) (c : Call) :
    ∃ m' S', m.call c = some m' ∧ Holding seed S' m' := by
  cases c with
  | write bs =>
    obtain ⟨m1, e1, h1⟩ := Write_holding_32x86 hm bs
    exact ⟨m1, _, by simp only [call, e1], h1⟩
  | sum b =>
    obtain ⟨d, _, e, _⟩ := Sum_holding_32x86 hm hm b
    exact ⟨m, S, by simp only [call, e], hm⟩
  | reset => exact ⟨m.Reset, [], rfl, Reset_holding_32x86 hm⟩

theorem run_holding_32x86 {seed : Nat} :
    ∀ (cs : List Call) {S : List Byte} {m : murmur32x86v3},
      Holding seed S m → ∃ m' S', m.run cs = some m' ∧ Holding seed S' m'
  | [], S, m, hm => ⟨m, S, rfl, hm⟩
  | c :: cs, _, m, hm => by
    obtain ⟨m1, S1, e1, h1⟩ := call_holding_32x86 hm c
    obtain ⟨m2, S2, e2, h2⟩ := run_holding_32x86 cs h1
    exact ⟨m2, S2, by simp only [run, e1, e2], h2⟩

end murmur32x86v3

/-! ## The claims -/

/-- C1. Streaming equivalence for `Murmur128x64v3`: for every seed and every list of byte
slices (empty slices and the empty list included), writing the slices one by one and calling
`Sum(nil)` succeeds and returns the same 16 bytes as writing their concatenation in a single
`Write` and calling `Sum(nil)`. -/
theorem streaming_equivalence_128x64 (seed : Nat) (chunks : List (List Byte)) :
    ∃ d : List Byte, d.length = 16 ∧
      murmur128x64v3.sumNil ((Murmur128x64v3 seed).run (chunks.map Call.write)) = some d ∧
      murmur128x64v3.sumNil ((Murmur128x64v3 seed).run [Call.write chunks.flatten]) = some d := by
  obtain ⟨m1, e1, h1⟩ :=
    murmur128x64v3.run_writes_holding_128x64 chunks (murmur128x64v3.New_holding_128x64 seed)
  obtain ⟨m2, e2, h2⟩ :=
    murmur128x64v3.run_writes_holding_128x64 [chunks.flatten] (murmur128x64v3.New_holding_128x64 seed)
  simp only [List.flatten_cons, List.flatten_nil, List.append_nil, List.map_cons,
    List.map_nil] at e2 h2
  obtain ⟨d, hd, s1, s2⟩ := murmur128x64v3.sumNil_holding_128x64 h1 h2
  exact ⟨d, hd, by rw [e1]; exact s1, by rw [e2]; exact s2⟩

/-- C2. Streaming equivalence for `Murmur32x86v3` (block size 4): for every seed and every
list of byte slices, writing the slices one by one and calling `Sum(nil)` succeeds and returns
the same 4 bytes as writing their concatenation in a single `Write` and calling `Sum(nil)`. -/
theorem streaming_equivalence_32x86 (seed : Nat) (chunks : List (List Byte)) :
    ∃ d : List Byte, d.length = 4 ∧
      murmur32x86v3.sumNil ((Murmur32x86v3 seed).run (chunks.map Call.write)) = some d ∧
      murmur32x86v3.sumNil ((Murmur32x86v3 seed).run [Call.write chunks.flatten]) = some d := by
  obtain ⟨m1, e1, h1⟩ :=
    murmur32x86v3.run_writes_holding_32x86 chunks (murmur32x86v3.New_holding_32x86 seed)
  obtain ⟨m2, e2, h2⟩ :=
    murmur32x86v3.run_writes_holding_32x86 [chunks.flatten] (murmur32x86v3.New_holding_32x86 seed)
  simp only [List.flatten_cons, List.flatten_nil, List.append_nil, List.map_cons,
    List.map_nil] at e2 h2
  obtain ⟨d, hd, s1, s2⟩ := murmur32x86v3.sumNil_holding_32x86 h1 h2
  exact ⟨d, hd, by rw [e1]; exact s1, by rw [e2]; exact s2⟩

/-- C3. Known vector of the 32-bit engine (`TestMurmurHash32x86v3`): with seed 0, one
`Write` of the 43 bytes of "the quick brown fox jumps over the lazy dog" and `Sum(nil)`
return the bytes FF 62 DE 02, the big-endian rendering of 0xFF62DE02. -/
theorem known_vector_32x86 :
    fox = "the quick brown fox jumps over the lazy dog".toList.map (fun c => byte c.toNat) ∧
    murmur32x86v3.sumNil ((Murmur32x86v3 0).run [Call.write fox]) =
      some [0xFF, 0x62, 0xDE, 0x02] ∧
    PutUint32BE 0xFF62DE02 = [0xFF, 0x62, 0xDE, 0x02] := by
  refine ⟨by decide, by decide, by decide⟩

/-- C4. Known vector of the 128-bit x64 engine as the test asserts it
(`TestMurmurHash128x64v3`): with seed 0, one `Write` of the 43 bytes of "the quick brown fox
jumps over the lazy dog" and `Sum(nil)` return B3 86 AD E2 FE E9 E4 BC 7F 4B 6E 40 74 E3 E2 0A,
the big-endian rendering of 0xB386ADE2FEE9E4BC followed by that of 0x7F4B6E4074E3E20A. -/
theorem known_vector_128x64 :
    murmur128x64v3.sumNil ((Murmur128x64v3 0).run [Call.write fox]) =
      some [0xB3, 0x86, 0xAD, 0xE2, 0xFE, 0xE9, 0xE4, 0xBC,
            0x7F, 0x4B, 0x6E, 0x40, 0x74, 0xE3, 0xE2, 0x0A] ∧
    PutUint64BE 0xB386ADE2FEE9E4BC ++ PutUint64BE 0x7F4B6E4074E3E20A =
      [0xB3, 0x86, 0xAD, 0xE2, 0xFE, 0xE9, 0xE4, 0xBC,
       0x7F, 0x4B, 0x6E, 0x40, 0x74, 0xE3, 0xE2, 0x0A] := by
  refine ⟨by decide, by decide⟩

/-- C5. Known vector of the 128-bit x86 engine (`TestMurmurHash128x86v3`): with seed 0, one
`Write` of the 43 bytes of "the quick brown fox jumps over the lazy dog" and `Sum(nil)` return
FD B4 7D AF 02 17 0D 40 3F 60 93 53 9B 38 8A F2, the big-endian rendering of
0xFDB47DAF02170D40 followed by that of 0x3F6093539B388AF2. -/
theorem known_vector_128x86 :
    murmur128x86v3.sumNil ((Murmur128x86v3 0).run [Call.write fox]) =
      some [0xFD, 0xB4, 0x7D, 0xAF, 0x02, 0x17, 0x0D, 0x40,
            0x3F, 0x60, 0x93, 0x53, 0x9B, 0x38, 0x8A, 0xF2] ∧
    PutUint64BE 0xFDB47DAF02170D40 ++ PutUint64BE 0x3F6093539B388AF2 =
      [0xFD, 0xB4, 0x7D, 0xAF, 0x02, 0x17, 0x0D, 0x40,
       0x3F, 0x60, 0x93, 0x53, 0x9B, 0x38, 0x8A, 0xF2] := by
  refine ⟨by decide, by decide⟩

/-- C6, as stated, fails: with seed 0 and the 43 bytes of "the quick brown fox jumps over the
lazy dog" the finalized lanes are not `hash1 = 0xB386ADE2FEE9E4BC`, `hash2 =
0x7F4B6E4074E3E20A`, and `Sum(nil)` is not BC E4 E9 FE E2 AD 86 B3 0A E2 E3 74 40 6E 4B 7F. -/
theorem known_vector_128x64_lanes_refuted :
    murmur128x64v3.sumLanes ((Murmur128x64v3 0).run [Call.write fox]) ≠
      some (0xB386ADE2FEE9E4BC, 0x7F4B6E4074E3E20A) ∧
    murmur128x64v3.sumNil ((Murmur128x64v3 0).run [Call.write fox]) ≠
      some [0xBC, 0xE4, 0xE9, 0xFE, 0xE2, 0xAD, 0x86, 0xB3,
            0x0A, 0xE2, 0xE3, 0x74, 0x40, 0x6E, 0x4B, 0x7F] := by
  refine ⟨by decide, by decide⟩

/-- C6, amended. With seed 0 and the 43 bytes of "the quick brown fox jumps over the lazy
dog" the finalized lanes of `Murmur128x64v3` are `hash1 = 0xBCE4E9FEE2AD86B3` and `hash2 =
0x0AE2E374406E4B7F`, and `Sum(nil)` is these two lanes serialized little-endian in lane order,
the bytes B3 86 AD E2 FE E9 E4 BC 7F 4B 6E 40 74 E3 E2 0A. -/
theorem known_vector_128x64_lanes :
    murmur128x64v3.sumLanes ((Murmur128x64v3 0).run [Call.write fox]) =
      some (0xBCE4E9FEE2AD86B3, 0x0AE2E374406E4B7F) ∧
    murmur128x64v3.sumNil ((Murmur128x64v3 0).run [Call.write fox]) =
      some (PutUint64 0xBCE4E9FEE2AD86B3 ++ PutUint64 0x0AE2E374406E4B7F) ∧
    PutUint64 0xBCE4E9FEE2AD86B3 ++ PutUint64 0x0AE2E374406E4B7F =
      [0xB3, 0x86, 0xAD, 0xE2, 0xFE, 0xE9, 0xE4, 0xBC,
       0x7F, 0x4B, 0x6E, 0x40, 0x74, 0xE3, 0xE2, 0x0A] := by
  refine ⟨by decide, by decide, by decide⟩

/-- C7. `Sum` does not disturb the accumulation of `Murmur128x86v3`: for every seed and all
byte sequences `A`, `B`, the calls `Write(A); Sum(nil); Write(B); Sum(nil)` on a fresh engine
succeed and end with the same 16 bytes as `Write(A); Write(B); Sum(nil)` on a fresh engine with
the same seed; and whenever `Sum` returns, it leaves the engine, every field of it, as it was. -/
theorem sum_non_mutating_128x86 (seed : Nat) (A B : List Byte) :
    (∃ d : List Byte, d.length = 16 ∧
      murmur128x86v3.sumNil
        ((Murmur128x86v3 seed).run [Call.write A, Call.sum [], Call.write B]) = some d ∧
      murmur128x86v3.sumNil
        ((Murmur128x86v3 seed).run [Call.write A, Call.write B]) = some d) ∧
    (∀ (m : murmur128x86v3) (b : List Byte),
      (m.Sum b).map Prod.fst = (m.Sum b).map fun _ => m) := by
  constructor
  · obtain ⟨mA, eA, hA⟩ := murmur128x86v3.Write_holding_128x86 (murmur128x86v3.New_holding_128x86 seed) A
    obtain ⟨d1, _, eS, _⟩ := murmur128x86v3.Sum_holding_128x86 hA hA []
    obtain ⟨mB, eB, hB⟩ := murmur128x86v3.Write_holding_128x86 hA B
    obtain ⟨d, hd, s1, _⟩ := murmur128x86v3.sumNil_holding_128x86 hB hB
    refine ⟨d, hd, ?_, ?_⟩
    · simp only [murmur128x86v3.run, murmur128x86v3.call, eA, eS, eB]
      exact s1
    · simp only [murmur128x86v3.run, murmur128x86v3.call, eA, eB]
      exact s1
  · intro m b
    simp only [murmur128x86v3.Sum]
    cases m.checksum with
    | none => rfl
    | some r => rfl

/-- C8. `Sum` is idempotent on `Murmur128x64v3`: every sequence of `Write`, `Sum` and `Reset`
calls on a fresh engine succeeds, and in the state it reaches two consecutive calls `Sum(nil)`
both succeed and return the same 16 bytes. -/
theorem sum_idempotent_128x64 (seed : Nat) (calls : List Call) :
    ∃ (m : murmur128x64v3) (d : List Byte),
      (Murmur128x64v3 seed).run calls = some m ∧ d.length = 16 ∧
      ∃ m1, m.Sum [] = some (m1, d) ∧ ∃ m2, m1.Sum [] = some (m2, d) := by
  obtain ⟨m, S, e, hm⟩ := murmur128x64v3.run_holding_128x64 calls (murmur128x64v3.New_holding_128x64 seed)
  obtain ⟨d, hd, s, _⟩ := murmur128x64v3.Sum_holding_128x64 hm hm []
  rw [List.nil_append] at s
  exact ⟨m, d, e, hd, m, s, m, s⟩

/-- C9. Reset equivalence for `Murmur128x86v3`: after any sequence of calls on an engine
built with `seed`, `Reset(); Write(S); Sum(nil)` succeeds and returns the same 16 bytes as
`Write(S); Sum(nil)` on a fresh engine with the same seed, although `Reset` leaves the
buffer as it was. -/
theorem reset_equivalence_128x86 (seed : Nat) (calls : List Call) (S : List Byte) :
    ∃ (m : murmur128x86v3) (d : List Byte),
      (Murmur128x86v3 seed).run calls = some m ∧ m.Reset.buffer = m.buffer ∧ d.length = 16 ∧
      murmur128x86v3.sumNil (m.run [Call.reset, Call.write S]) = some d ∧
      murmur128x86v3.sumNil ((Murmur128x86v3 seed).run [Call.write S]) = some d := by
  obtain ⟨m, S0, e, hm⟩ := murmur128x86v3.run_holding_128x86 calls (murmur128x86v3.New_holding_128x86 seed)
  obtain ⟨m1, e1, h1⟩ := murmur128x86v3.Write_holding_128x86 (murmur128x86v3.Reset_holding_128x86 hm) S
  obtain ⟨m2, e2, h2⟩ := murmur128x86v3.Write_holding_128x86 (murmur128x86v3.New_holding_128x86 seed) S
  obtain ⟨d, hd, s1, s2⟩ := murmur128x86v3.sumNil_holding_128x86 h1 h2
  refine ⟨m, d, e, rfl, hd, ?_, ?_⟩
  · simp only [murmur128x86v3.run, murmur128x86v3.call, e1]
    exact s1
  · simp only [murmur128x86v3.run, murmur128x86v3.call, e2]
    exact s2

theorem murmur128x64v3.run_empty_writes_128x64 (s : Nat) :
    ∀ n : Nat, (Murmur128x64v3 s).run (List.replicate n (Call.write [])) =
      some (Murmur128x64v3 s)
  | 0 => rfl
  | n + 1 => by
    have e : (Murmur128x64v3 s).Write [] = some (Murmur128x64v3 s, 0) := rfl
    simp only [List.replicate_succ, murmur128x64v3.run, murmur128x64v3.call, e]
    exact murmur128x64v3.run_empty_writes_128x64 s n

theorem murmur128x64v3.sumNil_new_128x64 (s : Nat) :
    murmur128x64v3.sumNil (some (Murmur128x64v3 s)) =
      some (PutUint64 ((finalMix64 (2 * s % 2 ^ 64) + finalMix64 (3 * s % 2 ^ 64)) % 2 ^ 64) ++
        PutUint64
          ((finalMix64 (2 * s % 2 ^ 64) + 2 * finalMix64 (3 * s % 2 ^ 64)) % 2 ^ 64)) := by
  have hs : sliceTo (Murmur128x64v3 s).buffer (Murmur128x64v3 s).offset = some [] := rfl
  have hw : (Murmur128x64v3 s).written = 0 := rfl
  have h1 : (Murmur128x64v3 s).hash1 = s := rfl
  have h2 : (Murmur128x64v3 s).hash2 = s := rfl
  have ht : murmur128x64v3.tailSwitch [] 0 s s = some (s, s) := rfl
  have e1 : (s + s) % 2 ^ 64 = 2 * s % 2 ^ 64 := by omega
  have e2 : (s + 2 * s % 2 ^ 64) % 2 ^ 64 = 3 * s % 2 ^ 64 := by omega
  simp only [murmur128x64v3.sumNil, murmur128x64v3.Sum, murmur128x64v3.checksum, hs, hw, h1,
    h2, Nat.zero_mod, ht, Nat.xor_zero, e1, e2, List.nil_append]
  have e3 : ∀ a b : Nat, (b + (a + b) % 2 ^ 64) % 2 ^ 64 = (a + 2 * b) % 2 ^ 64 := by
    intro a b; omega
  rw [e3]

/-- C10. Empty input for `Murmur128x64v3`: for every seed `s`, `Sum(nil)` on a fresh engine,
and likewise after any number `n` of `Write` calls of a zero-length slice, returns the
little-endian serialization of the lanes `a + b` and `a + 2*b` (mod 2^64), where
`a = finalMix64(2*s mod 2^64)` and `b = finalMix64(3*s mod 2^64)`; for `s = 0` these are
16 zero bytes. -/
theorem empty_input_128x64 (s n : Nat) :
    murmur128x64v3.sumNil ((Murmur128x64v3 s).run (List.replicate n (Call.write []))) =
      some (PutUint64 ((finalMix64 (2 * s % 2 ^ 64) + finalMix64 (3 * s % 2 ^ 64)) % 2 ^ 64) ++
        PutUint64
          ((finalMix64 (2 * s % 2 ^ 64) + 2 * finalMix64 (3 * s % 2 ^ 64)) % 2 ^ 64)) ∧
    murmur128x64v3.sumNil ((Murmur128x64v3 0).run (List.replicate n (Call.write []))) =
      some (List.replicate 16 0) := by
  constructor
  · rw [murmur128x64v3.run_empty_writes_128x64 s n]
    exact murmur128x64v3.sumNil_new_128x64 s
  · rw [murmur128x64v3.run_empty_writes_128x64 0 n]
    decide

/-! ## Proofs: bit-level facts -/

theorem xorshift_inj {s : Nat} (hs : 0 < s) {x y : Nat}
    (h : x ^^^ (x >>> s) = y ^^^ (y >>> s)) : x = y := by
  have hx : x < 2 ^ (x + y) :=
    lt_of_lt_of_le (Nat.lt_two_pow x) (Nat.pow_le_pow_right (by decide) (by omega))
  have hy : y < 2 ^ (x + y) :=
    lt_of_lt_of_le (Nat.lt_two_pow y) (Nat.pow_le_pow_right (by decide) (by omega))
  have key : ∀ n i, x + y ≤ i + n → x.testBit i = y.testBit i := by
    intro n
    induction n with
    | zero =>
      intro i hi
      have h2 : 2 ^ (x + y) ≤ 2 ^ i := Nat.pow_le_pow_right (by decide) (by omega)
      rw [Nat.testBit_lt_two_pow (lt_of_lt_of_le hx h2),
        Nat.testBit_lt_two_pow (lt_of_lt_of_le hy h2)]
    | succ n ih =>
      intro i hi
      have hb := congrArg (fun z => Nat.testBit z i) h
      simp only [Nat.testBit_xor, Nat.testBit_shiftRight] at hb
      have hn := ih (s + i) (by omega)
      rw [hn] at hb
      cases hxi : x.testBit i <;> cases hyi : y.testBit i <;>
        cases hsi : y.testBit (s + i) <;> simp_all
  exact Nat.eq_of_testBit_eq fun i => key (x + y) i (by omega)

theorem mul_inv_cancel_mod {M C D : Nat} (h1 : (C * D) % M = 1) {z : Nat} (hz : z < M) :
    ((z * C) % M * D) % M = z := by
  rw [Nat.mod_mul_mod, Nat.mul_assoc, Nat.mul_mod, h1, Nat.mul_one, Nat.mod_mod,
    Nat.mod_eq_of_lt hz]

theorem affine_inj {M C D c : Nat} (h1 : (C * D) % M = 1) {x y : Nat} (hx : x < M)
    (hy : y < M) (h : (x * C + c) % M = (y * C + c) % M) : x = y := by
  have h2 : (x * C) % M = (y * C) % M := Nat.ModEq.add_right_cancel' c h
  rw [← mul_inv_cancel_mod h1 hx, ← mul_inv_cancel_mod h1 hy, h2]

theorem add_inj_mod {M a b c : Nat} (ha : a < M) (hb : b < M)
    (h : (a + c) % M = (b + c) % M) : a = b := by
  have h2 : a % M = b % M := Nat.ModEq.add_right_cancel' c h
  rwa [Nat.mod_eq_of_lt ha, Nat.mod_eq_of_lt hb] at h2

theorem RotateLeft32_inj {r : Nat} (hr : 0 < r) (hr2 : r < 32) {x y : Nat}
    (hx : x < 2 ^ 32) (hy : y < 2 ^ 32) (h : RotateLeft32 x r = RotateLeft32 y r) : x = y := by
  have hrm : r % 32 = r := Nat.mod_eq_of_lt hr2
  have hb : ∀ j, (RotateLeft32 x r).testBit j = (RotateLeft32 y r).testBit j := fun j => by rw [h]
  simp only [RotateLeft32, hrm, Nat.testBit_or, Nat.testBit_mod_two_pow, Nat.testBit_shiftLeft,
    Nat.testBit_shiftRight] at hb
  apply Nat.eq_of_testBit_eq
  intro i
  by_cases hi : i < 32
  · by_cases hlo : i + r < 32
    · have := hb (i + r)
      have e1 : i + r - r = i := by omega
      have e2 : ¬ (32 - r + (i + r) < 32) := by omega
      have e3 : i + r ≥ r := by omega
      simpa [hlo, e1, e2, e3] using this
    · have := hb (i + r - 32)
      have e1 : 32 - r + (i + r - 32) = i := by omega
      have e2 : ¬ (i + r - 32 ≥ r) := by omega
      have e3 : i + r - 32 < 32 := by omega
      simpa [e1, e2, e3, hi] using this
  · have h2 : 2 ^ 32 ≤ 2 ^ i := Nat.pow_le_pow_right (by decide) (by omega)
    rw [Nat.testBit_lt_two_pow (lt_of_lt_of_le hx h2),
      Nat.testBit_lt_two_pow (lt_of_lt_of_le hy h2)]

theorem RotateLeft32_lt (x r : Nat) : RotateLeft32 x r < 2 ^ 32 := by
  apply Nat.or_lt_two_pow
  · exact Nat.mod_lt _ (by decide)
  · have : (x % 2 ^ 32) < 2 ^ 32 := Nat.mod_lt _ (by decide)
    rw [Nat.shiftRight_eq_div_pow]
    exact lt_of_le_of_lt (Nat.div_le_self _ _) this

theorem xor_eq_or_of_low {hi lo n : Nat} (hlo : lo < 2 ^ n)
    (hhi : ∀ i, i < n → hi.testBit i = false) : hi ^^^ lo = hi ||| lo := by
  apply Nat.eq_of_testBit_eq
  intro i
  simp only [Nat.testBit_xor, Nat.testBit_or]
  by_cases h : i < n
  · rw [hhi i h]; simp
  · have h2 : 2 ^ n ≤ 2 ^ i := Nat.pow_le_pow_right (by decide) (by omega)
    rw [Nat.testBit_lt_two_pow (lt_of_lt_of_le hlo h2)]; simp

theorem shl_low {a k i : Nat} (h : i < k) : (a <<< k).testBit i = false := by
  simp only [Nat.testBit_shiftLeft]
  have : ¬ (i ≥ k) := by omega
  simp [this]

theorem or_low {x y i : Nat} (hx : x.testBit i = false) (hy : y.testBit i = false) :
    (x ||| y).testBit i = false := by
  simp [Nat.testBit_or, hx, hy]

theorem shl_lt {a : Nat} (ha : a < 256) (k : Nat) : a <<< k < 2 ^ (k + 8) := by
  rw [Nat.shiftLeft_eq, Nat.pow_add, Nat.mul_comm]
  exact Nat.mul_lt_mul_of_pos_left ha (Nat.two_pow_pos k)

/-! ## Proofs: a word XORed together from shifted bytes is the word read from them -/

theorem word2_xor_or {a0 a1 : Nat} (h0 : a0 < 256) :
    a1 <<< 8 ^^^ a0 =
      a0 ||| a1 <<< 8 := by
  rw [xor_eq_or_of_low (n := 8) h0 (fun i hi => shl_low (by omega))]
  apply Nat.eq_of_testBit_eq
  intro i
  simp only [Nat.testBit_or]
  generalize Nat.testBit (a1 <<< 8) i = p1
  generalize Nat.testBit a0 i = p0
  revert p0 p1
  decide

theorem word2_bytes (b0 b1 : Byte) :
    b1.val <<< 8 ^^^ b0.val =
      b0.val ||| b1.val <<< 8 :=
  word2_xor_or b0.isLt

theorem word3_xor_or {a0 a1 a2 : Nat} (h0 : a0 < 256) (h1 : a1 < 256) :
    a2 <<< 16 ^^^ a1 <<< 8 ^^^ a0 =
      a0 ||| a1 <<< 8 ||| a2 <<< 16 := by
  rw [xor_eq_or_of_low (shl_lt h1 8) (fun i hi => shl_low (by omega)),
    xor_eq_or_of_low (n := 8) h0 (fun i hi => or_low (shl_low (by omega)) (shl_low (by omega)))]
  apply Nat.eq_of_testBit_eq
  intro i
  simp only [Nat.testBit_or]
  generalize Nat.testBit (a2 <<< 16) i = p2
  generalize Nat.testBit (a1 <<< 8) i = p1
  generalize Nat.testBit a0 i = p0
  revert p0 p1 p2
  decide

theorem word3_bytes (b0 b1 b2 : Byte) :
    b2.val <<< 16 ^^^ b1.val <<< 8 ^^^ b0.val =
      b0.val ||| b1.val <<< 8 ||| b2.val <<< 16 :=
  word3_xor_or b0.isLt b1.isLt

theorem word4_xor_or {a0 a1 a2 a3 : Nat} (h0 : a0 < 256) (h1 : a1 < 256) (h2 : a2 < 256) :
    a3 <<< 24 ^^^ a2 <<< 16 ^^^ a1 <<< 8 ^^^ a0 =
      a0 ||| a1 <<< 8 ||| a2 <<< 16 ||| a3 <<< 24 := by
  rw [xor_eq_or_of_low (shl_lt h2 16) (fun i hi => shl_low (by omega)),
    xor_eq_or_of_low (shl_lt h1 8) (fun i hi => or_low (shl_low (by omega)) (shl_low (by omega))),
    xor_eq_or_of_low (n := 8) h0 (fun i hi => or_low (or_low (shl_low (by omega)) (shl_low (by omega))) (shl_low (by omega)))]
  apply Nat.eq_of_testBit_eq
  intro i
  simp only [Nat.testBit_or]
  generalize Nat.testBit (a3 <<< 24) i = p3
  generalize Nat.testBit (a2 <<< 16) i = p2
  generalize Nat.testBit (a1 <<< 8) i = p1
  generalize Nat.testBit a0 i = p0
  revert p0 p1 p2 p3
  decide

theorem word4_bytes (b0 b1 b2 b3 : Byte) :
    b3.val <<< 24 ^^^ b2.val <<< 16 ^^^ b1.val <<< 8 ^^^ b0.val =
      b0.val ||| b1.val <<< 8 ||| b2.val <<< 16 ||| b3.val <<< 24 :=
  word4_xor_or b0.isLt b1.isLt b2.isLt

theorem word5_xor_or {a0 a1 a2 a3 a4 : Nat} (h0 : a0 < 256) (h1 : a1 < 256) (h2 : a2 < 256) (h3 : a3 < 256) :
    a4 <<< 32 ^^^ a3 <<< 24 ^^^ a2 <<< 16 ^^^ a1 <<< 8 ^^^ a0 =
      a0 ||| a1 <<< 8 ||| a2 <<< 16 ||| a3 <<< 24 ||| a4 <<< 32 := by
  rw [xor_eq_or_of_low (shl_lt h3 24) (fun i hi => shl_low (by omega)),
    xor_eq_or_of_low (shl_lt h2 16) (fun i hi => or_low (shl_low (by omega)) (shl_low (by omega))),
    xor_eq_or_of_low (shl_lt h1 8) (fun i hi => or_low (or_low (shl_low (by omega)) (shl_low (by omega))) (shl_low (by omega))),
    xor_eq_or_of_low (n := 8) h0 (fun i hi => or_low (or_low (or_low (shl_low (by omega)) (shl_low (by omega))) (shl_low (by omega))) (shl_low (by omega)))]
  apply Nat.eq_of_testBit_eq
  intro i
  simp only [Nat.testBit_or]
  generalize Nat.testBit (a4 <<< 32) i = p4
  generalize Nat.testBit (a3 <<< 24) i = p3
  generalize Nat.testBit (a2 <<< 16) i = p2
  generalize Nat.testBit (a1 <<< 8) i = p1
  generalize Nat.testBit a0 i = p0
  revert p0 p1 p2 p3 p4
  decide

theorem word5_bytes (b0 b1 b2 b3 b4 : Byte) :
    b4.val <<< 32 ^^^ b3.val <<< 24 ^^^ b2.val <<< 16 ^^^ b1.val <<< 8 ^^^ b0.val =
      b0.val ||| b1.val <<< 8 ||| b2.val <<< 16 ||| b3.val <<< 24 ||| b4.val <<< 32 :=
  word5_xor_or b0.isLt b1.isLt b2.isLt b3.isLt

theorem word6_xor_or {a0 a1 a2 a3 a4 a5 : Nat} (h0 : a0 < 256) (h1 : a1 < 256) (h2 : a2 < 256) (h3 : a3 < 256) (h4 : a4 < 256) :
    a5 <<< 40 ^^^ a4 <<< 32 ^^^ a3 <<< 24 ^^^ a2 <<< 16 ^^^ a1 <<< 8 ^^^ a0 =
      a0 ||| a1 <<< 8 ||| a2 <<< 16 ||| a3 <<< 24 ||| a4 <<< 32 ||| a5 <<< 40 := by
  rw [xor_eq_or_of_low (shl_lt h4 32) (fun i hi => shl_low (by omega)),
    xor_eq_or_of_low (shl_lt h3 24) (fun i hi => or_low (shl_low (by omega)) (shl_low (by omega))),
    xor_eq_or_of_low (shl_lt h2 16) (fun i hi => or_low (or_low (shl_low (by omega)) (shl_low (by omega))) (shl_low (by omega))),
    xor_eq_or_of_low (shl_lt h1 8) (fun i hi => or_low (or_low (or_low (shl_low (by omega)) (shl_low (by omega))) (shl_low (by omega))) (shl_low (by omega))),
    xor_eq_or_of_low (n := 8) h0 (fun i hi => or_low (or_low (or_low (or_low (shl_low (by omega)) (shl_low (by omega))) (shl_low (by omega))) (shl_low (by omega))) (shl_low (by omega)))]
  apply Nat.eq_of_testBit_eq
  intro i
  simp only [Nat.testBit_or]
  generalize Nat.testBit (a5 <<< 40) i = p5
  generalize Nat.testBit (a4 <<< 32) i = p4
  generalize Nat.testBit (a3 <<< 24) i = p3
  generalize Nat.testBit (a2 <<< 16) i = p2
  generalize Nat.testBit (a1 <<< 8) i = p1
  generalize Nat.testBit a0 i = p0
  revert p0 p1 p2 p3 p4 p5
  decide

theorem word6_bytes (b0 b1 b2 b3 b4 b5 : Byte) :
    b5.val <<< 40 ^^^ b4.val <<< 32 ^^^ b3.val <<< 24 ^^^ b2.val <<< 16 ^^^ b1.val <<< 8 ^^^ b0.val =
      b0.val ||| b1.val <<< 8 ||| b2.val <<< 16 ||| b3.val <<< 24 ||| b4.val <<< 32 ||| b5.val <<< 40 :=
  word6_xor_or b0.isLt b1.isLt b2.isLt b3.isLt b4.isLt

theorem word7_xor_or {a0 a1 a2 a3 a4 a5 a6 : Nat} (h0 : a0 < 256) (h1 : a1 < 256) (h2 : a2 < 256) (h3 : a3 < 256) (h4 : a4 < 256) (h5 : a5 < 256) :
    a6 <<< 48 ^^^ a5 <<< 40 ^^^ a4 <<< 32 ^^^ a3 <<< 24 ^^^ a2 <<< 16 ^^^ a1 <<< 8 ^^^ a0 =
      a0 ||| a1 <<< 8 ||| a2 <<< 16 ||| a3 <<< 24 ||| a4 <<< 32 ||| a5 <<< 40 ||| a6 <<< 48 := by
  rw [xor_eq_or_of_low (shl_lt h5 40) (fun i hi => shl_low (by omega)),
    xor_eq_or_of_low (shl_lt h4 32) (fun i hi => or_low (shl_low (by omega)) (shl_low (by omega))),
    xor_eq_or_of_low (shl_lt h3 24) (fun i hi => or_low (or_low (shl_low (by omega)) (shl_low (by omega))) (shl_low (by omega))),
    xor_eq_or_of_low (shl_lt h2 16) (fun i hi => or_low (or_low (or_low (shl_low (by omega)) (shl_low (by omega))) (shl_low (by omega))) (shl_low (by omega))),
    xor_eq_or_of_low (shl_lt h1 8) (fun i hi => or_low (or_low (or_low (or_low (shl_low (by omega)) (shl_low (by omega))) (shl_low (by omega))) (shl_low (by omega))) (shl_low (by omega))),
    xor_eq_or_of_low (n := 8) h0 (fun i hi => or_low (or_low (or_low (or_low (or_low (shl_low (by omega)) (shl_low (by omega))) (shl_low (by omega))) (shl_low (by omega))) (shl_low (by omega))) (shl_low (by omega)))]
  apply Nat.eq_of_testBit_eq
  intro i
  simp only [Nat.testBit_or]
  generalize Nat.testBit (a6 <<< 48) i = p6
  generalize Nat.testBit (a5 <<< 40) i = p5
  generalize Nat.testBit (a4 <<< 32) i = p4
  generalize Nat.testBit (a3 <<< 24) i = p3
  generalize Nat.testBit (a2 <<< 16) i = p2
  generalize Nat.testBit (a1 <<< 8) i = p1
  generalize Nat.testBit a0 i = p0
  revert p0 p1 p2 p3 p4 p5 p6
  decide

theorem word7_bytes (b0 b1 b2 b3 b4 b5 b6 : Byte) :
    b6.val <<< 48 ^^^ b5.val <<< 40 ^^^ b4.val <<< 32 ^^^ b3.val <<< 24 ^^^ b2.val <<< 16 ^^^ b1.val <<< 8 ^^^ b0.val =
      b0.val ||| b1.val <<< 8 ||| b2.val <<< 16 ||| b3.val <<< 24 ||| b4.val <<< 32 ||| b5.val <<< 40 ||| b6.val <<< 48 :=
  word7_xor_or b0.isLt b1.isLt b2.isLt b3.isLt b4.isLt b5.isLt

theorem word8_xor_or {a0 a1 a2 a3 a4 a5 a6 a7 : Nat} (h0 : a0 < 256) (h1 : a1 < 256) (h2 : a2 < 256) (h3 : a3 < 256) (h4 : a4 < 256) (h5 : a5 < 256) (h6 : a6 < 256) :
    a7 <<< 56 ^^^ a6 <<< 48 ^^^ a5 <<< 40 ^^^ a4 <<< 32 ^^^ a3 <<< 24 ^^^ a2 <<< 16 ^^^ a1 <<< 8 ^^^ a0 =
      a0 ||| a1 <<< 8 ||| a2 <<< 16 ||| a3 <<< 24 ||| a4 <<< 32 ||| a5 <<< 40 ||| a6 <<< 48 ||| a7 <<< 56 := by
  rw [xor_eq_or_of_low (shl_lt h6 48) (fun i hi => shl_low (by omega)),
    xor_eq_or_of_low (shl_lt h5 40) (fun i hi => or_low (shl_low (by omega)) (shl_low (by omega))),
    xor_eq_or_of_low (shl_lt h4 32) (fun i hi => or_low (or_low (shl_low (by omega)) (shl_low (by omega))) (shl_low (by omega))),
    xor_eq_or_of_low (shl_lt h3 24) (fun i hi => or_low (or_low (or_low (shl_low (by omega)) (shl_low (by omega))) (shl_low (by omega))) (shl_low (by omega))),
    xor_eq_or_of_low (shl_lt h2 16) (fun i hi => or_low (or_low (or_low (or_low (shl_low (by omega)) (shl_low (by omega))) (shl_low (by omega))) (shl_low (by omega))) (shl_low (by omega))),
    xor_eq_or_of_low (shl_lt h1 8) (fun i hi => or_low (or_low (or_low (or_low (or_low (shl_low (by omega)) (shl_low (by omega))) (shl_low (by omega))) (shl_low (by omega))) (shl_low (by omega))) (shl_low (by omega))),
    xor_eq_or_of_low (n := 8) h0 (fun i hi => or_low (or_low (or_low (or_low (or_low (or_low (shl_low (by omega)) (shl_low (by omega))) (shl_low (by omega))) (shl_low (by omega))) (shl_low (by omega))) (shl_low (by omega))) (shl_low (by omega)))]
  apply Nat.eq_of_testBit_eq
  intro i
  simp only [Nat.testBit_or]
  generalize Nat.testBit (a7 <<< 56) i = p7
  generalize Nat.testBit (a6 <<< 48) i = p6
  generalize Nat.testBit (a5 <<< 40) i = p5
  generalize Nat.testBit (a4 <<< 32) i = p4
  generalize Nat.testBit (a3 <<< 24) i = p3
  generalize Nat.testBit (a2 <<< 16) i = p2
  generalize Nat.testBit (a1 <<< 8) i = p1
  generalize Nat.testBit a0 i = p0
  revert p0 p1 p2 p3 p4 p5 p6 p7
  decide

theorem word8_bytes (b0 b1 b2 b3 b4 b5 b6 b7 : Byte) :
    b7.val <<< 56 ^^^ b6.val <<< 48 ^^^ b5.val <<< 40 ^^^ b4.val <<< 32 ^^^ b3.val <<< 24 ^^^ b2.val <<< 16 ^^^ b1.val <<< 8 ^^^ b0.val =
      b0.val ||| b1.val <<< 8 ||| b2.val <<< 16 ||| b3.val <<< 24 ||| b4.val <<< 32 ||| b5.val <<< 40 ||| b6.val <<< 48 ||| b7.val <<< 56 :=
  word8_xor_or b0.isLt b1.isLt b2.isLt b3.isLt b4.isLt b5.isLt b6.isLt

theorem RotateLeft32_zero (r : Nat) : RotateLeft32 0 r = 0 := by
  simp [RotateLeft32]

theorem RotateLeft64_zero (r : Nat) : RotateLeft64 0 r = 0 := by
  simp [RotateLeft64]

/-! ## Proofs: the tail switch is the fold of the zero-padded tail -/

theorem murmur128x86v3.tailSwitch_padded_128x86 (tail : List Byte) (h : tail.length ≤ 15)
    (h1 h2 h3 h4 : Nat) :
    murmur128x86v3.tailSwitch tail tail.length h1 h2 h3 h4 =
      murmur128x86v3.paddedFold tail h1 h2 h3 h4 := by
  rcases tail with _ | ⟨b0, _ | ⟨b1, _ | ⟨b2, _ | ⟨b3, _ | ⟨b4, _ | ⟨b5, _ | ⟨b6, _ | ⟨b7,
    _ | ⟨b8, _ | ⟨b9, _ | ⟨b10, _ | ⟨b11, _ | ⟨b12, _ | ⟨b13, _ | ⟨b14, _ | ⟨b15, t⟩
    ⟩⟩⟩⟩⟩⟩⟩⟩⟩⟩⟩⟩⟩⟩⟩ <;>
  first
  | (simp at h; done)
  | simp [murmur128x86v3.tailSwitch, murmur128x86v3.tailArms13, murmur128x86v3.tailArms9,
      murmur128x86v3.tailArms5, murmur128x86v3.tailArms1, arm, index,
      murmur128x86v3.paddedFold, zeroPad, Uint32, one128x86, two128x86, three128x86,
      four128x86, word4_bytes, word3_bytes, word2_bytes, RotateLeft32_zero]

theorem murmur128x64v3.tailSwitch_padded_128x64 (tail : List Byte) (h : tail.length ≤ 15)
    (h1 h2 : Nat) :
    murmur128x64v3.tailSwitch tail tail.length h1 h2 =
      murmur128x64v3.paddedFold tail h1 h2 := by
  rcases tail with _ | ⟨b0, _ | ⟨b1, _ | ⟨b2, _ | ⟨b3, _ | ⟨b4, _ | ⟨b5, _ | ⟨b6, _ | ⟨b7,
    _ | ⟨b8, _ | ⟨b9, _ | ⟨b10, _ | ⟨b11, _ | ⟨b12, _ | ⟨b13, _ | ⟨b14, _ | ⟨b15, t⟩
    ⟩⟩⟩⟩⟩⟩⟩⟩⟩⟩⟩⟩⟩⟩⟩ <;>
  first
  | (simp at h; done)
  | simp [murmur128x64v3.tailSwitch, murmur128x64v3.tailArms9, murmur128x64v3.tailArms1,
      arm, index, murmur128x64v3.paddedFold, zeroPad, Uint64, one128x64, two128x64,
      word8_bytes, word7_bytes, word6_bytes, word5_bytes, word4_bytes, word3_bytes,
      word2_bytes, RotateLeft64_zero]

theorem murmur32x86v3.tailSwitch_padded_32x86 (tail : List Byte) (h : tail.length ≤ 3)
    (digest : Nat) :
    murmur32x86v3.tailSwitch tail tail.length digest =
      murmur32x86v3.paddedFold tail digest := by
  rcases tail with _ | ⟨b0, _ | ⟨b1, _ | ⟨b2, _ | ⟨b3, t⟩⟩⟩⟩ <;>
  first
  | (simp at h; done)
  | simp [murmur32x86v3.tailSwitch, arm, index, murmur32x86v3.paddedFold, zeroPad, Uint32,
      one32x86, two32x86, word3_bytes, word2_bytes, RotateLeft32_zero]

/-! ## Proofs: the finalization steps are injective -/

theorem mul_inj_mod {M C D : Nat} (h1 : (C * D) % M = 1) {x y : Nat} (hx : x < M)
    (hy : y < M) (h : (x * C) % M = (y * C) % M) : x = y := by
  rw [← mul_inv_cancel_mod h1 hx, ← mul_inv_cancel_mod h1 hy, h]

theorem xorshift_lt {k n : Nat} (s : Nat) (h : k < 2 ^ n) : k ^^^ (k >>> s) < 2 ^ n := by
  apply Nat.xor_lt_two_pow h
  rw [Nat.shiftRight_eq_div_pow]
  exact lt_of_le_of_lt (Nat.div_le_self _ _) h

theorem finalMix32_lt (k : Nat) : finalMix32 k < 2 ^ 32 := by
  simp only [finalMix32]
  exact xorshift_lt 16 (Nat.mod_lt _ (by decide))

theorem finalMix64_lt (k : Nat) : finalMix64 k < 2 ^ 64 := by
  simp only [finalMix64]
  exact xorshift_lt 33 (Nat.mod_lt _ (by decide))

theorem finalMix32_inj {x y : Nat} (hx : x < 2 ^ 32) (hy : y < 2 ^ 32)
    (h : finalMix32 x = finalMix32 y) : x = y := by
  simp only [finalMix32] at h
  have h1 := xorshift_inj (by decide) h
  have h2 := mul_inj_mod (D := 0x7ed1b41d) (by decide)
    (xorshift_lt 13 (Nat.mod_lt _ (by decide))) (xorshift_lt 13 (Nat.mod_lt _ (by decide))) h1
  have h3 := xorshift_inj (by decide) h2
  have h4 := mul_inj_mod (D := 0xa5cb9243) (by decide) (xorshift_lt 16 hx) (xorshift_lt 16 hy) h3
  exact xorshift_inj (by decide) h4

theorem finalMix64_inj {x y : Nat} (hx : x < 2 ^ 64) (hy : y < 2 ^ 64)
    (h : finalMix64 x = finalMix64 y) : x = y := by
  simp only [finalMix64] at h
  have h1 := xorshift_inj (by decide) h
  have h2 := mul_inj_mod (D := 0x9cb4b2f8129337db) (by decide)
    (xorshift_lt 33 (Nat.mod_lt _ (by decide))) (xorshift_lt 33 (Nat.mod_lt _ (by decide))) h1
  have h3 := xorshift_inj (by decide) h2
  have h4 := mul_inj_mod (D := 0x4f74430c22a54005) (by decide)
    (xorshift_lt 33 hx) (xorshift_lt 33 hy) h3
  exact xorshift_inj (by decide) h4

theorem or_shl_eq_add {lo n : Nat} (hi : Nat) (h : lo < 2 ^ n) :
    lo ||| hi <<< n = lo + hi * 2 ^ n := by
  rw [Nat.or_comm, Nat.shiftLeft_eq, Nat.mul_comm hi, ← Nat.mul_add_lt_is_or h, Nat.add_comm]

theorem le4_or_add {b0 b1 b2 b3 : Nat} (h0 : b0 < 256) (h1 : b1 < 256) (h2 : b2 < 256) :
    b0 ||| b1 <<< 8 ||| b2 <<< 16 ||| b3 <<< 24 =
      b0 + b1 * 2 ^ 8 + b2 * 2 ^ 16 + b3 * 2 ^ 24 := by
  rw [or_shl_eq_add (n := 8) b1 (by omega)]
  rw [or_shl_eq_add (n := 16) b2 (by omega)]
  rw [or_shl_eq_add (n := 24) b3 (by omega)]

theorem le8_or_add {b0 b1 b2 b3 b4 b5 b6 b7 : Nat} (h0 : b0 < 256) (h1 : b1 < 256) (h2 : b2 < 256) (h3 : b3 < 256) (h4 : b4 < 256) (h5 : b5 < 256) (h6 : b6 < 256) :
    b0 ||| b1 <<< 8 ||| b2 <<< 16 ||| b3 <<< 24 ||| b4 <<< 32 ||| b5 <<< 40 ||| b6 <<< 48 ||| b7 <<< 56 =
      b0 + b1 * 2 ^ 8 + b2 * 2 ^ 16 + b3 * 2 ^ 24 + b4 * 2 ^ 32 + b5 * 2 ^ 40 + b6 * 2 ^ 48 + b7 * 2 ^ 56 := by
  rw [or_shl_eq_add (n := 8) b1 (by omega)]
  rw [or_shl_eq_add (n := 16) b2 (by omega)]
  rw [or_shl_eq_add (n := 24) b3 (by omega)]
  rw [or_shl_eq_add (n := 32) b4 (by omega)]
  rw [or_shl_eq_add (n := 40) b5 (by omega)]
  rw [or_shl_eq_add (n := 48) b6 (by omega)]
  rw [or_shl_eq_add (n := 56) b7 (by omega)]

theorem Uint32_PutUint32 (v : Nat) : Uint32 (PutUint32 v) = some (v % 2 ^ 32) := by
  simp only [PutUint32, Uint32, byte, Nat.shiftRight_eq_div_pow, Option.some.injEq]
  rw [le4_or_add (by omega) (by omega) (by omega)]
  omega

theorem Uint64_PutUint64 (v : Nat) : Uint64 (PutUint64 v) = some (v % 2 ^ 64) := by
  simp only [PutUint64, Uint64, byte, Nat.shiftRight_eq_div_pow, Option.some.injEq]
  rw [le8_or_add (by omega) (by omega) (by omega) (by omega) (by omega) (by omega) (by omega)]
  omega

theorem PutUint32_inj {x y : Nat} (hx : x < 2 ^ 32) (hy : y < 2 ^ 32)
    (h : PutUint32 x = PutUint32 y) : x = y := by
  have h2 := congrArg Uint32 h
  rw [Uint32_PutUint32, Uint32_PutUint32, Nat.mod_eq_of_lt hx, Nat.mod_eq_of_lt hy] at h2
  exact Option.some.inj h2

theorem PutUint64_inj {x y : Nat} (hx : x < 2 ^ 64) (hy : y < 2 ^ 64)
    (h : PutUint64 x = PutUint64 y) : x = y := by
  have h2 := congrArg Uint64 h
  rw [Uint64_PutUint64, Uint64_PutUint64, Nat.mod_eq_of_lt hx, Nat.mod_eq_of_lt hy] at h2
  exact Option.some.inj h2

theorem RotateLeft64_inj {r : Nat} (hr : 0 < r) (hr2 : r < 64) {x y : Nat}
    (hx : x < 2 ^ 64) (hy : y < 2 ^ 64) (h : RotateLeft64 x r = RotateLeft64 y r) : x = y := by
  have hrm : r % 64 = r := Nat.mod_eq_of_lt hr2
  have hb : ∀ j, (RotateLeft64 x r).testBit j = (RotateLeft64 y r).testBit j := fun j => by rw [h]
  simp only [RotateLeft64, hrm, Nat.testBit_or, Nat.testBit_mod_two_pow, Nat.testBit_shiftLeft,
    Nat.testBit_shiftRight] at hb
  apply Nat.eq_of_testBit_eq
  intro i
  by_cases hi : i < 64
  · by_cases hlo : i + r < 64
    · have := hb (i + r)
      have e1 : i + r - r = i := by omega
      have e2 : ¬ (64 - r + (i + r) < 64) := by omega
      have e3 : i + r ≥ r := by omega
      simpa [hlo, e1, e2, e3] using this
    · have := hb (i + r - 64)
      have e1 : 64 - r + (i + r - 64) = i := by omega
      have e2 : ¬ (i + r - 64 ≥ r) := by omega
      have e3 : i + r - 64 < 64 := by omega
      simpa [e1, e2, e3, hi] using this
  · have h2 : 2 ^ 64 ≤ 2 ^ i := Nat.pow_le_pow_right (by decide) (by omega)
    rw [Nat.testBit_lt_two_pow (lt_of_lt_of_le hx h2),
      Nat.testBit_lt_two_pow (lt_of_lt_of_le hy h2)]

theorem RotateLeft64_lt (x r : Nat) : RotateLeft64 x r < 2 ^ 64 := by
  apply Nat.or_lt_two_pow
  · exact Nat.mod_lt _ (by decide)
  · have : (x % 2 ^ 64) < 2 ^ 64 := Nat.mod_lt _ (by decide)
    rw [Nat.shiftRight_eq_div_pow]
    exact lt_of_le_of_lt (Nat.div_le_self _ _) this

/-! ## Proofs: the digest determines the seed -/

section AbsorbInj

variable {H : Type} {B : Nat} {step : H → List Byte → Option H} {P : H → Prop}

theorem absorb_pres (hP : ∀ h bs r, P h → step h bs = some r → P r) :
    ∀ (n : Nat) (h : H) (S : List Byte) (r : H),
      P h → absorb B step n h S = some r → P r
  | 0, h, _, r, hh, e => by
    simp only [absorb, Option.some.injEq] at e
    exact e ▸ hh
  | n + 1, h, S, r, hh, e => by
    simp only [absorb] at e
    cases hs : step h S with
    | none => simp [hs] at e
    | some h1 =>
      simp only [hs] at e
      exact absorb_pres hP n h1 (S.drop B) r (hP h S h1 hh hs) e

theorem absorb_inj (hP : ∀ h bs r, P h → step h bs = some r → P r)
    (hinj : ∀ h g bs r, P h → P g → step h bs = some r → step g bs = some r → h = g) :
    ∀ (n : Nat) (h g : H) (S : List Byte) (r : H),
      P h → P g → absorb B step n h S = some r → absorb B step n g S = some r → h = g
  | 0, h, g, _, r, _, _, e1, e2 => by
    simp only [absorb, Option.some.injEq] at e1 e2
    rw [e1, e2]
  | n + 1, h, g, S, r, hh, hg, e1, e2 => by
    simp only [absorb] at e1 e2
    cases hs : step h S with
    | none => simp [hs] at e1
    | some h1 =>
      cases gs : step g S with
      | none => simp [gs] at e2
      | some g1 =>
        simp only [hs] at e1
        simp only [gs] at e2
        have e := absorb_inj hP hinj n h1 g1 (S.drop B) r (hP h S h1 hh hs) (hP g S g1 hg gs)
          e1 e2
        subst e
        exact hinj h g S h1 hh hg hs gs

end AbsorbInj

namespace murmur32x86v3

theorem block_eq_32x86 (h : Nat) (bs : List Byte) :
    block h bs =
      match Uint32 bs with
      | none => none
      | some tmp =>
        some ((RotateLeft32 (h ^^^ (RotateLeft32 (tmp * one32x86 % 2 ^ 32) 15 * two32x86 %
          2 ^ 32)) 13 * 5 + 0xe6546b64) % 2 ^ 32) := by
  simp only [block, calculateBlock, lanes]
  cases Uint32 bs with
  | none => rfl
  | some tmp => rfl

theorem block_lt_32x86 (h : Nat) (bs : List Byte) (r : Nat) (_hh : h < 2 ^ 32)
    (e : block h bs = some r) : r < 2 ^ 32 := by
  rw [block_eq_32x86] at e
  cases hu : Uint32 bs with
  | none => simp [hu] at e
  | some tmp =>
    simp only [hu, Option.some.injEq] at e
    rw [← e]
    exact Nat.mod_lt _ (by decide)

theorem block_inj_32x86 (h g : Nat) (bs : List Byte) (r : Nat) (hh : h < 2 ^ 32)
    (hg : g < 2 ^ 32) (e1 : block h bs = some r) (e2 : block g bs = some r) : h = g := by
  rw [block_eq_32x86] at e1 e2
  cases hu : Uint32 bs with
  | none => simp [hu] at e1
  | some tmp =>
    simp only [hu, Option.some.injEq] at e1 e2
    have ht : RotateLeft32 (tmp * one32x86 % 2 ^ 32) 15 * two32x86 % 2 ^ 32 < 2 ^ 32 :=
      Nat.mod_lt _ (by decide)
    have e3 := affine_inj (D := 0xcccccccd) (by decide) (RotateLeft32_lt _ _)
      (RotateLeft32_lt _ _) (e1.trans e2.symm)
    have e4 := RotateLeft32_inj (by decide) (by decide) (Nat.xor_lt_two_pow hh ht)
      (Nat.xor_lt_two_pow hg ht) e3
    exact Nat.xor_left_inj.mp e4

theorem paddedFold_form_32x86 (T : List Byte) (hT : T.length ≤ 3) :
    ∃ K, K < 2 ^ 32 ∧ ∀ d, paddedFold T d = some (d ^^^ K) := by
  have hu : ∃ k, Uint32 (zeroPad 4 T) = some k := by
    rcases T with _ | ⟨b0, _ | ⟨b1, _ | ⟨b2, _ | ⟨b3, t⟩⟩⟩⟩ <;>
    first
    | (simp at hT; done)
    | exact ⟨_, rfl⟩
  obtain ⟨k, hk⟩ := hu
  exact ⟨RotateLeft32 (k * 0xcc9e2d51 % 2 ^ 32) 15 * 0x1b873593 % 2 ^ 32,
    Nat.mod_lt _ (by decide), fun d => by simp only [paddedFold, hk]⟩

theorem holding_digest_lt_32x86 {seed : Nat} {S : List Byte} {m : murmur32x86v3}
    (hs : seed < 2 ^ 32) (hm : Holding seed S m) : m.digest < 2 ^ 32 :=
  absorb_pres (P := fun h => h < 2 ^ 32) block_lt_32x86 _ _ _ _ hs hm.1.hash_eq

theorem holding_seed_inj_32x86 {s1 s2 : Nat} {S : List Byte} {m1 m2 : murmur32x86v3}
    (h1 : s1 < 2 ^ 32) (h2 : s2 < 2 ^ 32) (hm1 : Holding s1 S m1) (hm2 : Holding s2 S m2)
    (e : m1.digest = m2.digest) : s1 = s2 := by
  have e1 : absorb 4 block (S.length / 4) s1 S = some m1.digest := hm1.1.hash_eq
  have e2 : absorb 4 block (S.length / 4) s2 S = some m1.digest := by
    rw [e]; exact hm2.1.hash_eq
  exact absorb_inj (P := fun h => h < 2 ^ 32) block_lt_32x86 block_inj_32x86 _ _ _ _ _
    h1 h2 e1 e2

theorem sumNil_form_32x86 (S : List Byte) :
    ∃ K, K < 2 ^ 32 ∧ ∀ (seed : Nat) (m : murmur32x86v3), Holding seed S m →
      sumNil (some m) =
        some (PutUint32 (finalMix32 ((m.digest ^^^ K) ^^^ S.length % 2 ^ 32))) := by
  have hl : (S.drop (S.length / 4 * 4)).length = S.length % 4 := by
    rw [List.length_drop]; omega
  obtain ⟨K, hK, hf⟩ := paddedFold_form_32x86 (S.drop (S.length / 4 * 4)) (by omega)
  refine ⟨K, hK, fun seed m hm => ?_⟩
  have ht := holding_tail_32x86 hm
  have hw : m.written = S.length := hm.2.1
  have hp := tailSwitch_padded_32x86 (S.drop (S.length / 4 * 4)) (by omega) m.digest
  simp only [sumNil, Sum, checksum, ht, hw, ← hl, hp, hf, List.nil_append]

theorem sumNil_padded_32x86 {seed : Nat} {S : List Byte} {m : murmur32x86v3}
    (hm : Holding seed S m) :
    sumNil (some m) =
      match paddedFold (S.drop (S.length / 4 * 4)) m.digest with
      | none => none
      | some d => some (PutUint32 (finalMix32 (d ^^^ S.length % 2 ^ 32))) := by
  have hl : (S.drop (S.length / 4 * 4)).length = S.length % 4 := by
    rw [List.length_drop]; omega
  have ht := holding_tail_32x86 hm
  have hw : m.written = S.length := hm.2.1
  have hp := tailSwitch_padded_32x86 (S.drop (S.length / 4 * 4)) (by omega) m.digest
  simp only [sumNil, Sum, checksum, ht, hw, ← hl, hp, List.nil_append]
  cases paddedFold (S.drop (S.length / 4 * 4)) m.digest with
  | none => rfl
  | some d => rfl

end murmur32x86v3

namespace murmur128x64v3

theorem block_form_128x64 (bs : List Byte) :
    (∀ h, block h bs = none) ∨
      ∃ t1 t2, t1 < 2 ^ 64 ∧ t2 < 2 ^ 64 ∧ ∀ h, block h bs = some (mixLanes h t1 t2) := by
  simp only [block, calculateBlock, lanes, mixLanes, Option.bind_eq_bind]
  cases sliceFrom bs 0 with
  | none => exact Or.inl fun _ => rfl
  | some b0 =>
    simp only [Option.some_bind]
    cases Uint64 b0 with
    | none => exact Or.inl fun _ => rfl
    | some u0 =>
      simp only [Option.some_bind]
      cases sliceFrom bs 8 with
      | none => exact Or.inl fun _ => rfl
      | some b8 =>
        simp only [Option.some_bind]
        cases Uint64 b8 with
        | none => exact Or.inl fun _ => rfl
        | some u8 =>
          exact Or.inr ⟨RotateLeft64 (u0 * one128x64 % 2 ^ 64) 31 * two128x64 % 2 ^ 64,
            RotateLeft64 (u8 * two128x64 % 2 ^ 64) 33 * one128x64 % 2 ^ 64,
            Nat.mod_lt _ (by decide), Nat.mod_lt _ (by decide), fun _ => rfl⟩

theorem block_lt_128x64 (h : Nat × Nat) (bs : List Byte) (r : Nat × Nat)
    (_hh : h.1 < 2 ^ 64 ∧ h.2 < 2 ^ 64) (e : block h bs = some r) :
    r.1 < 2 ^ 64 ∧ r.2 < 2 ^ 64 := by
  rcases block_form_128x64 bs with hn | ⟨t1, t2, _, _, hf⟩
  · rw [hn] at e; simp at e
  · rw [hf, Option.some.injEq] at e
    rw [← e]
    exact ⟨Nat.mod_lt _ (by decide), Nat.mod_lt _ (by decide)⟩

theorem mixLanes_inj {h g : Nat × Nat} {t1 t2 : Nat} (ht1 : t1 < 2 ^ 64) (ht2 : t2 < 2 ^ 64)
    (hh : h.1 < 2 ^ 64 ∧ h.2 < 2 ^ 64) (hg : g.1 < 2 ^ 64 ∧ g.2 < 2 ^ 64)
    (e : mixLanes h t1 t2 = mixLanes g t1 t2) : h = g := by
  simp only [mixLanes, Prod.mk.injEq] at e
  obtain ⟨e1, e2⟩ := e
  rw [← e1] at e2
  have a1 := affine_inj (D := 0xcccccccccccccccd) (by decide) (Nat.mod_lt _ (by decide))
    (Nat.mod_lt _ (by decide)) e2
  have a2 := add_inj_mod (RotateLeft64_lt _ _) (RotateLeft64_lt _ _) a1
  have a3 := RotateLeft64_inj (by decide) (by decide) (Nat.xor_lt_two_pow hh.2 ht2)
    (Nat.xor_lt_two_pow hg.2 ht2) a2
  have a4 : h.2 = g.2 := Nat.xor_left_inj.mp a3
  rw [a4] at e1
  have b1 := affine_inj (D := 0xcccccccccccccccd) (by decide) (Nat.mod_lt _ (by decide))
    (Nat.mod_lt _ (by decide)) e1
  have b2 := add_inj_mod (RotateLeft64_lt _ _) (RotateLeft64_lt _ _) b1
  have b3 := RotateLeft64_inj (by decide) (by decide) (Nat.xor_lt_two_pow hh.1 ht1)
    (Nat.xor_lt_two_pow hg.1 ht1) b2
  have b4 : h.1 = g.1 := Nat.xor_left_inj.mp b3
  exact Prod.ext b4 a4

theorem block_inj_128x64 (h g : Nat × Nat) (bs : List Byte) (r : Nat × Nat)
    (hh : h.1 < 2 ^ 64 ∧ h.2 < 2 ^ 64) (hg : g.1 < 2 ^ 64 ∧ g.2 < 2 ^ 64)
    (e1 : block h bs = some r) (e2 : block g bs = some r) : h = g := by
  rcases block_form_128x64 bs with hn | ⟨t1, t2, ht1, ht2, hf⟩
  · rw [hn] at e1; simp at e1
  · rw [hf, Option.some.injEq] at e1 e2
    exact mixLanes_inj ht1 ht2 hh hg (e1.trans e2.symm)

theorem PutUint64_length (v : Nat) : (PutUint64 v).length = 8 := by
  simp only [PutUint64, List.length_cons, List.length_nil]

theorem finish_inj {a b c d w : Nat} (ha : a < 2 ^ 64) (hb : b < 2 ^ 64) (hc : c < 2 ^ 64)
    (hd : d < 2 ^ 64) (e : finish a b w = finish c d w) : a = c ∧ b = d := by
  simp only [finish] at e
  have hw : w % 2 ^ 64 < 2 ^ 64 := Nat.mod_lt _ (by decide)
  obtain ⟨e1, e2⟩ := List.append_inj e (by rw [PutUint64_length, PutUint64_length])
  have g1 := PutUint64_inj (Nat.mod_lt _ (by decide)) (Nat.mod_lt _ (by decide)) e1
  have g2 := PutUint64_inj (Nat.mod_lt _ (by decide)) (Nat.mod_lt _ (by decide)) e2
  rw [← g1] at g2
  have f2 := add_inj_mod (finalMix64_lt _) (finalMix64_lt _) g2
  rw [← f2] at g1
  have f1 := add_inj_mod (finalMix64_lt _) (finalMix64_lt _) g1
  have c1 := finalMix64_inj (Nat.mod_lt _ (by decide)) (Nat.mod_lt _ (by decide)) f1
  have c2 := finalMix64_inj (Nat.mod_lt _ (by decide)) (Nat.mod_lt _ (by decide)) f2
  rw [← c1] at c2
  have d2 := add_inj_mod (Nat.xor_lt_two_pow hb hw) (Nat.xor_lt_two_pow hd hw) c2
  rw [← d2] at c1
  have d1 := add_inj_mod (Nat.xor_lt_two_pow ha hw) (Nat.xor_lt_two_pow hc hw) c1
  exact ⟨Nat.xor_left_inj.mp d1, Nat.xor_left_inj.mp d2⟩

theorem paddedFold_form_128x64 (T : List Byte) (hT : T.length ≤ 15) :
    ∃ K1 K2, K1 < 2 ^ 64 ∧ K2 < 2 ^ 64 ∧
      ∀ h1 h2, paddedFold T h1 h2 = some (h1 ^^^ K1, h2 ^^^ K2) := by
  have hu : ∃ k1 k2, Uint64 (zeroPad 16 T) = some k1 ∧
      Uint64 ((zeroPad 16 T).drop 8) = some k2 := by
    rcases T with _ | ⟨b0, _ | ⟨b1, _ | ⟨b2, _ | ⟨b3, _ | ⟨b4, _ | ⟨b5, _ | ⟨b6, _ | ⟨b7,
      _ | ⟨b8, _ | ⟨b9, _ | ⟨b10, _ | ⟨b11, _ | ⟨b12, _ | ⟨b13, _ | ⟨b14, _ | ⟨b15, t⟩
      ⟩⟩⟩⟩⟩⟩⟩⟩⟩⟩⟩⟩⟩⟩⟩ <;>
    first
    | (simp at hT; done)
    | exact ⟨_, _, rfl, rfl⟩
  obtain ⟨k1, k2, e1, e2⟩ := hu
  exact ⟨RotateLeft64 (k1 * 0x87c37b91114253d5 % 2 ^ 64) 31 * 0x4cf5ad432745937f % 2 ^ 64,
    RotateLeft64 (k2 * 0x4cf5ad432745937f % 2 ^ 64) 33 * 0x87c37b91114253d5 % 2 ^ 64,
    Nat.mod_lt _ (by decide), Nat.mod_lt _ (by decide),
    fun h1 h2 => by simp only [paddedFold, e1, e2]⟩

theorem holding_lanes_lt_128x64 {seed : Nat} {S : List Byte} {m : murmur128x64v3}
    (hs : seed < 2 ^ 64) (hm : Holding seed S m) : m.hash1 < 2 ^ 64 ∧ m.hash2 < 2 ^ 64 :=
  absorb_pres (P := fun h => h.1 < 2 ^ 64 ∧ h.2 < 2 ^ 64) block_lt_128x64 _ _ _ _
    ⟨hs, hs⟩ hm.1.hash_eq

theorem holding_seed_inj_128x64 {s1 s2 : Nat} {S : List Byte} {m1 m2 : murmur128x64v3}
    (h1 : s1 < 2 ^ 64) (h2 : s2 < 2 ^ 64) (hm1 : Holding s1 S m1) (hm2 : Holding s2 S m2)
    (e : m1.lanes = m2.lanes) : s1 = s2 := by
  have e1 : absorb 16 block (S.length / 16) (s1, s1) S = some m1.lanes := hm1.1.hash_eq
  have e2 : absorb 16 block (S.length / 16) (s2, s2) S = some m1.lanes := by
    rw [e]; exact hm2.1.hash_eq
  have := absorb_inj (P := fun h => h.1 < 2 ^ 64 ∧ h.2 < 2 ^ 64) block_lt_128x64
    block_inj_128x64 _ _ _ _ _ ⟨h1, h1⟩ ⟨h2, h2⟩ e1 e2
  exact congrArg Prod.fst this

theorem sumNil_form_128x64 (S : List Byte) :
    ∃ K1 K2, K1 < 2 ^ 64 ∧ K2 < 2 ^ 64 ∧
      ∀ (seed : Nat) (m : murmur128x64v3), Holding seed S m →
        sumNil (some m) = some (finish (m.hash1 ^^^ K1) (m.hash2 ^^^ K2) S.length) := by
  have hl : (S.drop (S.length / 16 * 16)).length = S.length % 16 := by
    rw [List.length_drop]; omega
  obtain ⟨K1, K2, hK1, hK2, hf⟩ :=
    paddedFold_form_128x64 (S.drop (S.length / 16 * 16)) (by omega)
  refine ⟨K1, K2, hK1, hK2, fun seed m hm => ?_⟩
  have ht := holding_tail_128x64 hm
  have hw : m.written = S.length := hm.2.1
  have hp := tailSwitch_padded_128x64 (S.drop (S.length / 16 * 16)) (by omega)
    m.hash1 m.hash2
  simp only [sumNil, Sum, checksum, ht, hw, ← hl, hp, hf, List.nil_append, finish]

end murmur128x64v3

/-! ## Proofs: `Write` returns in every state of the data model -/

theorem holds_self {H : Type} {B : Nat} {step : H → List Byte → Option H}
    (g : GState H) (hb : g.buffer.length = B) (ho : g.offset < B) :
    Holds B step g.h (g.buffer.take g.offset) g := by
  have hl : (g.buffer.take g.offset).length = g.offset := by
    rw [List.length_take]; omega
  have hd : (g.buffer.take g.offset).length / B = 0 := by
    rw [hl]; exact Nat.div_eq_of_lt ho
  refine ⟨hb, ?_, ?_, ?_⟩
  · rw [hl, Nat.mod_eq_of_lt ho]
  · rw [hd, Nat.zero_mul, List.drop_zero]
  · rw [hd]; rfl

namespace murmur128x64v3

theorem holding_wf_128x64 {seed : Nat} {S : List Byte} {m : murmur128x64v3} (hm : Holding seed S m) :
    m.buffer.length = 16 ∧ m.offset < 16 ∧ m.offset = m.written % 16 := by
  obtain ⟨hh, hw, _⟩ := hm
  have h1 : m.offset = S.length % 16 := hh.offset_eq
  have h2 : m.buffer.length = 16 := hh.buf_len
  refine ⟨h2, ?_, ?_⟩
  · omega
  · rw [hw]; exact h1

theorem Write_ok_128x64 (m : murmur128x64v3) (bs : List Byte) (hb : m.buffer.length = 16)
    (ho : m.offset < 16) : ∃ m', m.Write bs = some (m', bs.length) := by
  obtain ⟨g, e, _, _⟩ :=
    gWrite_holds block_fn_128x64 (holds_self m.toG hb ho) bs
  exact ⟨m.ofG g, by rw [Write_eq_128x64, e]⟩

theorem Write_nil_128x64 (m : murmur128x64v3) (hb : m.buffer.length = 16) (ho : m.offset < 16) :
    m.Write [] = some (m, 0) := by
  have hle : m.offset ≤ m.buffer.length := by omega
  by_cases h0 : m.offset > 0
  · simp [Write, copyAt, h0, hle, ho, sizeBlock128]
  · simp [Write, writeBlocks, blockLoop, h0, sizeBlock128]

theorem Sum_append_128x64 (m : murmur128x64v3) (b : List Byte) {m' : murmur128x64v3} {d : List Byte}
    (h : m.Sum [] = some (m', d)) : m.Sum b = some (m, b ++ d) := by
  simp only [Sum] at h
  simp only [Sum]
  cases hc : m.checksum with
  | none => simp [hc] at h
  | some r =>
    simp only [hc, List.nil_append, Option.some.injEq, Prod.mk.injEq] at h
    rw [← h.2]

end murmur128x64v3

namespace murmur128x86v3

theorem holding_wf_128x86 {seed : Nat} {S : List Byte} {m : murmur128x86v3} (hm : Holding seed S m) :
    m.buffer.length = 16 ∧ m.offset < 16 ∧ m.offset = m.written % 16 := by
  obtain ⟨hh, hw, _⟩ := hm
  have h1 : m.offset = S.length % 16 := hh.offset_eq
  have h2 : m.buffer.length = 16 := hh.buf_len
  refine ⟨h2, ?_, ?_⟩
  · omega
  · rw [hw]; exact h1

theorem Write_ok_128x86 (m : murmur128x86v3) (bs : List Byte) (hb : m.buffer.length = 16)
    (ho : m.offset < 16) : ∃ m', m.Write bs = some (m', bs.length) := by
  obtain ⟨g, e, _, _⟩ :=
    gWrite_holds block_fn_128x86 (holds_self m.toG hb ho) bs
  exact ⟨m.ofG g, by rw [Write_eq_128x86, e]⟩

theorem Write_nil_128x86 (m : murmur128x86v3) (hb : m.buffer.length = 16) (ho : m.offset < 16) :
    m.Write [] = some (m, 0) := by
  have hle : m.offset ≤ m.buffer.length := by omega
  by_cases h0 : m.offset > 0
  · simp [Write, copyAt, h0, hle, ho, sizeBlock128]
  · simp [Write, writeBlocks, blockLoop, h0, sizeBlock128]

theorem Sum_append_128x86 (m : murmur128x86v3) (b : List Byte) {m' : murmur128x86v3} {d : List Byte}
    (h : m.Sum [] = some (m', d)) : m.Sum b = some (m, b ++ d) := by
  simp only [Sum] at h
  simp only [Sum]
  cases hc : m.checksum with
  | none => simp [hc] at h
  | some r =>
    simp only [hc, List.nil_append, Option.some.injEq, Prod.mk.injEq] at h
    rw [← h.2]

end murmur128x86v3

namespace murmur32x86v3

theorem holding_wf_32x86 {seed : Nat} {S : List Byte} {m : murmur32x86v3} (hm : Holding seed S m) :
    m.buffer.length = 4 ∧ m.offset < 4 ∧ m.offset = m.written % 4 := by
  obtain ⟨hh, hw, _⟩ := hm
  have h1 : m.offset = S.length % 4 := hh.offset_eq
  have h2 : m.buffer.length = 4 := hh.buf_len
  refine ⟨h2, ?_, ?_⟩
  · omega
  · rw [hw]; exact h1

theorem Write_ok_32x86 (m : murmur32x86v3) (bs : List Byte) (hb : m.buffer.length = 4)
    (ho : m.offset < 4) : ∃ m', m.Write bs = some (m', bs.length) := by
  obtain ⟨g, e, _, _⟩ :=
    gWrite_holds block_fn_32x86 (holds_self m.toG hb ho) bs
  exact ⟨m.ofG g, by rw [Write_eq_32x86, e]⟩

theorem Write_nil_32x86 (m : murmur32x86v3) (hb : m.buffer.length = 4) (ho : m.offset < 4) :
    m.Write [] = some (m, 0) := by
  have hle : m.offset ≤ m.buffer.length := by omega
  by_cases h0 : m.offset > 0
  · simp [Write, copyAt, h0, hle, ho, sizeBlock32]
  · simp [Write, writeBlocks, blockLoop, h0, sizeBlock32]

theorem Sum_append_32x86 (m : murmur32x86v3) (b : List Byte) {m' : murmur32x86v3} {d : List Byte}
    (h : m.Sum [] = some (m', d)) : m.Sum b = some (m, b ++ d) := by
  simp only [Sum] at h
  simp only [Sum]
  cases hc : m.checksum with
  | none => simp [hc] at h
  | some r =>
    simp only [hc, List.nil_append, Option.some.injEq, Prod.mk.injEq] at h
    rw [← h.2]

end murmur32x86v3

/-! ## Proofs: further facts about reachable states -/

theorem murmur128x86v3.run_track_128x86 {seed : Nat} :
    ∀ (cs : List Call) {S : List Byte} {m : murmur128x86v3},
      murmur128x86v3.Holding seed S m →
        ∃ m', m.run cs = some m' ∧ murmur128x86v3.Holding seed (writtenSince S cs) m'
  | [], S, m, hm => ⟨m, rfl, hm⟩
  | Call.write bs :: cs, S, m, hm => by
    obtain ⟨m1, e1, h1⟩ := murmur128x86v3.Write_holding_128x86 hm bs
    obtain ⟨m2, e2, h2⟩ := murmur128x86v3.run_track_128x86 cs h1
    exact ⟨m2, by simp only [murmur128x86v3.run, murmur128x86v3.call, e1, e2], h2⟩
  | Call.sum b :: cs, S, m, hm => by
    obtain ⟨d, _, e, _⟩ := murmur128x86v3.Sum_holding_128x86 hm hm b
    obtain ⟨m2, e2, h2⟩ := murmur128x86v3.run_track_128x86 cs hm
    exact ⟨m2, by simp only [murmur128x86v3.run, murmur128x86v3.call, e, e2], h2⟩
  | Call.reset :: cs, S, m, hm => by
    obtain ⟨m2, e2, h2⟩ :=
      murmur128x86v3.run_track_128x86 cs (murmur128x86v3.Reset_holding_128x86 hm)
    exact ⟨m2, by simp only [murmur128x86v3.run, murmur128x86v3.call, e2], h2⟩

theorem murmur128x86v3.paddedFold_untouched_128x86 (tail : List Byte) (h : tail.length ≤ 15)
    (h1 h2 h3 h4 : Nat) :
    ∃ r, murmur128x86v3.paddedFold tail h1 h2 h3 h4 = some r ∧
      (0 < tail.length ∨ r.1 = h1) ∧ (4 < tail.length ∨ r.2.1 = h2) ∧
      (8 < tail.length ∨ r.2.2.1 = h3) ∧ (12 < tail.length ∨ r.2.2.2 = h4) := by
  rcases tail with _ | ⟨b0, _ | ⟨b1, _ | ⟨b2, _ | ⟨b3, _ | ⟨b4, _ | ⟨b5, _ | ⟨b6, _ | ⟨b7,
    _ | ⟨b8, _ | ⟨b9, _ | ⟨b10, _ | ⟨b11, _ | ⟨b12, _ | ⟨b13, _ | ⟨b14, _ | ⟨b15, t⟩
    ⟩⟩⟩⟩⟩⟩⟩⟩⟩⟩⟩⟩⟩⟩⟩ <;>
  first
  | (simp at h; done)
  | simp [murmur128x86v3.paddedFold, zeroPad, Uint32, RotateLeft32_zero]

theorem murmur128x64v3.paddedFold_untouched_128x64 (tail : List Byte) (h : tail.length ≤ 15)
    (h1 h2 : Nat) :
    ∃ r, murmur128x64v3.paddedFold tail h1 h2 = some r ∧
      (0 < tail.length ∨ r.1 = h1) ∧ (8 < tail.length ∨ r.2 = h2) := by
  rcases tail with _ | ⟨b0, _ | ⟨b1, _ | ⟨b2, _ | ⟨b3, _ | ⟨b4, _ | ⟨b5, _ | ⟨b6, _ | ⟨b7,
    _ | ⟨b8, _ | ⟨b9, _ | ⟨b10, _ | ⟨b11, _ | ⟨b12, _ | ⟨b13, _ | ⟨b14, _ | ⟨b15, t⟩
    ⟩⟩⟩⟩⟩⟩⟩⟩⟩⟩⟩⟩⟩⟩⟩ <;>
  first
  | (simp at h; done)
  | simp [murmur128x64v3.paddedFold, zeroPad, Uint64, RotateLeft64_zero]

theorem index_isSome (tail : List Byte) (i : Nat) :
    (index tail i).isSome = decide (i < tail.length) := by
  simp only [index]
  by_cases h : i < tail.length
  · rw [List.get?_eq_get h]; simp [h]
  · rw [List.get?_eq_none.mpr (by omega)]; simp [h]

theorem murmur128x64v3.calculateBlock_isSome_128x64 (m : murmur128x64v3) (bs : List Byte) :
    (m.calculateBlock bs).isSome = decide (16 ≤ bs.length) := by
  rcases bs with _ | ⟨b0, _ | ⟨b1, _ | ⟨b2, _ | ⟨b3, _ | ⟨b4, _ | ⟨b5, _ | ⟨b6, _ | ⟨b7,
    _ | ⟨b8, _ | ⟨b9, _ | ⟨b10, _ | ⟨b11, _ | ⟨b12, _ | ⟨b13, _ | ⟨b14, _ | ⟨b15, t⟩
    ⟩⟩⟩⟩⟩⟩⟩⟩⟩⟩⟩⟩⟩⟩⟩ <;>
  simp [murmur128x64v3.calculateBlock, sliceFrom, Uint64]

theorem zeroPad_snoc_zero {n : Nat} {T : List Byte} (h : T.length < n) :
    zeroPad n (T ++ [0]) = zeroPad n T := by
  simp only [zeroPad, List.length_append, List.length_singleton, List.append_assoc,
    List.singleton_append]
  have e : n - T.length = (n - (T.length + 1)) + 1 := by omega
  rw [e, List.replicate_succ]

/-- Every state reached from a fresh engine by `Write`, `Sum` and `Reset` calls is a state of
the data model: the buffer has block size and `offset` is below it. -/
theorem reachable_in_data_model (seed : Nat) (calls : List Call) :
    (∃ m : murmur128x64v3, (Murmur128x64v3 seed).run calls = some m ∧
      m.buffer.length = 16 ∧ m.offset < 16) ∧
    (∃ m : murmur128x86v3, (Murmur128x86v3 seed).run calls = some m ∧
      m.buffer.length = 16 ∧ m.offset < 16) ∧
    (∃ m : murmur32x86v3, (Murmur32x86v3 seed).run calls = some m ∧
      m.buffer.length = 4 ∧ m.offset < 4) := by
  refine ⟨?_, ?_, ?_⟩
  · obtain ⟨m, S, e, hm⟩ :=
      murmur128x64v3.run_holding_128x64 calls (murmur128x64v3.New_holding_128x64 seed)
    obtain ⟨h1, h2, -⟩ := murmur128x64v3.holding_wf_128x64 hm
    exact ⟨m, e, h1, h2⟩
  · obtain ⟨m, S, e, hm⟩ :=
      murmur128x86v3.run_holding_128x86 calls (murmur128x86v3.New_holding_128x86 seed)
    obtain ⟨h1, h2, -⟩ := murmur128x86v3.holding_wf_128x86 hm
    exact ⟨m, e, h1, h2⟩
  · obtain ⟨m, S, e, hm⟩ :=
      murmur32x86v3.run_holding_32x86 calls (murmur32x86v3.New_holding_32x86 seed)
    obtain ⟨h1, h2, -⟩ := murmur32x86v3.holding_wf_32x86 hm
    exact ⟨m, e, h1, h2⟩

/-! ## The claims, continued -/

/-- C11. Seed sensitivity of `Murmur32x86v3`: for every byte sequence `S` and every two
different seeds `s1`, `s2` (as `uint32` values, below 2^32), `Write(S); Sum(nil)` on engines
built with `s1` and with `s2` both return, and the two 4-byte digests are different. -/
theorem seed_sensitivity_32x86 (S : List Byte) (s1 s2 : Nat) (h1 : s1 < 2 ^ 32)
    (h2 : s2 < 2 ^ 32) (hne : s1 ≠ s2) :
    ∃ d1 d2 : List Byte,
      murmur32x86v3.sumNil ((Murmur32x86v3 s1).run [Call.write S]) = some d1 ∧
      murmur32x86v3.sumNil ((Murmur32x86v3 s2).run [Call.write S]) = some d2 ∧ d1 ≠ d2 := by
  obtain ⟨m1, e1, hm1⟩ := murmur32x86v3.Write_holding_32x86 (murmur32x86v3.New_holding_32x86 s1) S
  obtain ⟨m2, e2, hm2⟩ := murmur32x86v3.Write_holding_32x86 (murmur32x86v3.New_holding_32x86 s2) S
  rw [List.nil_append] at hm1 hm2
  obtain ⟨K, hK, hf⟩ := murmur32x86v3.sumNil_form_32x86 S
  have hw : S.length % 2 ^ 32 < 2 ^ 32 := Nat.mod_lt _ (by decide)
  have b1 := murmur32x86v3.holding_digest_lt_32x86 h1 hm1
  have b2 := murmur32x86v3.holding_digest_lt_32x86 h2 hm2
  refine ⟨PutUint32 (finalMix32 (m1.digest ^^^ K ^^^ S.length % 2 ^ 32)),
    PutUint32 (finalMix32 (m2.digest ^^^ K ^^^ S.length % 2 ^ 32)), ?_, ?_, ?_⟩
  · simp only [murmur32x86v3.run, murmur32x86v3.call, e1]
    exact hf s1 m1 hm1
  · simp only [murmur32x86v3.run, murmur32x86v3.call, e2]
    exact hf s2 m2 hm2
  · intro e
    have c1 := PutUint32_inj (finalMix32_lt _) (finalMix32_lt _) e
    have c2 := finalMix32_inj (Nat.xor_lt_two_pow (Nat.xor_lt_two_pow b1 hK) hw)
      (Nat.xor_lt_two_pow (Nat.xor_lt_two_pow b2 hK) hw) c1
    have c3 : m1.digest = m2.digest := Nat.xor_left_inj.mp (Nat.xor_left_inj.mp c2)
    exact hne (murmur32x86v3.holding_seed_inj_32x86 h1 h2 hm1 hm2 c3)

/-- Witness of C11 at the seeds 0 and 1 and the 43 bytes of `fox`. -/
theorem seed_sensitivity_32x86_witness :
    (0 < 2 ^ 32 ∧ 1 < 2 ^ 32 ∧ 0 ≠ 1) ∧
    ∃ d1 d2 : List Byte,
      murmur32x86v3.sumNil ((Murmur32x86v3 0).run [Call.write fox]) = some d1 ∧
      murmur32x86v3.sumNil ((Murmur32x86v3 1).run [Call.write fox]) = some d2 ∧ d1 ≠ d2 :=
  ⟨⟨by decide, by decide, by decide⟩,
    seed_sensitivity_32x86 fox 0 1 (by decide) (by decide) (by decide)⟩

/-- C12. Seed sensitivity of `Murmur128x64v3`: for every byte sequence `S` and every two
different seeds `s1`, `s2` (as `uint64` values, below 2^64), `Write(S); Sum(nil)` on engines
built with `s1` and with `s2` both return, and the two 16-byte digests are different. -/
theorem seed_sensitivity_128x64 (S : List Byte) (s1 s2 : Nat) (h1 : s1 < 2 ^ 64)
    (h2 : s2 < 2 ^ 64) (hne : s1 ≠ s2) :
    ∃ d1 d2 : List Byte,
      murmur128x64v3.sumNil ((Murmur128x64v3 s1).run [Call.write S]) = some d1 ∧
      murmur128x64v3.sumNil ((Murmur128x64v3 s2).run [Call.write S]) = some d2 ∧ d1 ≠ d2 := by
  obtain ⟨m1, e1, hm1⟩ :=
    murmur128x64v3.Write_holding_128x64 (murmur128x64v3.New_holding_128x64 s1) S
  obtain ⟨m2, e2, hm2⟩ :=
    murmur128x64v3.Write_holding_128x64 (murmur128x64v3.New_holding_128x64 s2) S
  rw [List.nil_append] at hm1 hm2
  obtain ⟨K1, K2, hK1, hK2, hf⟩ := murmur128x64v3.sumNil_form_128x64 S
  have b1 := murmur128x64v3.holding_lanes_lt_128x64 h1 hm1
  have b2 := murmur128x64v3.holding_lanes_lt_128x64 h2 hm2
  refine ⟨murmur128x64v3.finish (m1.hash1 ^^^ K1) (m1.hash2 ^^^ K2) S.length,
    murmur128x64v3.finish (m2.hash1 ^^^ K1) (m2.hash2 ^^^ K2) S.length, ?_, ?_, ?_⟩
  · simp only [murmur128x64v3.run, murmur128x64v3.call, e1]
    exact hf s1 m1 hm1
  · simp only [murmur128x64v3.run, murmur128x64v3.call, e2]
    exact hf s2 m2 hm2
  · intro e
    obtain ⟨c1, c2⟩ := murmur128x64v3.finish_inj (Nat.xor_lt_two_pow b1.1 hK1)
      (Nat.xor_lt_two_pow b1.2 hK2) (Nat.xor_lt_two_pow b2.1 hK1)
      (Nat.xor_lt_two_pow b2.2 hK2) e
    have c3 : m1.lanes = m2.lanes :=
      Prod.ext (Nat.xor_left_inj.mp c1) (Nat.xor_left_inj.mp c2)
    exact hne (murmur128x64v3.holding_seed_inj_128x64 h1 h2 hm1 hm2 c3)

/-- Witness of C12 at the seeds 0 and 1 and the 43 bytes of `fox`. -/
theorem seed_sensitivity_128x64_witness :
    (0 < 2 ^ 64 ∧ 1 < 2 ^ 64 ∧ 0 ≠ 1) ∧
    ∃ d1 d2 : List Byte,
      murmur128x64v3.sumNil ((Murmur128x64v3 0).run [Call.write fox]) = some d1 ∧
      murmur128x64v3.sumNil ((Murmur128x64v3 1).run [Call.write fox]) = some d2 ∧ d1 ≠ d2 :=
  ⟨⟨by decide, by decide, by decide⟩,
    seed_sensitivity_128x64 fox 0 1 (by decide) (by decide) (by decide)⟩

/-- C13. `Write` never fails: for each of the three engines, in every engine state of the
data model (a buffer of block size, `0 ≤ offset < block size`; every reachable state is
one) and for every byte slice `bs`, `Write(bs)` returns `n = len(bs)`, and `Write` of the
empty slice leaves every field of the engine unchanged. -/
theorem write_never_fails (m1 : murmur128x64v3) (m2 : murmur128x86v3) (m3 : murmur32x86v3)
    (bs : List Byte)
    (h1 : m1.buffer.length = 16 ∧ m1.offset < 16)
    (h2 : m2.buffer.length = 16 ∧ m2.offset < 16)
    (h3 : m3.buffer.length = 4 ∧ m3.offset < 4) :
    ((∃ m, m1.Write bs = some (m, bs.length)) ∧ m1.Write [] = some (m1, 0)) ∧
    ((∃ m, m2.Write bs = some (m, bs.length)) ∧ m2.Write [] = some (m2, 0)) ∧
    ((∃ m, m3.Write bs = some (m, bs.length)) ∧ m3.Write [] = some (m3, 0)) :=
  ⟨⟨murmur128x64v3.Write_ok_128x64 m1 bs h1.1 h1.2,
      murmur128x64v3.Write_nil_128x64 m1 h1.1 h1.2⟩,
    ⟨murmur128x86v3.Write_ok_128x86 m2 bs h2.1 h2.2,
      murmur128x86v3.Write_nil_128x86 m2 h2.1 h2.2⟩,
    ⟨murmur32x86v3.Write_ok_32x86 m3 bs h3.1 h3.2,
      murmur32x86v3.Write_nil_32x86 m3 h3.1 h3.2⟩⟩

/-- Witness of C13 at the three fresh engines with seed 0 and the 43 bytes of `fox`. -/
theorem write_never_fails_witness :
    (((Murmur128x64v3 0).buffer.length = 16 ∧ (Murmur128x64v3 0).offset < 16) ∧
      ((Murmur128x86v3 0).buffer.length = 16 ∧ (Murmur128x86v3 0).offset < 16) ∧
      ((Murmur32x86v3 0).buffer.length = 4 ∧ (Murmur32x86v3 0).offset < 4)) ∧
    ((∃ m, (Murmur128x64v3 0).Write fox = some (m, fox.length)) ∧
      (Murmur128x64v3 0).Write [] = some (Murmur128x64v3 0, 0)) ∧
    ((∃ m, (Murmur128x86v3 0).Write fox = some (m, fox.length)) ∧
      (Murmur128x86v3 0).Write [] = some (Murmur128x86v3 0, 0)) ∧
    ((∃ m, (Murmur32x86v3 0).Write fox = some (m, fox.length)) ∧
      (Murmur32x86v3 0).Write [] = some (Murmur32x86v3 0, 0)) :=
  ⟨⟨⟨rfl, by decide⟩, ⟨rfl, by decide⟩, ⟨rfl, by decide⟩⟩,
    write_never_fails (Murmur128x64v3 0) (Murmur128x86v3 0) (Murmur32x86v3 0) fox
      ⟨rfl, by decide⟩ ⟨rfl, by decide⟩ ⟨rfl, by decide⟩⟩

/-- C14. Buffer invariant of `Murmur128x86v3`: every sequence of `Write`, `Sum` and `Reset`
calls on a fresh engine succeeds and reaches a state with `0 ≤ offset < 16` and
`offset = written mod 16`, where `written` is the number of bytes passed to `Write` since
construction or the last `Reset`. -/
theorem buffer_invariant_128x86 (seed : Nat) (calls : List Call) :
    ∃ m : murmur128x86v3, (Murmur128x86v3 seed).run calls = some m ∧
      m.offset < 16 ∧ m.offset = m.written % 16 ∧
      m.written = (writtenSince [] calls).length := by
  obtain ⟨m, e, hm⟩ :=
    murmur128x86v3.run_track_128x86 calls (murmur128x86v3.New_holding_128x86 seed)
  obtain ⟨_, h2, h3⟩ := murmur128x86v3.holding_wf_128x86 hm
  exact ⟨m, e, h2, h3, hm.2.1⟩

/-- C15. Digest length and the append contract of `Sum`: for each engine, in every state
reached from a fresh engine by `Write`, `Sum` and `Reset` calls and for every slice `b`,
`Sum(b)` returns `b` followed by the bytes `Sum(nil)` returns, which are `Size()` many;
`Size()` and `BlockSize()` are 16 for the two 128-bit engines and 4 for the 32-bit engine. -/
theorem sum_appends_size_bytes (seed : Nat) (calls : List Call) (b : List Byte) :
    (∃ (m : murmur128x64v3) (d : List Byte), (Murmur128x64v3 seed).run calls = some m ∧
      m.Sum [] = some (m, d) ∧ m.Sum b = some (m, b ++ d) ∧ d.length = m.Size ∧
      m.Size = 16 ∧ m.BlockSize = 16) ∧
    (∃ (m : murmur128x86v3) (d : List Byte), (Murmur128x86v3 seed).run calls = some m ∧
      m.Sum [] = some (m, d) ∧ m.Sum b = some (m, b ++ d) ∧ d.length = m.Size ∧
      m.Size = 16 ∧ m.BlockSize = 16) ∧
    (∃ (m : murmur32x86v3) (d : List Byte), (Murmur32x86v3 seed).run calls = some m ∧
      m.Sum [] = some (m, d) ∧ m.Sum b = some (m, b ++ d) ∧ d.length = m.Size ∧
      m.Size = 4 ∧ m.BlockSize = 4) := by
  refine ⟨?_, ?_, ?_⟩
  · obtain ⟨m, S, e, hm⟩ :=
      murmur128x64v3.run_holding_128x64 calls (murmur128x64v3.New_holding_128x64 seed)
    obtain ⟨d, hd, s0, -⟩ := murmur128x64v3.Sum_holding_128x64 hm hm []
    rw [List.nil_append] at s0
    exact ⟨m, d, e, s0, murmur128x64v3.Sum_append_128x64 m b s0, hd, rfl, rfl⟩
  · obtain ⟨m, S, e, hm⟩ :=
      murmur128x86v3.run_holding_128x86 calls (murmur128x86v3.New_holding_128x86 seed)
    obtain ⟨d, hd, s0, -⟩ := murmur128x86v3.Sum_holding_128x86 hm hm []
    rw [List.nil_append] at s0
    exact ⟨m, d, e, s0, murmur128x86v3.Sum_append_128x86 m b s0, hd, rfl, rfl⟩
  · obtain ⟨m, S, e, hm⟩ :=
      murmur32x86v3.run_holding_32x86 calls (murmur32x86v3.New_holding_32x86 seed)
    obtain ⟨d, hd, s0, -⟩ := murmur32x86v3.Sum_holding_32x86 hm hm []
    rw [List.nil_append] at s0
    exact ⟨m, d, e, s0, murmur32x86v3.Sum_append_32x86 m b s0, hd, rfl, rfl⟩

/-- C16. The tail fold of `Murmur128x86v3` is the zero-padded fold: in every state reached
from a fresh engine by `Write`, `Sum` and `Reset` calls, with `t = offset` buffered tail bytes
(`t ≤ 15`, `t = written & 15`), the `switch` of `checksum` returns and leaves the lanes that
`paddedFold` computes: the tail zero-padded to 16 bytes and read as four little-endian 32-bit
words, each lane XORed with the degraded mix of its word; a lane none of whose bytes are
present is left unchanged. -/
theorem tail_fold_is_zero_padded_128x86 (seed : Nat) (calls : List Call) :
    ∃ (m : murmur128x86v3) (tail : List Byte) (r : Nat × Nat × Nat × Nat),
      (Murmur128x86v3 seed).run calls = some m ∧
      sliceTo m.buffer m.offset = some tail ∧ tail.length = m.offset ∧ m.offset ≤ 15 ∧
      m.written % 16 = m.offset ∧
      m.tailStep = some r ∧
      murmur128x86v3.paddedFold tail m.hash1 m.hash2 m.hash3 m.hash4 = some r ∧
      (0 < m.offset ∨ r.1 = m.hash1) ∧ (4 < m.offset ∨ r.2.1 = m.hash2) ∧
      (8 < m.offset ∨ r.2.2.1 = m.hash3) ∧ (12 < m.offset ∨ r.2.2.2 = m.hash4) := by
  obtain ⟨m, S, e, hm⟩ :=
    murmur128x86v3.run_holding_128x86 calls (murmur128x86v3.New_holding_128x86 seed)
  obtain ⟨hb, ho, hw⟩ := murmur128x86v3.holding_wf_128x86 hm
  have hs : sliceTo m.buffer m.offset = some (m.buffer.take m.offset) :=
    sliceTo_of_le (by omega)
  have hl : (m.buffer.take m.offset).length = m.offset := by
    rw [List.length_take]; omega
  obtain ⟨r, hr, u1, u2, u3, u4⟩ := murmur128x86v3.paddedFold_untouched_128x86
    (m.buffer.take m.offset) (by omega) m.hash1 m.hash2 m.hash3 m.hash4
  rw [hl] at u1 u2 u3 u4
  refine ⟨m, _, r, e, hs, hl, by omega, hw.symm, ?_, hr, u1, u2, u3, u4⟩
  have hp := murmur128x86v3.tailSwitch_padded_128x86 (m.buffer.take m.offset) (by omega)
    m.hash1 m.hash2 m.hash3 m.hash4
  rw [hl] at hp
  simp only [murmur128x86v3.tailStep, hs, ← hw, hp, hr]

/-- C17, as stated, fails. After `Write` of the single byte 1 on `Murmur128x64v3(0)` the tail
has length 1 and both lanes are 0, yet the tail step of `checksum` changes `hash1`; the
digests after `Write` of the byte 1 and of the byte 2 differ; and after `Write` of the nine
bytes 0,0,0,0,0,0,0,0,1 (tail length 9) the tail step changes `hash2`. -/
theorem tail_lanes_untouched_refuted :
    (((Murmur128x64v3 0).run [Call.write [1]]).map
        (fun m => (m.offset, m.hash1, m.hash2)) = some (1, 0, 0) ∧
      ((Murmur128x64v3 0).run [Call.write [1]]).bind murmur128x64v3.tailStep ≠
        some (0, 0)) ∧
    murmur128x64v3.sumNil ((Murmur128x64v3 0).run [Call.write [1]]) ≠
      murmur128x64v3.sumNil ((Murmur128x64v3 0).run [Call.write [2]]) ∧
    (((Murmur128x64v3 0).run [Call.write [0, 0, 0, 0, 0, 0, 0, 0, 1]]).map
        (fun m => (m.offset, m.hash1, m.hash2)) = some (9, 0, 0) ∧
      (((Murmur128x64v3 0).run [Call.write [0, 0, 0, 0, 0, 0, 0, 0, 1]]).bind
        murmur128x64v3.tailStep).map Prod.snd ≠ some 0) := by
  refine ⟨⟨by decide, by decide⟩, by decide, by decide, by decide⟩

/-- C17, amended. Every lane of `Murmur128x64v3` with at least one byte inside the tail is
folded, its missing bytes counting as zero: in every state reached from a fresh engine by
`Write`, `Sum` and `Reset` calls, with tail length `t = offset ≤ 15`, the tail step of
`checksum` returns and leaves the lanes that `paddedFold` computes (the tail zero-padded to 16
bytes and read as two little-endian 64-bit words, each lane XORed with the degraded mix of its
word); for `t = 0` it leaves `hash1` untouched and for `t` in `0..8` it leaves `hash2`
untouched. -/
theorem tail_fold_is_zero_padded_128x64 (seed : Nat) (calls : List Call) :
    ∃ (m : murmur128x64v3) (tail : List Byte) (r : Nat × Nat),
      (Murmur128x64v3 seed).run calls = some m ∧
      sliceTo m.buffer m.offset = some tail ∧ tail.length = m.offset ∧ m.offset ≤ 15 ∧
      m.written % 16 = m.offset ∧
      m.tailStep = some r ∧
      murmur128x64v3.paddedFold tail m.hash1 m.hash2 = some r ∧
      (0 < m.offset ∨ r.1 = m.hash1) ∧ (8 < m.offset ∨ r.2 = m.hash2) := by
  obtain ⟨m, S, e, hm⟩ :=
    murmur128x64v3.run_holding_128x64 calls (murmur128x64v3.New_holding_128x64 seed)
  obtain ⟨hb, ho, hw⟩ := murmur128x64v3.holding_wf_128x64 hm
  have hs : sliceTo m.buffer m.offset = some (m.buffer.take m.offset) :=
    sliceTo_of_le (by omega)
  have hl : (m.buffer.take m.offset).length = m.offset := by
    rw [List.length_take]; omega
  obtain ⟨r, hr, u1, u2⟩ := murmur128x64v3.paddedFold_untouched_128x64
    (m.buffer.take m.offset) (by omega) m.hash1 m.hash2
  rw [hl] at u1 u2
  refine ⟨m, _, r, e, hs, hl, by omega, hw.symm, ?_, hr, u1, u2⟩
  have hp := murmur128x64v3.tailSwitch_padded_128x64 (m.buffer.take m.offset) (by omega)
    m.hash1 m.hash2
  rw [hl] at hp
  simp only [murmur128x64v3.tailStep, hs, ← hw, hp, hr]

/-- C18. `Sum` and `Write` never index out of range on `Murmur128x64v3`: in every state
reached from a fresh engine by `Write`, `Sum` and `Reset` calls, `written & 15` equals
`offset = len(tail)`, and `Sum(b)` and `Write(bs)` return; a read `tail[i]` returns exactly
when `i < len(tail)` and `calculateBlock` returns exactly when it is given at least 16 bytes,
so every read was in range and every block had 16 bytes. -/
theorem sum_write_in_range_128x64 (seed : Nat) (calls : List Call) (bs b : List Byte) :
    (∃ (m : murmur128x64v3) (tail : List Byte),
      (Murmur128x64v3 seed).run calls = some m ∧
      m.written % 16 = m.offset ∧ sliceTo m.buffer m.offset = some tail ∧
      tail.length = m.offset ∧
      (∃ d, m.Sum b = some (m, b ++ d)) ∧ (∃ m', m.Write bs = some (m', bs.length))) ∧
    (∀ (tail : List Byte) (i : Nat), (index tail i).isSome = decide (i < tail.length)) ∧
    (∀ (m : murmur128x64v3) (block : List Byte),
      (m.calculateBlock block).isSome = decide (16 ≤ block.length)) := by
  refine ⟨?_, index_isSome, murmur128x64v3.calculateBlock_isSome_128x64⟩
  obtain ⟨m, S, e, hm⟩ :=
    murmur128x64v3.run_holding_128x64 calls (murmur128x64v3.New_holding_128x64 seed)
  obtain ⟨hb, ho, hw⟩ := murmur128x64v3.holding_wf_128x64 hm
  obtain ⟨d, -, s, -⟩ := murmur128x64v3.Sum_holding_128x64 hm hm b
  obtain ⟨m', w, -⟩ := murmur128x64v3.Write_holding_128x64 hm bs
  refine ⟨m, m.buffer.take m.offset, e, hw.symm, sliceTo_of_le (by omega), ?_, ⟨d, s⟩,
    ⟨m', w⟩⟩
  rw [List.length_take]; omega

/-- C19. A trailing zero byte is not absorbed by `Murmur32x86v3`: for every seed (a `uint32`
value, below 2^32) and every byte sequence `S` whose length is not 3 modulo 4, `Write(S);
Sum(nil)` and `Write(S ++ [0]); Sum(nil)` on fresh engines with that seed both return, and
the two digests are different. -/
theorem trailing_zero_not_absorbed_32x86 (seed : Nat) (S : List Byte) (hs : seed < 2 ^ 32)
    (hS : S.length % 4 ≠ 3) :
    ∃ d1 d2 : List Byte,
      murmur32x86v3.sumNil ((Murmur32x86v3 seed).run [Call.write S]) = some d1 ∧
      murmur32x86v3.sumNil ((Murmur32x86v3 seed).run [Call.write (S ++ [0])]) = some d2 ∧
      d1 ≠ d2 := by
  obtain ⟨m1, e1, hm1⟩ :=
    murmur32x86v3.Write_holding_32x86 (murmur32x86v3.New_holding_32x86 seed) S
  obtain ⟨m2, e2, hm2⟩ :=
    murmur32x86v3.Write_holding_32x86 (murmur32x86v3.New_holding_32x86 seed) (S ++ [0])
  rw [List.nil_append] at hm1 hm2
  have hq : S.length / 4 * 4 ≤ S.length := Nat.div_mul_le_self _ _
  have hlen : (S ++ [0]).length = S.length + 1 := by simp
  have hdiv : (S ++ [0]).length / 4 = S.length / 4 := by rw [hlen]; omega
  -- the same blocks are mixed
  have hd : m1.digest = m2.digest := by
    have a1 : absorb 4 murmur32x86v3.block (S.length / 4) seed S = some m1.digest :=
      hm1.1.hash_eq
    have a2 : absorb 4 murmur32x86v3.block ((S ++ [0]).length / 4) seed (S ++ [0]) =
        some m2.digest := hm2.1.hash_eq
    rw [hdiv, absorb_append murmur32x86v3.block_fn_32x86 _ _ _ _ hq, a1] at a2
    exact Option.some.inj a2
  -- the tail fold is the same
  have hT : (S.drop (S.length / 4 * 4)).length ≤ 2 := by
    rw [List.length_drop]; omega
  have hdrop : (S ++ [0]).drop ((S ++ [0]).length / 4 * 4) =
      S.drop (S.length / 4 * 4) ++ [0] := by
    rw [hdiv, List.drop_append_of_le_length hq]
  obtain ⟨K, hK, hf⟩ :=
    murmur32x86v3.paddedFold_form_32x86 (S.drop (S.length / 4 * 4)) (by omega)
  have hf2 : murmur32x86v3.paddedFold (S.drop (S.length / 4 * 4) ++ [0]) m2.digest =
      some (m2.digest ^^^ K) := by
    have hz := zeroPad_snoc_zero (n := 4) (T := S.drop (S.length / 4 * 4)) (by omega)
    rw [← hf m2.digest]
    simp only [murmur32x86v3.paddedFold, hz]
  have s1 := murmur32x86v3.sumNil_padded_32x86 hm1
  have s2 := murmur32x86v3.sumNil_padded_32x86 hm2
  simp only [hf] at s1
  rw [hdrop, hf2, hlen, ← hd] at s2
  have hb := murmur32x86v3.holding_digest_lt_32x86 hs hm1
  refine ⟨PutUint32 (finalMix32 (m1.digest ^^^ K ^^^ S.length % 2 ^ 32)),
    PutUint32 (finalMix32 (m1.digest ^^^ K ^^^ (S.length + 1) % 2 ^ 32)), ?_, ?_, ?_⟩
  · simp only [murmur32x86v3.run, murmur32x86v3.call, e1]
    exact s1
  · simp only [murmur32x86v3.run, murmur32x86v3.call, e2]
    exact s2
  · intro e
    have c1 := PutUint32_inj (finalMix32_lt _) (finalMix32_lt _) e
    have c2 := finalMix32_inj
      (Nat.xor_lt_two_pow (Nat.xor_lt_two_pow hb hK) (Nat.mod_lt _ (by decide)))
      (Nat.xor_lt_two_pow (Nat.xor_lt_two_pow hb hK) (Nat.mod_lt _ (by decide))) c1
    have c3 : S.length % 2 ^ 32 = (S.length + 1) % 2 ^ 32 := Nat.xor_right_inj.mp c2
    omega

/-- Witness of C19 at seed 0 and the 43 bytes of `fox` without the last one (42 bytes). -/
theorem trailing_zero_not_absorbed_32x86_witness :
    (0 < 2 ^ 32 ∧ (fox.take 42).length % 4 ≠ 3) ∧
    ∃ d1 d2 : List Byte,
      murmur32x86v3.sumNil ((Murmur32x86v3 0).run [Call.write (fox.take 42)]) = some d1 ∧
      murmur32x86v3.sumNil ((Murmur32x86v3 0).run [Call.write (fox.take 42 ++ [0])]) =
        some d2 ∧
      d1 ≠ d2 :=
  ⟨⟨by decide, by decide⟩,
    trailing_zero_not_absorbed_32x86 0 (fox.take 42) (by decide) (by decide)⟩

/-- C20. `Sum32` and `Sum` of `Murmur32x86v3`: in every state reached from a fresh engine by
`Write`, `Sum` and `Reset` calls, `Sum32()` returns a value `v` and leaves the engine as it
was, and `Sum(nil)` is the 4-byte little-endian encoding of `v`, its first byte the least
significant byte of `v`. -/
theorem sum32_is_little_endian_sum (seed : Nat) (calls : List Call) :
    ∃ (m : murmur32x86v3) (v : Nat),
      (Murmur32x86v3 seed).run calls = some m ∧
      m.Sum32 = some (m, v) ∧ v < 2 ^ 32 ∧
      m.Sum [] = some (m, PutUint32 v) ∧
      (PutUint32 v).head? = some (byte v) := by
  obtain ⟨m, S, e, hm⟩ :=
    murmur32x86v3.run_holding_32x86 calls (murmur32x86v3.New_holding_32x86 seed)
  obtain ⟨K, _, hf⟩ := murmur32x86v3.sumNil_form_32x86 S
  obtain ⟨d, -, s, -⟩ := murmur32x86v3.Sum_holding_32x86 hm hm []
  rw [List.nil_append] at s
  have h1 := hf seed m hm
  simp only [murmur32x86v3.sumNil, s, Option.some.injEq] at h1
  rw [h1] at s
  refine ⟨m, _, e, ?_, finalMix32_lt _, s, rfl⟩
  simp only [murmur32x86v3.Sum32, s, Uint32_PutUint32, Nat.mod_eq_of_lt (finalMix32_lt _)]

end Murmur
